import Mathlib

/-!
Verification of the subscription-merge core (`scripts/merge.py`) of the
clash-web repository.

The Python data model (parsed YAML/JSON documents) is shallowly embedded as
the inductive type `PyVal`; Python dicts are insertion-ordered association
lists with string keys, which is how the merge code uses them.  Each
function of `merge.py` that the claims mention is translated to a Lean
definition of the same name, and the claims are settled as theorems about
those definitions.
-/

/-- A parsed Python value as produced by `yaml.safe_load` / `json.loads`:
`None`, booleans, integers, strings, lists and (string-keyed,
insertion-ordered) dicts.  Floats do not occur in the configuration
fragments the claims are about and are omitted. -/
inductive PyVal where
  | pnone
  | pbool (b : Bool)
  | pint (n : Int)
  | pstr (s : String)
  | plist (xs : List PyVal)
  | pdict (entries : List (String × PyVal))

mutual

/-- Boolean structural equality on `PyVal` (Python `==` on these values). -/
def pyBeq : PyVal → PyVal → Bool
  | .pnone, .pnone => true
  | .pbool a, .pbool b => a == b
  | .pint a, .pint b => a == b
  | .pstr a, .pstr b => a == b
  | .plist xs, .plist ys => pyBeqList xs ys
  | .pdict xs, .pdict ys => pyBeqEntries xs ys
  | _, _ => false

/-- Elementwise equality of `PyVal` lists. -/
def pyBeqList : List PyVal → List PyVal → Bool
  | [], [] => true
  | x :: xs, y :: ys => pyBeq x y && pyBeqList xs ys
  | _, _ => false

/-- Elementwise equality of dict entry lists. -/
def pyBeqEntries : List (String × PyVal) → List (String × PyVal) → Bool
  | [], [] => true
  | (k, v) :: xs, (l, w) :: ys => k == l && pyBeq v w && pyBeqEntries xs ys
  | _, _ => false

end

mutual

theorem pyBeq_iff : ∀ (a b : PyVal), pyBeq a b = true ↔ a = b
  | .pnone, b => by cases b <;> simp [pyBeq]
  | .pbool x, b => by cases b <;> simp [pyBeq]
  | .pint x, b => by cases b <;> simp [pyBeq]
  | .pstr x, b => by cases b <;> simp [pyBeq]
  | .plist xs, b => by
      cases b <;> simp [pyBeq]
      exact pyBeqList_iff xs _
  | .pdict xs, b => by
      cases b <;> simp [pyBeq]
      exact pyBeqEntries_iff xs _

theorem pyBeqList_iff : ∀ (xs ys : List PyVal), pyBeqList xs ys = true ↔ xs = ys
  | [], ys => by cases ys <;> simp [pyBeqList]
  | x :: xs, ys => by
      cases ys with
      | nil => simp [pyBeqList]
      | cons y ys => simp [pyBeqList, Bool.and_eq_true, pyBeq_iff x y, pyBeqList_iff xs ys]

theorem pyBeqEntries_iff : ∀ (xs ys : List (String × PyVal)), pyBeqEntries xs ys = true ↔ xs = ys
  | [], ys => by cases ys <;> simp [pyBeqEntries]
  | (k, v) :: xs, ys => by
      cases ys with
      | nil => simp [pyBeqEntries]
      | cons p ys =>
          obtain ⟨l, w⟩ := p
          simp [pyBeqEntries, Bool.and_eq_true, pyBeq_iff v w, pyBeqEntries_iff xs ys]

end

instance : DecidableEq PyVal := fun a b => decidable_of_iff (pyBeq a b = true) (pyBeq_iff a b)

/-! ### Decimal rendering of natural numbers (Python `str(n)` for `n : int`) -/

/-- Fuel-driven decimal digit list (most significant first); with enough
fuel this is exactly the decimal representation used by Python string
formatting. -/
def decDigits : Nat → Nat → List Char
  | 0, _ => []
  | fuel + 1, n =>
      if n < 10 then [Nat.digitChar n]
      else decDigits fuel (n / 10) ++ [Nat.digitChar (n % 10)]

/-- Decimal string of a natural number, as Python renders it. -/
def decRepr (n : Nat) : String := String.mk (decDigits (n + 1) n)

theorem decDigits_eq (fuel n : Nat) (h : n < fuel) :
    decDigits fuel n =
      if n = 0 then [Nat.digitChar 0] else ((Nat.digits 10 n).map Nat.digitChar).reverse := by
  induction fuel generalizing n with
  | zero => omega
  | succ fuel ih =>
      rw [decDigits]
      by_cases h10 : n < 10
      · rcases Nat.eq_zero_or_pos n with h0 | h0
        · subst h0
          simp
        · have hne : n ≠ 0 := by omega
          rw [if_pos h10, if_neg hne, Nat.digits_def' (by omega : 2 ≤ 10) h0,
            Nat.div_eq_of_lt h10, Nat.digits_zero, Nat.mod_eq_of_lt h10]
          simp
      · have hne : n ≠ 0 := by omega
        have hdiv : n / 10 < fuel := by
          have h1 : n / 10 < n := Nat.div_lt_self (by omega) (by omega)
          omega
        rw [if_neg h10, if_neg hne, ih (n / 10) hdiv,
          Nat.digits_def' (by omega : 2 ≤ 10) (by omega : 0 < n)]
        by_cases hq : n / 10 = 0
        · exact absurd ((Nat.div_eq_zero_iff (by omega)).mp hq) h10
        · rw [if_neg hq]
          simp

theorem digitChar_inj_lt : ∀ a, a < 10 → ∀ b, b < 10 → Nat.digitChar a = Nat.digitChar b → a = b := by
  decide

theorem map_digitChar_inj :
    ∀ (l1 l2 : List Nat), (∀ d ∈ l1, d < 10) → (∀ d ∈ l2, d < 10) →
      l1.map Nat.digitChar = l2.map Nat.digitChar → l1 = l2 := by
  intro l1
  induction l1 with
  | nil => intro l2 _ _ h; cases l2 <;> simp_all
  | cons a l1 ih =>
      intro l2 h1 h2 h
      cases l2 with
      | nil => simp at h
      | cons b l2 =>
          simp only [List.map_cons, List.cons.injEq] at h
          have ha : a = b :=
            digitChar_inj_lt a (h1 a (by simp)) b (h2 b (by simp)) h.1
          have : l1 = l2 := ih l2 (fun d hd => h1 d (by simp [hd])) (fun d hd => h2 d (by simp [hd])) h.2
          simp [ha, this]

theorem decRepr_inj : ∀ {m n : Nat}, decRepr m = decRepr n → m = n := by
  intro m n h
  have hchars : decDigits (m + 1) m = decDigits (n + 1) n := by
    have := congrArg String.data h
    simpa [decRepr] using this
  rw [decDigits_eq (m + 1) m (by omega), decDigits_eq (n + 1) n (by omega)] at hchars
  by_cases hm : m = 0 <;> by_cases hn : n = 0
  · omega
  · exfalso
    rw [if_pos hm, if_neg hn] at hchars
    have hrev := congrArg List.reverse hchars
    simp only [List.reverse_reverse] at hrev
    have hd0 : Nat.digits 10 n = [0] := by
      have hlt : ∀ d ∈ Nat.digits 10 n, d < 10 := fun d hd => Nat.digits_lt_base (by omega) hd
      apply map_digitChar_inj (Nat.digits 10 n) [0] hlt (by simp)
      rw [← hrev]
      simp
    have h1 := Nat.ofDigits_digits 10 n
    rw [hd0] at h1
    simp [Nat.ofDigits] at h1
    exact hn h1.symm
  · exfalso
    rw [if_neg hm, if_pos hn] at hchars
    have hd0 : Nat.digits 10 m = [0] := by
      have hlt : ∀ d ∈ Nat.digits 10 m, d < 10 := fun d hd => Nat.digits_lt_base (by omega) hd
      apply map_digitChar_inj (Nat.digits 10 m) [0] hlt (by simp)
      have hrev := congrArg List.reverse hchars
      simp only [List.reverse_reverse] at hrev
      rw [hrev]
      simp
    have h1 := Nat.ofDigits_digits 10 m
    rw [hd0] at h1
    simp [Nat.ofDigits] at h1
    exact hm h1.symm
  · rw [if_neg hm, if_neg hn] at hchars
    have hrev := congrArg List.reverse hchars
    simp only [List.reverse_reverse] at hrev
    have hdig : Nat.digits 10 m = Nat.digits 10 n := by
      apply map_digitChar_inj _ _ (fun d hd => Nat.digits_lt_base (by omega) hd)
        (fun d hd => Nat.digits_lt_base (by omega) hd) hrev
    calc m = Nat.ofDigits 10 (Nat.digits 10 m) := (Nat.ofDigits_digits 10 m).symm
      _ = Nat.ofDigits 10 (Nat.digits 10 n) := by rw [hdig]
      _ = n := Nat.ofDigits_digits 10 n

/-! ### String helpers mirroring the Python string operations used by merge.py -/

/-- The ASCII whitespace characters stripped by Python `str.strip()`. -/
def pyWsChars : List Char :=
  [Char.ofNat 32, Char.ofNat 9, Char.ofNat 10, Char.ofNat 13, Char.ofNat 11, Char.ofNat 12]

/-- Is this character whitespace for `str.strip()`? -/
def isPyWs (c : Char) : Bool := c ∈ pyWsChars

/-- `strip()` at the character-list level. -/
def stripChars (l : List Char) : List Char :=
  ((l.dropWhile isPyWs).reverse.dropWhile isPyWs).reverse

/-- Python `s.strip()`: remove leading and trailing whitespace. -/
def pyStrip (s : String) : String :=
  String.mk (stripChars s.data)

/-- Python `s.startswith(p)`. -/
def sStartsWith (s p : String) : Bool := p.data.isPrefixOf s.data

/-- Python `s.upper()` (the strings involved are ASCII). -/
def pyUpper (s : String) : String := String.mk (s.data.map Char.toUpper)

/-- Python `sep.join(parts)`. -/
def joinSep (sep : String) : List String → String
  | [] => String.mk []
  | [x] => x
  | x :: xs => x ++ sep ++ joinSep sep xs

/-- A single-quote character as a string (used by Python `repr`). -/
def pyQuote : String := String.mk [Char.ofNat 39]

/-- Escape backslashes and single quotes, as Python `repr` does for the
common cases arising here. -/
def escapeRepr (s : String) : String :=
  String.mk (s.data.foldr
    (fun c acc => if c = Char.ofNat 39 ∨ c = Char.ofNat 92 then Char.ofNat 92 :: c :: acc else c :: acc)
    [])

/-- Python `str(i)` for an integer. -/
def intRepr (i : Int) : String :=
  if i < 0 then r"-" ++ decRepr i.natAbs else decRepr i.toNat

/-- Opening brace as a string. -/
def lbr : String := String.mk [Char.ofNat 123]

/-- Closing brace as a string. -/
def rbr : String := String.mk [Char.ofNat 125]

mutual

/-- Python `repr(v)` (up to quote-choice details that never matter here). -/
def pyRepr : PyVal → String
  | .pnone => r"None"
  | .pbool true => r"True"
  | .pbool false => r"False"
  | .pint n => intRepr n
  | .pstr s => pyQuote ++ escapeRepr s ++ pyQuote
  | .plist xs => r"[" ++ joinSep (r", ") (pyReprList xs) ++ r"]"
  | .pdict es => lbr ++ joinSep (r", ") (pyReprEntries es) ++ rbr

/-- `repr` of each element of a list. -/
def pyReprList : List PyVal → List String
  | [] => []
  | x :: xs => pyRepr x :: pyReprList xs

/-- `repr` of each `key: value` pair of a dict. -/
def pyReprEntries : List (String × PyVal) → List String
  | [] => []
  | (k, v) :: es => (pyQuote ++ escapeRepr k ++ pyQuote ++ r": " ++ pyRepr v) :: pyReprEntries es

end

/-- Python `str(v)`: the string itself for strings, `repr`-style rendering
otherwise (`str(None) = "None"`). -/
def pyStr (v : PyVal) : String :=
  match v with
  | .pstr s => s
  | _ => pyRepr v

/-- Python truthiness of a value. -/
def pyTruthy : PyVal → Bool
  | .pnone => false
  | .pbool b => b
  | .pint n => n ≠ 0
  | .pstr s => s ≠ String.mk []
  | .plist xs => ¬xs.isEmpty
  | .pdict es => ¬es.isEmpty

/-! ### Python dicts as insertion-ordered association lists -/

/-- Lookup in an insertion-ordered association list. -/
def assocGet {β : Type} (l : List (String × β)) (k : String) : Option β :=
  (l.find? (fun e => e.1 == k)).map (fun e => e.2)

/-- Update-in-place-or-append for an insertion-ordered association list. -/
def assocSet {β : Type} (l : List (String × β)) (k : String) (v : β) : List (String × β) :=
  match l with
  | [] => [(k, v)]
  | (k1, v1) :: rest => if k1 = k then (k, v) :: rest else (k1, v1) :: assocSet rest k v

/-- Remove the first binding of a key, if present. -/
def assocPop {β : Type} (l : List (String × β)) (k : String) : List (String × β) :=
  match l with
  | [] => []
  | (k1, v1) :: rest => if k1 = k then rest else (k1, v1) :: assocPop rest k

/-- `d.get(k)`: value of the first binding of `k`, if any. -/
def dget (d : List (String × PyVal)) (k : String) : Option PyVal :=
  assocGet d k

/-- `d.get(k, default)`. -/
def dgetD (d : List (String × PyVal)) (k : String) (v : PyVal) : PyVal :=
  (dget d k).getD v

/-- `d[k] = v`: update the binding in place, or append a new one. -/
def dset (d : List (String × PyVal)) (k : String) (v : PyVal) : List (String × PyVal) :=
  assocSet d k v

/-- `d.pop(k, default)` restricted to its removal effect. -/
def dpop (d : List (String × PyVal)) (k : String) : List (String × PyVal) :=
  assocPop d k

/-- The keys of a dict, in order. -/
def dkeys (d : List (String × PyVal)) : List String := d.map Prod.fst

/-- The elements of a Python list that are dicts, in order. -/
def dictItems (xs : List PyVal) : List (List (String × PyVal)) :=
  xs.filterMap (fun v => match v with | .pdict d => some d | _ => none)

/-- `x.get(k, [])` followed by `if not isinstance(x, list): x = []`. -/
def asListD (o : Option PyVal) : List PyVal :=
  match o with
  | some (.plist xs) => xs
  | _ => []

/-- `value if isinstance(value, list) else []`. -/
def asListOrNil (v : PyVal) : List PyVal :=
  match v with
  | .plist xs => xs
  | _ => []

/-! ### merge.py: unique_items -/

/-- The loop of `unique_items`, with the set of already-seen items. -/
def uniqueGo {α : Type} [DecidableEq α] (seen : List α) : List α → List α
  | [] => []
  | x :: xs => if x ∈ seen then uniqueGo seen xs else x :: uniqueGo (x :: seen) xs

/-- `unique_items`: order-preserving deduplication, first occurrence wins. -/
def unique_items {α : Type} [DecidableEq α] (l : List α) : List α := uniqueGo [] l

/-! ### merge.py: proxy_fingerprint -/

/-- The fixed identity field set of `proxy_fingerprint`. -/
def fpKeys : List String :=
  [r"type", r"server", r"port", r"uuid", r"password", r"cipher", r"network", r"plugin"]

/-- `proxy_fingerprint(proxy)`: join `str(proxy.get(key, ""))` over the
identity fields with a pipe separator. -/
def proxy_fingerprint (p : List (String × PyVal)) : String :=
  joinSep (r"|") (fpKeys.map (fun k => pyStr (dgetD p k (.pstr (r"")))))

/-! ### merge.py: ensure_unique_proxy_names -/

/-- `proxy.get("name") or "node"`. -/
def pyOrNode (v : PyVal) : PyVal := if pyTruthy v then v else .pstr (r"node")

/-- `str(proxy.get("name") or "node").strip()`. -/
def baseName (p : List (String × PyVal)) : String :=
  pyStrip (pyStr (pyOrNode (dgetD p (r"name") .pnone)))

/-- The retry loop of `ensure_unique_proxy_names`: starting from `count`,
find the first suffix making `name_count` unused.  `fuel` bounds the search;
`usedFuelSufficient` below shows the bound used by the caller always
suffices, so the `none` case never arises there. -/
def pickAux (name : String) : Nat → Nat → List (String × Nat) → Option Nat
  | _, 0, _ => none
  | count, fuel + 1, used =>
      if (assocGet used (name ++ r"_" ++ decRepr count)).isSome then
        pickAux name (count + 1) fuel used
      else some count

/-- The candidate counter chosen by the retry loop. -/
def pickCount (name : String) (count : Nat) (used : List (String × Nat)) : Nat :=
  (pickAux name count (used.length + 1) used).getD count

/-- The main loop of `ensure_unique_proxy_names`, with the `used` counter
map as explicit state. -/
def euGo : List (String × Nat) → List (List (String × PyVal)) → List (List (String × PyVal))
  | _, [] => []
  | used, p :: ps =>
      let n := baseName p
      match assocGet used n with
      | none => dset p (r"name") (.pstr n) :: euGo (assocSet used n 1) ps
      | some count =>
          let c := pickCount n count used
          let cand := n ++ r"_" ++ decRepr c
          dset p (r"name") (.pstr cand) :: euGo (assocSet (assocSet used n (c + 1)) cand 1) ps

/-- `ensure_unique_proxy_names(proxies)`. -/
def ensure_unique_proxy_names (proxies : List (List (String × PyVal))) :
    List (List (String × PyVal)) :=
  euGo [] proxies

/-! ### merge.py: deduplicate_proxies -/

/-- The fingerprint-set loop of `deduplicate_proxies`. -/
def dedupGo (seen : List String) : List (List (String × PyVal)) → List (List (String × PyVal))
  | [] => []
  | p :: ps =>
      let fp := proxy_fingerprint p
      if fp ∈ seen then dedupGo seen ps else p :: dedupGo (fp :: seen) ps

/-- `deduplicate_proxies(proxies)`: drop duplicate fingerprints (first
occurrence wins), then make names unique. -/
def deduplicate_proxies (proxies : List (List (String × PyVal))) :
    List (List (String × PyVal)) :=
  ensure_unique_proxy_names (dedupGo [] proxies)

/-! ### merge.py: merge_group_lists -/

/-- Does this list entry count as a group (`isinstance(group, dict) and
group.get("name")`)? -/
def isValidGroup (v : PyVal) : Bool :=
  match v with
  | .pdict d => pyTruthy (dgetD d (r"name") .pnone)
  | _ => false

/-- `str(group["name"])` for a valid group dict. -/
def groupKey (d : List (String × PyVal)) : String := pyStr (dgetD d (r"name") .pnone)

/-- First loop of `merge_group_lists`: seed `by_name` from the base list. -/
def insBaseGroup (acc : List (String × List (String × PyVal))) (g : PyVal) :
    List (String × List (String × PyVal)) :=
  match g with
  | .pdict d => if pyTruthy (dgetD d (r"name") .pnone) then assocSet acc (groupKey d) d else acc
  | _ => acc

/-- Merge an incoming group dict into an existing one: non-member fields
overwrite, member lists union (when both are lists). -/
def mergeGroupInto (existing incoming : List (String × PyVal)) : List (String × PyVal) :=
  let ip := dgetD incoming (r"proxies") (.plist [])
  let ep := dgetD existing (r"proxies") (.plist [])
  let e2 := incoming.foldl (fun acc e => if e.1 = r"proxies" then acc else dset acc e.1 e.2) existing
  match ep, ip with
  | .plist eps, .plist ips => dset e2 (r"proxies") (.plist (unique_items (eps ++ ips)))
  | _, _ => e2

/-- Second loop of `merge_group_lists`: fold the incoming list into
`by_name`. -/
def insNewGroup (acc : List (String × List (String × PyVal))) (g : PyVal) :
    List (String × List (String × PyVal)) :=
  match g with
  | .pdict d =>
      if pyTruthy (dgetD d (r"name") .pnone) then
        let key := groupKey d
        match assocGet acc key with
        | none => assocSet acc key d
        | some existing => assocSet acc key (mergeGroupInto existing d)
      else acc
  | _ => acc

/-- `merge_group_lists(groups, new_groups)`. -/
def merge_group_lists (groups new_groups : List PyVal) : List PyVal :=
  ((new_groups.foldl insNewGroup (groups.foldl insBaseGroup [])).map (fun e => PyVal.pdict e.2))

/-! ### merge.py: place_rules_before_match -/

/-- `[r for r in rules if isinstance(r, str) and r.strip()]`. -/
def cleanRules (l : List PyVal) : List String :=
  l.filterMap (fun v =>
    match v with
    | .pstr s => if pyStrip s = r"" then none else some s
    | _ => none)

/-- `place_rules_before_match(existing, new_rules)`. -/
def place_rules_before_match (existing new_rules : List PyVal) : List String :=
  let existing_clean := cleanRules existing
  let new_clean := cleanRules new_rules
  let match_rules := existing_clean.filter (fun ru => sStartsWith ru (r"MATCH,"))
  let non_match_rules := existing_clean.filter (fun ru => ¬ sStartsWith ru (r"MATCH,"))
  unique_items (new_clean ++ non_match_rules ++ match_rules)

/-! ### merge.py: deep_merge_config -/

/-- Keys with specialized merge policies in `deep_merge_config`. -/
def isSpecialKey (k : String) : Bool :=
  k = r"proxy-groups" ∨ k = r"rules" ∨ k = r"proxies"

/-- The three specialized per-key policies of `deep_merge_config`
(group-list merge, rule insertion, node dedup); for any other key this is
plain replacement. -/
def specialEntry (base : List (String × PyVal)) (k : String) (v : PyVal) :
    List (String × PyVal) :=
  if k = r"proxy-groups" then
    dset base k (.plist (merge_group_lists (asListD (dget base k)) (asListOrNil v)))
  else if k = r"rules" then
    dset base k (.plist ((place_rules_before_match (asListD (dget base k)) (asListOrNil v)).map PyVal.pstr))
  else if k = r"proxies" then
    dset base k
      (.plist ((deduplicate_proxies (dictItems (asListD (dget base k) ++ asListOrNil v))).map PyVal.pdict))
  else dset base k v

mutual

/-- `deep_merge_config(base, override)`: fold the override's entries into
the base, with specialized policies for `proxy-groups`, `rules` and
`proxies`, recursive merge when both sides hold dicts, and replacement
otherwise. -/
def deep_merge_config : List (String × PyVal) → List (String × PyVal) → List (String × PyVal)
  | base, [] => base
  | base, (k, v) :: rest => deep_merge_config (mergeEntry base k v) rest

/-- Merge a single override entry into the (current) base. -/
def mergeEntry (base : List (String × PyVal)) (k : String) : PyVal → List (String × PyVal)
  | .pdict od =>
      if isSpecialKey k then specialEntry base k (.pdict od)
      else
        match dget base k with
        | some (.pdict d) => dset base k (.pdict (deep_merge_config d od))
        | _ => dset base k (.pdict od)
  | v => if isSpecialKey k then specialEntry base k v else dset base k v

end

/-! ### merge.py: add_proxies_to_group -/

/-- `add_proxies_to_group(group, proxy_names)`. -/
def add_proxies_to_group (g : List (String × PyVal)) (proxy_names : List String) :
    List (String × PyVal) :=
  let use_all := pyTruthy (dgetD g (r"use_all_proxies") (.pbool false))
  let cloned := dpop g (r"use_all_proxies")
  if use_all then
    let current := asListD (dget cloned (r"proxies"))
    dset cloned (r"proxies") (.plist (unique_items (current ++ proxy_names.map PyVal.pstr)))
  else cloned

/-! ### merge.py: list_proxy_names -/

/-- `list_proxy_names(config)`. -/
def list_proxy_names (config : List (String × PyVal)) : List String :=
  let names := (asListD (dget config (r"proxies"))).filterMap (fun item =>
    match item with
    | .pdict d =>
        let n := pyStrip (pyStr (dgetD d (r"name") (.pstr (r""))))
        if n = r"" then none else some n
    | _ => none)
  unique_items names

/-! ### merge.py: sanitize_proxy_groups -/

/-- One source-list cleanup of `sanitize_proxy_groups`: when the field
holds a list, trim entries via `str(item).strip()`, drop empties,
deduplicate, and either store the cleaned list or pop the field when
nothing is left; any non-list field is left alone. -/
def cleanStage (g : List (String × PyVal)) (k : String) : List (String × PyVal) :=
  match dget g k with
  | some (.plist us) =>
      let cleaned := us.filterMap (fun item =>
        let s := pyStrip (pyStr item)
        if s = r"" then none else some s)
      if cleaned ≠ [] then dset g k (.plist ((unique_items cleaned).map PyVal.pstr))
      else dpop g k
  | _ => g

/-- Per-group body of `sanitize_proxy_groups`: trim and deduplicate the
`use` and `proxies` source lists, then repair a group left with neither. -/
def sanitizeGroup (fallback : List String) (g : List (String × PyVal)) :
    List (String × PyVal) :=
  let g2 := cleanStage (cleanStage g (r"use")) (r"proxies")
  if ¬ pyTruthy (dgetD g2 (r"use") .pnone) ∧ ¬ pyTruthy (dgetD g2 (r"proxies") .pnone) then
    dset g2 (r"proxies") (.plist (fallback.map PyVal.pstr))
  else g2

/-- `sanitize_proxy_groups(config)`. -/
def sanitize_proxy_groups (config : List (String × PyVal)) : List (String × PyVal) :=
  match dget config (r"proxy-groups") with
  | some (.plist groups) =>
      let available := list_proxy_names config
      let fallback := unique_items (available ++ [r"DIRECT"])
      let fixed := groups.filterMap (fun g =>
        match g with
        | .pdict d => some (PyVal.pdict (sanitizeGroup fallback d))
        | _ => none)
      dset config (r"proxy-groups") (.plist fixed)
  | some _ => config
  | none => dset config (r"proxy-groups") (.plist [])

/-! ### merge.py: apply_subscription_data / apply_site_policy -/

/-- `apply_subscription_data(config, proxies)`. -/
def apply_subscription_data (config : List (String × PyVal))
    (proxies : List (List (String × PyVal))) : List (String × PyVal) :=
  let o1 := dset config (r"proxies") (.plist (proxies.map PyVal.pdict))
  let proxy_names := proxies.filterMap (fun p =>
    if pyTruthy (dgetD p (r"name") .pnone) then some (pyStr (dgetD p (r"name") (.pstr (r""))))
    else none)
  let groups := asListD (dget o1 (r"proxy-groups"))
  let rendered := groups.filterMap (fun g =>
    match g with
    | .pdict d => some (add_proxies_to_group d proxy_names)
    | _ => none)
  let rendered2 :=
    if rendered.isEmpty then
      [[((r"name" : String), PyVal.pstr (r"PROXY")), ((r"type" : String), PyVal.pstr (r"select")),
        ((r"proxies" : String), PyVal.plist ((unique_items ((r"DIRECT") :: proxy_names)).map PyVal.pstr))]]
    else rendered
  dset o1 (r"proxy-groups") (.plist (rendered2.map PyVal.pdict))

/-- `apply_site_policy(config, site_policy, proxy_names)`. -/
def apply_site_policy (config site_policy : List (String × PyVal))
    (proxy_names : List String) : List (String × PyVal) :=
  let rendered :=
    match dgetD site_policy (r"groups") (.plist []) with
    | .plist gs => gs.filterMap (fun g =>
        match g with
        | .pdict d => some (PyVal.pdict (add_proxies_to_group d proxy_names))
        | _ => none)
    | _ => []
  let existing_groups := asListD (dget config (r"proxy-groups"))
  let o1 := dset config (r"proxy-groups") (.plist (merge_group_lists existing_groups rendered))
  match dgetD site_policy (r"rules") (.plist []) with
  | .plist irs =>
      let existing_rules := asListD (dget o1 (r"rules"))
      dset o1 (r"rules") (.plist ((place_rules_before_match existing_rules irs).map PyVal.pstr))
  | _ => o1

/-! ### A JSON reader standing in for `json.loads` (integers, strings,
booleans, null, arrays, objects) -/

/-- JSON insignificant whitespace. -/
def jsonSkipWs (cs : List Char) : List Char :=
  cs.dropWhile (fun c => c = Char.ofNat 32 ∨ c = Char.ofNat 9 ∨ c = Char.ofNat 10 ∨ c = Char.ofNat 13)

/-- Parse the remainder of a JSON string literal (after the opening
quote), handling the common escapes. -/
def jsParseStrChars : List Char → Option (List Char × List Char)
  | [] => none
  | c :: rest =>
      if c = Char.ofNat 34 then some ([], rest)
      else if c = Char.ofNat 92 then
        match rest with
        | [] => none
        | e :: rest2 =>
            let decoded :=
              if e = Char.ofNat 110 then Char.ofNat 10
              else if e = Char.ofNat 116 then Char.ofNat 9
              else if e = Char.ofNat 114 then Char.ofNat 13
              else e
            (jsParseStrChars rest2).map (fun pr => (decoded :: pr.1, pr.2))
      else (jsParseStrChars rest).map (fun pr => (c :: pr.1, pr.2))

/-- Is this an ASCII digit? -/
def isDigitChar (c : Char) : Bool := 48 ≤ c.toNat ∧ c.toNat ≤ 57

/-- Parse a run of decimal digits into a natural number. -/
def jsDigitsVal (ds : List Char) : Nat :=
  ds.foldl (fun a c => a * 10 + (c.toNat - 48)) 0

mutual

/-- Parse one JSON value. -/
def jsParseVal : Nat → List Char → Option (PyVal × List Char)
  | 0, _ => none
  | fuel + 1, cs =>
      match jsonSkipWs cs with
      | [] => none
      | c :: rest =>
          if c = Char.ofNat 110 then
            match rest with
            | u :: l1 :: l2 :: rest2 =>
                if u = Char.ofNat 117 ∧ l1 = Char.ofNat 108 ∧ l2 = Char.ofNat 108 then
                  some (.pnone, rest2)
                else none
            | _ => none
          else if c = Char.ofNat 116 then
            match rest with
            | r1 :: u :: e1 :: rest2 =>
                if r1 = Char.ofNat 114 ∧ u = Char.ofNat 117 ∧ e1 = Char.ofNat 101 then
                  some (.pbool true, rest2)
                else none
            | _ => none
          else if c = Char.ofNat 102 then
            match rest with
            | a1 :: l1 :: s1 :: e1 :: rest2 =>
                if a1 = Char.ofNat 97 ∧ l1 = Char.ofNat 108 ∧ s1 = Char.ofNat 115 ∧ e1 = Char.ofNat 101 then
                  some (.pbool false, rest2)
                else none
            | _ => none
          else if c = Char.ofNat 34 then
            (jsParseStrChars rest).map (fun pr => (.pstr (String.mk pr.1), pr.2))
          else if c = Char.ofNat 91 then
            jsParseArr fuel rest
          else if c = Char.ofNat 123 then
            jsParseObj fuel rest
          else if c = Char.ofNat 45 then
            let ds := rest.takeWhile isDigitChar
            if ds.isEmpty then none
            else some (.pint (-(jsDigitsVal ds : Int)), rest.dropWhile isDigitChar)
          else if isDigitChar c then
            let ds := (c :: rest).takeWhile isDigitChar
            some (.pint (jsDigitsVal ds : Int), (c :: rest).dropWhile isDigitChar)
          else none

/-- Parse the inside of a JSON array (after the opening bracket). -/
def jsParseArr : Nat → List Char → Option (PyVal × List Char)
  | 0, _ => none
  | fuel + 1, cs =>
      match jsonSkipWs cs with
      | c :: rest =>
          if c = Char.ofNat 93 then some (.plist [], rest)
          else
            (jsParseVal fuel cs).bind (fun pr => jsParseArrRest fuel pr.1 [] pr.2)
      | [] => none

/-- Parse the continuation of a JSON array after one element. -/
def jsParseArrRest : Nat → PyVal → List PyVal → List Char → Option (PyVal × List Char)
  | 0, _, _, _ => none
  | fuel + 1, v, acc, cs =>
      match jsonSkipWs cs with
      | c :: rest =>
          if c = Char.ofNat 93 then some (.plist ((acc.reverse) ++ [v]), rest)
          else if c = Char.ofNat 44 then
            (jsParseVal fuel rest).bind (fun pr => jsParseArrRest fuel pr.1 (v :: acc) pr.2)
          else none
      | [] => none

/-- Parse the inside of a JSON object (after the opening brace). -/
def jsParseObj : Nat → List Char → Option (PyVal × List Char)
  | 0, _ => none
  | fuel + 1, cs =>
      match jsonSkipWs cs with
      | c :: rest =>
          if c = Char.ofNat 125 then some (.pdict [], rest)
          else jsParseObjEntries fuel [] cs
      | [] => none

/-- Parse `"key": value` pairs of a JSON object. -/
def jsParseObjEntries : Nat → List (String × PyVal) → List Char → Option (PyVal × List Char)
  | 0, _, _ => none
  | fuel + 1, acc, cs =>
      match jsonSkipWs cs with
      | c :: rest =>
          if c = Char.ofNat 34 then
            (jsParseStrChars rest).bind (fun kp =>
              match jsonSkipWs kp.2 with
              | c2 :: rest2 =>
                  if c2 = Char.ofNat 58 then
                    (jsParseVal fuel rest2).bind (fun vp =>
                      match jsonSkipWs vp.2 with
                      | c3 :: rest3 =>
                          if c3 = Char.ofNat 125 then
                            some (.pdict (acc ++ [(String.mk kp.1, vp.1)]), rest3)
                          else if c3 = Char.ofNat 44 then
                            jsParseObjEntries fuel (acc ++ [(String.mk kp.1, vp.1)]) rest3
                          else none
                      | [] => none)
                  else none
              | [] => none)
          else none
      | [] => none

end

/-- `json.loads(s)` for the JSON fragment above: one value, with only
trailing whitespace allowed. -/
def pyJsonLoads (s : String) : Option PyVal :=
  match jsParseVal (s.data.length + 1) s.data with
  | some (v, rest) => if jsonSkipWs rest = [] then some v else none
  | none => none

/-! ### merge.py: apply_js_override -/

/-- The observable outcome of the sandbox subprocess invocation
(`subprocess.run` of the node runner): the launch can fail because the
interpreter is missing, the wall-clock timeout can expire, or the process
completes with an exit code, captured stdout and captured stderr. -/
inductive SandboxOutcome where
  | nodeMissing
  | timeout
  | completed (rc : Int) (stdout stderr : String)

/-- `apply_js_override(config, script_text)`, with the subprocess outcome
made an explicit argument; `Except.error` is a raised exception. -/
def apply_js_override (config : List (String × PyVal)) (script_text : String)
    (run : SandboxOutcome) : Except String (List (String × PyVal)) :=
  if pyStrip script_text = r"" then .ok config
  else
    match run with
    | .nodeMissing => .error (r"node runtime not found")
    | .timeout => .error (r"override.js execution timeout")
    | .completed rc out err =>
        if rc ≠ 0 then
          .error (if pyStrip err = r"" then r"unknown js execution error" else pyStrip err)
        else
          let stdout := pyStrip out
          if stdout = r"" then .error (r"override.js returned empty output")
          else
            match pyJsonLoads stdout with
            | none => .error (r"invalid json in override.js output")
            | some (.pdict d) => .ok d
            | some _ => .error (r"override.js output must be a json object")

/-! ### merge.py: runtime environment stages and the pipeline -/

/-- The environment/operator inputs read by the runtime stages. -/
structure RunEnv where
  externalControllerRaw : String
  mixedPort : Option Int
  socksPort : Option Int
  secret : Option String
  disableGeoip : Bool

/-- `get_external_controller()`. -/
def get_external_controller (env : RunEnv) : String :=
  let configured := pyStrip env.externalControllerRaw
  if configured = r"" then r"0.0.0.0:9090" else configured

/-- `ensure_runtime_values(config)`. -/
def ensure_runtime_values (env : RunEnv) (config : List (String × PyVal)) :
    List (String × PyVal) :=
  let o1 := dset config (r"allow-lan") (.pbool true)
  let o2 := dset o1 (r"bind-address") (.pstr (r"*"))
  let o3 := dset o2 (r"external-controller") (.pstr (get_external_controller env))
  let o4 := match env.mixedPort with | some n => dset o3 (r"mixed-port") (.pint n) | none => o3
  let o5 := match env.socksPort with | some n => dset o4 (r"socks-port") (.pint n) | none => o4
  match env.secret with
  | some s => if s ≠ r"" then dset o5 (r"secret") (.pstr s) else o5
  | none => o5

/-- `maybe_disable_geoip_rules(config)`. -/
def maybe_disable_geoip_rules (env : RunEnv) (config : List (String × PyVal)) :
    List (String × PyVal) :=
  if ¬ env.disableGeoip then config
  else
    match dget config (r"rules") with
    | some (.plist rules) =>
        let kept := rules.filter (fun rule =>
          ! (match rule with
             | .pstr s => sStartsWith (pyUpper (pyStrip s)) (r"GEOIP,")
             | _ => false))
        if kept.length = rules.length then config else dset config (r"rules") (.plist kept)
    | _ => config

/-- Result of one subscription fetch (`fetch_subscription` together with
its surrounding `try`): either an exception, or the filtered node list and
the raw response text. -/
inductive FetchOutcome where
  | fail (msg : String)
  | fetched (proxies : List (List (String × PyVal))) (raw : String)

/-- The durable state the pipeline can touch: the config file, the backup
directory, and the per-subscription snapshot files. -/
structure DiskState where
  configFile : Option (List (String × PyVal))
  backups : List (List (String × PyVal))
  subSnapshots : List (String × List (List (String × PyVal)))
  rawSnapshots : List (String × String)

/-- One iteration of the subscription loop of `merge_subscriptions`:
accumulates fetched nodes, counts enabled subscriptions, and writes the
per-subscription snapshot files. -/
def subsStep (st : List (List (String × PyVal)) × Nat × DiskState)
    (item : PyVal × FetchOutcome) :
    List (List (String × PyVal)) × Nat × DiskState :=
  match item.1 with
  | .pdict sub =>
      if pyTruthy (dgetD sub (r"enabled") (.pbool true)) then
        let s0 := pyStrip (pyStr (dgetD sub (r"name") (.pstr (r"sub"))))
        let nm := if s0 = r"" then r"sub" else s0
        match item.2 with
        | .fetched proxies raw =>
            let disk := st.2.2
            let disk1 := { disk with subSnapshots := assocSet disk.subSnapshots nm proxies }
            let disk2 :=
              if pyTruthy (dgetD sub (r"save_raw") (.pbool false)) then
                { disk1 with rawSnapshots := assocSet disk1.rawSnapshots nm raw }
              else disk1
            (st.1 ++ proxies, st.2.1 + 1, disk2)
        | .fail _ => (st.1, st.2.1 + 1, st.2.2)
      else st
  | _ => st

/-- `merge_subscriptions()`, with every external input (loaded documents,
per-subscription fetch outcomes, sandbox outcome, environment, and whether
the backup copy succeeds) made explicit, and the filesystem modelled by
`DiskState`.  `Except.error` is an exception escaping the function. -/
def merge_subscriptions (subs : List (PyVal × FetchOutcome))
    (template site_policy : List (String × PyVal)) (override : PyVal)
    (override_script : String) (sandbox : SandboxOutcome) (env : RunEnv)
    (backupOk : Bool) (disk : DiskState) : Except String Int × DiskState :=
  let st := subs.foldl subsStep ([], 0, disk)
  let merged_proxies := st.1
  let disk1 := st.2.2
  let deduped := deduplicate_proxies merged_proxies
  let config0 := apply_subscription_data template deduped
  let proxy_names := deduped.filterMap (fun p =>
    if pyTruthy (dgetD p (r"name") .pnone) then some (pyStr (dgetD p (r"name") (.pstr (r""))))
    else none)
  let config1 := apply_site_policy config0 site_policy proxy_names
  let config2 := deep_merge_config config1 (match override with | .pdict od => od | _ => [])
  match (if pyStrip override_script ≠ r"" then apply_js_override config2 override_script sandbox
         else .ok config2) with
  | .error e => (.error e, disk1)
  | .ok config3 =>
      let config4 := ensure_runtime_values env config3
      let config5 := sanitize_proxy_groups config4
      let config6 := maybe_disable_geoip_rules env config5
      match disk1.configFile with
      | some old =>
          if backupOk then
            (.ok 0, { disk1 with configFile := some config6, backups := disk1.backups ++ [old] })
          else (.error (r"backup copy failed"), disk1)
      | none => (.ok 0, { disk1 with configFile := some config6 })

/-! ### Proof-support definitions -/

/-- One step of the `used` counter-map evolution of
`ensure_unique_proxy_names`. -/
def euUsedStep (used : List (String × Nat)) (p : List (String × PyVal)) :
    List (String × Nat) :=
  match assocGet used (baseName p) with
  | none => assocSet used (baseName p) 1
  | some count =>
      let c := pickCount (baseName p) count used
      assocSet (assocSet used (baseName p) (c + 1)) (baseName p ++ r"_" ++ decRepr c) 1

/-- The name assigned to one proxy given the current `used` map. -/
def euAssign (used : List (String × Nat)) (p : List (String × PyVal)) : String :=
  match assocGet used (baseName p) with
  | none => baseName p
  | some count => baseName p ++ r"_" ++ decRepr (pickCount (baseName p) count used)

/-- The `used` map after a whole list of proxies. -/
def euUsed (used : List (String × Nat)) (ps : List (List (String × PyVal))) :
    List (String × Nat) :=
  ps.foldl euUsedStep used

/-- The list of names assigned by `euGo`, state threaded the same way. -/
def euNamesList (used : List (String × Nat)) : List (List (String × PyVal)) → List String
  | [] => []
  | p :: ps => euAssign used p :: euNamesList (euUsedStep used p) ps

/-- Invariant of the `used` map: a stored counter `cnt` for `nm` means
every candidate `nm_j` with `1 ≤ j < cnt` is already a key. -/
def UsedInv (u : List (String × Nat)) : Prop :=
  ∀ nm cnt, assocGet u nm = some cnt →
    ∀ j, 1 ≤ j → j < cnt → (assocGet u (nm ++ r"_" ++ decRepr j)).isSome

/-- All stored counters are at least 1. -/
def CountsPos (u : List (String × Nat)) : Prop :=
  ∀ nm cnt, assocGet u nm = some cnt → 1 ≤ cnt

/-- Specification-side description of "keep exactly the first node of each
fingerprint": keep the head, drop every later node with an equal
fingerprint, recurse. -/
def firstOccByFp : List (List (String × PyVal)) → List (List (String × PyVal))
  | [] => []
  | p :: ps =>
      p :: firstOccByFp (ps.filter (fun q => proxy_fingerprint q ≠ proxy_fingerprint p))
termination_by ps => ps.length
decreasing_by
  simp only [List.length_cons]
  have := List.length_filter_le (fun q => proxy_fingerprint q ≠ proxy_fingerprint p) ps
  omega

/-- The names (as assoc keys) of the well-formed groups of a list, in
order, with multiplicity. -/
def validKeys (gs : List PyVal) : List String :=
  gs.filterMap (fun g => match g with
    | .pdict d => if pyTruthy (dgetD d (r"name") .pnone) then some (groupKey d) else none
    | _ => none)

/-- Python dicts have distinct keys; a document is well-formed when every
group entry that is a dict has pairwise-distinct keys. -/
def WFGroups (gs : List PyVal) : Prop :=
  ∀ g ∈ gs, ∀ d, g = PyVal.pdict d → (d.map Prod.fst).Nodup

/-- Invariant of the `by_name` state: every stored group has a truthy
name whose string form is its key. -/
def GInv (st : List (String × List (String × PyVal))) : Prop :=
  ∀ e ∈ st, pyTruthy (dgetD e.2 (r"name") .pnone) ∧ groupKey e.2 = e.1

/-- The non-`proxies` field-overwrite loop of `mergeGroupInto`. -/
def foldSetFields (acc : List (String × PyVal)) (entries : List (String × PyVal)) :
    List (String × PyVal) :=
  entries.foldl (fun a e => if e.1 = r"proxies" then a else dset a e.1 e.2) acc

/-- Does this field hold a list, or is it absent (as Python dicts loaded
from YAML normally have)? -/
def listOrAbsentB (d : List (String × PyVal)) (k : String) : Bool :=
  match dget d k with
  | none => true
  | some (.plist _) => true
  | some _ => false

/-- The trimmed non-empty entries of a list-valued field. -/
def cleanedStrs (d : List (String × PyVal)) (k : String) : List String :=
  match dget d k with
  | some (.plist xs) => xs.filterMap (fun item =>
      let s := pyStrip (pyStr item)
      if s = r"" then none else some s)
  | _ => []

/-- Well-formedness of an override group list under which the group merge
is idempotent: every dict entry has distinct keys, every named group
carries an explicit duplicate-free member list, and no two named groups
share a name. -/
def goodGroupB (g : PyVal) : Bool :=
  match g with
  | .pdict d =>
      decide ((d.map Prod.fst).Nodup) &&
      (if pyTruthy (dgetD d (r"name") .pnone) then
        (match assocGet d (r"proxies") with
         | some (.plist l) => decide l.Nodup
         | _ => false)
       else true)
  | _ => true

/-- Goodness of a whole override group list. -/
def goodGroupsB (og : List PyVal) : Bool :=
  og.all goodGroupB && decide (validKeys og).Nodup

/-- The recursive-merge-or-replace value for a dict override at a
non-special key, as a function of the current base binding. -/
def dictMergeVal (w : Option PyVal) (od : List (String × PyVal)) : PyVal :=
  match w with
  | some (.pdict d) => .pdict (deep_merge_config d od)
  | _ => .pdict od

/-- The replacement value of one non-special entry. -/
def replaceVal (w : Option PyVal) : PyVal → PyVal
  | .pdict od => dictMergeVal w od
  | v => v

/-- The value stored at key `k` by one `deep_merge_config` entry step,
as a function of the current binding `w` at that key. -/
def entryValAt (w : Option PyVal) (k : String) (v : PyVal) : PyVal :=
  if k = r"proxy-groups" then .plist (merge_group_lists (asListD w) (asListOrNil v))
  else if k = r"rules" then
    .plist ((place_rules_before_match (asListD w) (asListOrNil v)).map PyVal.pstr)
  else if k = r"proxies" then
    .plist ((deduplicate_proxies (dictItems (asListD w ++ asListOrNil v))).map PyVal.pdict)
  else replaceVal w v

/-- Goodness of one special-key override value (given the base binding
`w`): proxy-group lists satisfy `goodGroupsB`, node lists only carry
items whose stripped base name is non-empty, rule lists are always
fine. -/
def goodSpecial (w : Option PyVal) (k : String) (v : PyVal) : Bool :=
  if k = r"proxy-groups" then goodGroupsB (asListOrNil v)
  else if k = r"proxies" then
    (dictItems (asListD w ++ asListOrNil v)).all (fun p => decide (baseName p ≠ r""))
  else true

mutual

/-- Override documents on which `deep_merge_config` is idempotent over
the given base: every entry is good. -/
def goodOv (base : List (String × PyVal)) : List (String × PyVal) → Bool
  | [] => true
  | (k, v) :: rest => goodEntry base k v && goodOv base rest

/-- Goodness of one override entry over the given base: special keys
satisfy `goodSpecial`; a nested mapping must land on an existing mapping
in the base, have distinct keys, and be recursively good; any other value
is a plain replacement and always good. -/
def goodEntry (base : List (String × PyVal)) (k : String) : PyVal → Bool
  | .pdict od =>
      if isSpecialKey k then goodSpecial (dget base k) k (.pdict od)
      else
        match dget base k with
        | some (.pdict d) => decide ((od.map Prod.fst).Nodup) && goodOv d od
        | _ => false
  | v => if isSpecialKey k then goodSpecial (dget base k) k v else true

end

/-! ## Lemma library -/

/-! ### unique_items -/

section UniqueLemmas

variable {α : Type} [DecidableEq α]

theorem uniqueGo_congr (s t : List α) (h : ∀ x, x ∈ s ↔ x ∈ t) :
    ∀ l, uniqueGo s l = uniqueGo t l := by
  intro l
  induction l generalizing s t with
  | nil => simp [uniqueGo]
  | cons x xs ih =>
      simp only [uniqueGo]
      by_cases hx : x ∈ s
      · rw [if_pos hx, if_pos ((h x).mp hx)]
        exact ih s t h
      · rw [if_neg hx, if_neg (fun hc => hx ((h x).mpr hc))]
        congr 1
        exact ih (x :: s) (x :: t) (by intro y; simp [h y])

theorem mem_uniqueGo (s : List α) (l : List α) (x : α) :
    x ∈ uniqueGo s l ↔ x ∈ l ∧ x ∉ s := by
  induction l generalizing s with
  | nil => simp [uniqueGo]
  | cons a l ih =>
      simp only [uniqueGo]
      by_cases ha : a ∈ s
      · rw [if_pos ha, ih]
        constructor
        · rintro ⟨hl, hs⟩
          exact ⟨by simp [hl], hs⟩
        · rintro ⟨hl, hs⟩
          rcases List.mem_cons.mp hl with h | h
          · subst h; exact absurd ha hs
          · exact ⟨h, hs⟩
      · rw [if_neg ha]
        simp only [List.mem_cons, ih]
        constructor
        · rintro (h | ⟨hl, hs⟩)
          · subst h; exact ⟨Or.inl rfl, ha⟩
          · refine ⟨Or.inr hl, fun hc => hs (by simp [hc])⟩
        · rintro ⟨h | h, hs⟩
          · exact Or.inl h
          · by_cases hxa : x = a
            · exact Or.inl hxa
            · exact Or.inr ⟨h, by simp [hxa, hs]⟩

theorem uniqueGo_append (s : List α) (A B : List α) :
    uniqueGo s (A ++ B) = uniqueGo s A ++ uniqueGo (A ++ s) B := by
  induction A generalizing s with
  | nil => simp [uniqueGo]
  | cons a A ih =>
      simp only [List.cons_append, uniqueGo, List.append_eq]
      by_cases ha : a ∈ s
      · rw [if_pos ha, if_pos ha, ih s]
        congr 1
        apply uniqueGo_congr
        intro x
        simp only [List.mem_append, List.mem_cons]
        by_cases hxa : x = a
        · subst hxa; tauto
        · tauto
      · rw [if_neg ha, if_neg ha, ih (a :: s)]
        simp only [List.cons_append, List.cons.injEq, true_and]
        congr 1
        apply uniqueGo_congr
        intro x
        simp only [List.mem_append, List.mem_cons]
        tauto

theorem uniqueGo_nodup (s : List α) (l : List α) : (uniqueGo s l).Nodup := by
  induction l generalizing s with
  | nil => simp [uniqueGo]
  | cons a l ih =>
      simp only [uniqueGo]
      by_cases ha : a ∈ s
      · rw [if_pos ha]; exact ih s
      · rw [if_neg ha]
        refine List.nodup_cons.mpr ⟨fun hc => ?_, ih (a :: s)⟩
        exact ((mem_uniqueGo (a :: s) l a).mp hc).2 (by simp)

theorem uniqueGo_sublist (s : List α) (l : List α) : (uniqueGo s l).Sublist l := by
  induction l generalizing s with
  | nil => simp [uniqueGo]
  | cons a l ih =>
      simp only [uniqueGo]
      by_cases ha : a ∈ s
      · rw [if_pos ha]
        exact (ih s).cons a
      · rw [if_neg ha]
        exact (ih (a :: s)).cons₂ a

theorem uniqueGo_eq_self (s : List α) (l : List α) (hl : l.Nodup)
    (hs : ∀ x ∈ l, x ∉ s) : uniqueGo s l = l := by
  induction l generalizing s with
  | nil => simp [uniqueGo]
  | cons a l ih =>
      simp only [uniqueGo]
      rw [if_neg (hs a (by simp))]
      congr 1
      refine ih (a :: s) (List.nodup_cons.mp hl).2 ?_
      intro x hx
      simp only [List.mem_cons]
      rintro (h | h)
      · subst h; exact (List.nodup_cons.mp hl).1 hx
      · exact hs x (by simp [hx]) h

theorem uniqueGo_all_seen (s : List α) (l : List α) (h : ∀ x ∈ l, x ∈ s) :
    uniqueGo s l = [] := by
  induction l generalizing s with
  | nil => simp [uniqueGo]
  | cons a l ih =>
      simp only [uniqueGo]
      rw [if_pos (h a (by simp))]
      exact ih s (fun x hx => h x (by simp [hx]))

theorem mem_unique_items (l : List α) (x : α) : x ∈ unique_items l ↔ x ∈ l := by
  rw [unique_items, mem_uniqueGo]
  simp

theorem unique_items_nodup (l : List α) : (unique_items l).Nodup := uniqueGo_nodup [] l

theorem unique_items_eq_self (l : List α) (hl : l.Nodup) : unique_items l = l :=
  uniqueGo_eq_self [] l hl (by simp)

theorem unique_items_append_absorb (A B : List α) (h : ∀ x ∈ B, x ∈ A) :
    unique_items (A ++ B) = unique_items A := by
  rw [unique_items, uniqueGo_append]
  rw [uniqueGo_all_seen (A ++ []) B (fun x hx => by simpa using h x hx)]
  simp [unique_items]

theorem unique_items_idem (l : List α) : unique_items (unique_items l) = unique_items l :=
  unique_items_eq_self _ (unique_items_nodup l)

end UniqueLemmas

/-! ### Association-list lemmas -/

section AssocLemmas

variable {β : Type}

theorem assocGet_nil (k : String) : assocGet ([] : List (String × β)) k = none := rfl

theorem assocGet_cons (k1 k : String) (v1 : β) (rest : List (String × β)) :
    assocGet ((k1, v1) :: rest) k = if k1 = k then some v1 else assocGet rest k := by
  by_cases h : k1 = k
  · subst h
    simp [assocGet, List.find?]
  · have hb : (k1 == k) = false := beq_eq_false_iff_ne.mpr h
    simp [assocGet, List.find?, hb, h]

theorem assocGet_isSome_iff (l : List (String × β)) (k : String) :
    (assocGet l k).isSome ↔ k ∈ l.map Prod.fst := by
  induction l with
  | nil => simp [assocGet_nil]
  | cons e rest ih =>
      obtain ⟨k1, v1⟩ := e
      rw [assocGet_cons]
      by_cases h : k1 = k
      · simp [h]
      · rw [if_neg h, ih]
        simp only [List.map_cons, List.mem_cons]
        constructor
        · intro h1
          exact Or.inr h1
        · rintro (h1 | h1)
          · exact absurd h1.symm h
          · exact h1

theorem assocGet_eq_none_iff (l : List (String × β)) (k : String) :
    assocGet l k = none ↔ k ∉ l.map Prod.fst := by
  rw [← assocGet_isSome_iff]
  cases assocGet l k <;> simp

theorem assocSet_keys (l : List (String × β)) (k : String) (v : β) :
    (assocSet l k v).map Prod.fst =
      if k ∈ l.map Prod.fst then l.map Prod.fst else l.map Prod.fst ++ [k] := by
  induction l with
  | nil => simp [assocSet]
  | cons e rest ih =>
      obtain ⟨k1, v1⟩ := e
      simp only [assocSet]
      by_cases h : k1 = k
      · subst h
        simp
      · rw [if_neg h]
        simp only [List.map_cons, ih]
        have hne : ¬ k = k1 := fun hc => h hc.symm
        by_cases hk : k ∈ rest.map Prod.fst
        · simp [hk, hne]
        · simp [hk, hne]

theorem assocGet_set_self (l : List (String × β)) (k : String) (v : β) :
    assocGet (assocSet l k v) k = some v := by
  induction l with
  | nil => simp [assocSet, assocGet_cons]
  | cons e rest ih =>
      obtain ⟨k1, v1⟩ := e
      simp only [assocSet]
      by_cases h : k1 = k
      · rw [if_pos h, assocGet_cons, if_pos rfl]
      · rw [if_neg h, assocGet_cons, if_neg h]
        exact ih

theorem assocGet_set_ne (l : List (String × β)) (k k2 : String) (v : β) (h : k2 ≠ k) :
    assocGet (assocSet l k v) k2 = assocGet l k2 := by
  have hne : ¬ k = k2 := fun hc => h hc.symm
  induction l with
  | nil => simp [assocSet, assocGet_cons, assocGet_nil, hne]
  | cons e rest ih =>
      obtain ⟨k1, v1⟩ := e
      simp only [assocSet]
      by_cases hk : k1 = k
      · subst hk
        rw [if_pos rfl, assocGet_cons, assocGet_cons, if_neg (fun hc => h hc.symm)]
        rw [if_neg (fun hc : k1 = k2 => h (hc.symm ▸ rfl))]
      · rw [if_neg hk, assocGet_cons, assocGet_cons]
        by_cases h1 : k1 = k2
        · simp [h1]
        · rw [if_neg h1, if_neg h1]
          exact ih

theorem assocSet_eq_self (l : List (String × β)) (k : String) (v : β)
    (h : assocGet l k = some v) : assocSet l k v = l := by
  induction l with
  | nil => simp [assocGet_nil] at h
  | cons e rest ih =>
      obtain ⟨k1, v1⟩ := e
      rw [assocGet_cons] at h
      simp only [assocSet]
      by_cases hk : k1 = k
      · rw [if_pos hk] at h ⊢
        obtain rfl : v1 = v := by simpa using h
        rw [hk]
      · rw [if_neg hk] at h ⊢
        rw [ih h]

theorem assocSet_keys_nodup (l : List (String × β)) (k : String) (v : β)
    (h : (l.map Prod.fst).Nodup) : ((assocSet l k v).map Prod.fst).Nodup := by
  rw [assocSet_keys]
  by_cases hk : k ∈ l.map Prod.fst
  · simpa [hk] using h
  · rw [if_neg hk, List.nodup_append]
    refine ⟨h, List.nodup_singleton k, ?_⟩
    intro a ha hc
    simp only [List.mem_singleton] at hc
    subst hc
    exact hk ha

theorem assocSet_set_same (l : List (String × β)) (k : String) (v w : β) :
    assocSet (assocSet l k v) k w = assocSet l k w := by
  induction l with
  | nil => simp [assocSet]
  | cons e rest ih =>
      obtain ⟨k1, v1⟩ := e
      simp only [assocSet]
      by_cases h : k1 = k
      · simp [h, assocSet]
      · simp only [if_neg h, assocSet, if_neg h]
        rw [ih]

theorem assocExt (l m : List (String × β)) (hl : (l.map Prod.fst).Nodup)
    (hm : (m.map Prod.fst).Nodup) (hk : l.map Prod.fst = m.map Prod.fst)
    (hv : ∀ k, assocGet l k = assocGet m k) : l = m := by
  induction l generalizing m with
  | nil =>
      cases m with
      | nil => rfl
      | cons e rest => simp at hk
  | cons e rest ih =>
      obtain ⟨k1, v1⟩ := e
      cases m with
      | nil => simp at hk
      | cons f mrest =>
          obtain ⟨k2, v2⟩ := f
          simp only [List.map_cons, List.cons.injEq] at hk
          obtain ⟨rfl, hkt⟩ := hk
          have hval := hv k1
          rw [assocGet_cons, assocGet_cons, if_pos rfl, if_pos rfl] at hval
          obtain rfl : v1 = v2 := by simpa using hval
          have hlt := (List.nodup_cons.mp hl).2
          have hmt := (List.nodup_cons.mp hm).2
          have hln1 := (List.nodup_cons.mp hl).1
          have hmn1 := (List.nodup_cons.mp hm).1
          congr 1
          refine ih mrest hlt hmt hkt ?_
          intro k
          by_cases hk1 : k = k1
          · subst hk1
            rw [(assocGet_eq_none_iff rest k).mpr hln1, (assocGet_eq_none_iff mrest k).mpr hmn1]
          · have := hv k
            rw [assocGet_cons, assocGet_cons, if_neg (fun hc => hk1 hc.symm),
              if_neg (fun hc => hk1 hc.symm)] at this
            exact this

theorem assocPop_keys (l : List (String × β)) (k : String) :
    (assocPop l k).map Prod.fst = (l.map Prod.fst).erase k := by
  induction l with
  | nil => simp [assocPop]
  | cons e rest ih =>
      obtain ⟨k1, v1⟩ := e
      simp only [assocPop]
      by_cases h : k1 = k
      · subst h
        simp [List.erase_cons_head]
      · rw [if_neg h]
        simp only [List.map_cons, ih]
        rw [List.erase_cons_tail]
        simp [h]

theorem assocGet_pop_ne (l : List (String × β)) (k k2 : String) (h : k2 ≠ k) :
    assocGet (assocPop l k) k2 = assocGet l k2 := by
  induction l with
  | nil => simp [assocPop]
  | cons e rest ih =>
      obtain ⟨k1, v1⟩ := e
      simp only [assocPop]
      by_cases hk : k1 = k
      · subst hk
        rw [if_pos rfl, assocGet_cons, if_neg (fun hc : k1 = k2 => h hc.symm)]
      · rw [if_neg hk, assocGet_cons, assocGet_cons]
        by_cases h1 : k1 = k2
        · simp [h1]
        · rw [if_neg h1, if_neg h1, ih]

theorem assocGet_pop_self (l : List (String × β)) (k : String)
    (h : (l.map Prod.fst).Nodup) : assocGet (assocPop l k) k = none := by
  induction l with
  | nil => simp [assocPop, assocGet_nil]
  | cons e rest ih =>
      obtain ⟨k1, v1⟩ := e
      simp only [assocPop]
      by_cases hk : k1 = k
      · subst hk
        rw [if_pos rfl]
        exact (assocGet_eq_none_iff rest k1).mpr (by simpa using (List.nodup_cons.mp h).1)
      · rw [if_neg hk, assocGet_cons, if_neg hk]
        exact ih (List.nodup_cons.mp h).2

end AssocLemmas

/-! ### strip lemmas -/

theorem dropWhile_head_false (p : Char → Bool) :
    ∀ (l : List Char) (c : Char) (t : List Char), l.dropWhile p = c :: t → p c = false := by
  intro l
  induction l with
  | nil => intro c t h; simp at h
  | cons a l ih =>
      intro c t h
      by_cases ha : p a
      · rw [List.dropWhile_cons_of_pos ha] at h
        exact ih c t h
      · rw [List.dropWhile_cons_of_neg ha] at h
        obtain ⟨rfl, rfl⟩ := List.cons.injEq .. ▸ h
        simpa using ha

theorem dropWhile_eq_self_of_head (p : Char → Bool) (c : Char) (t : List Char)
    (h : p c = false) : List.dropWhile p (c :: t) = c :: t :=
  List.dropWhile_cons_of_neg (by simp [h])

theorem length_dropWhile_le_self (p : Char → Bool) (l : List Char) :
    (l.dropWhile p).length ≤ l.length :=
  (List.dropWhile_suffix p).sublist.length_le

theorem dropWhile_idem (p : Char → Bool) (l : List Char) :
    (l.dropWhile p).dropWhile p = l.dropWhile p := by
  cases h : l.dropWhile p with
  | nil => simp
  | cons c t => exact dropWhile_eq_self_of_head _ _ _ (dropWhile_head_false p l c t h)

theorem length_stripChars_le_dropWhile (l : List Char) :
    (stripChars l).length ≤ (l.dropWhile isPyWs).length := by
  have h := length_dropWhile_le_self isPyWs ((l.dropWhile isPyWs).reverse)
  simpa [stripChars] using h

theorem stripChars_self_dropWhile (l : List Char) (h : stripChars l = l) :
    l.dropWhile isPyWs = l := by
  cases hl : l with
  | nil => simp
  | cons c t =>
      by_cases hc : isPyWs c
      · exfalso
        have h1 : (stripChars l).length ≤ (l.dropWhile isPyWs).length :=
          length_stripChars_le_dropWhile l
        rw [h, hl, List.dropWhile_cons_of_pos hc] at h1
        have h2 := length_dropWhile_le_self isPyWs t
        simp only [List.length_cons] at h1
        omega
      · exact dropWhile_eq_self_of_head _ _ _ (by simpa using hc)

theorem stripChars_self_reverse (l : List Char) (h : stripChars l = l) :
    l.reverse.dropWhile isPyWs = l.reverse := by
  have h1 := stripChars_self_dropWhile l h
  have h2 : stripChars l = (l.reverse.dropWhile isPyWs).reverse := by
    rw [stripChars, h1]
  rw [h] at h2
  have := congrArg List.reverse h2
  simpa using this.symm

theorem stripChars_of_parts (l : List Char) (h1 : l.dropWhile isPyWs = l)
    (h2 : l.reverse.dropWhile isPyWs = l.reverse) : stripChars l = l := by
  rw [stripChars, h1, h2, List.reverse_reverse]

theorem stripChars_idem (l : List Char) : stripChars (stripChars l) = stripChars l := by
  cases hB : stripChars l with
  | nil => simp [hB, stripChars]
  | cons c t =>
      apply stripChars_of_parts
      · have hBdef : stripChars l = ((l.dropWhile isPyWs).reverse.dropWhile isPyWs).reverse := rfl
        have hpre : stripChars l <+: l.dropWhile isPyWs := by
          have hs : List.dropWhile isPyWs ((l.dropWhile isPyWs).reverse) <:+
              (l.dropWhile isPyWs).reverse := List.dropWhile_suffix isPyWs
          have hp := (List.reverse_prefix).mpr hs
          simpa [stripChars] using hp
        rcases hpre with ⟨rest, hrest⟩
        rw [hB] at hrest
        have hc : isPyWs c = false := by
          cases hA : l.dropWhile isPyWs with
          | nil => rw [hA] at hrest; simp at hrest
          | cons a t2 =>
              rw [hA] at hrest
              have : c = a := by
                have := congrArg (fun x => x.head?) hrest
                simpa using this
              subst this
              exact dropWhile_head_false isPyWs l c t2 hA
        exact dropWhile_eq_self_of_head _ _ _ hc
      · rw [← hB]
        have hrewrite : (stripChars l).reverse = (l.dropWhile isPyWs).reverse.dropWhile isPyWs := by
          rw [stripChars, List.reverse_reverse]
        rw [hrewrite]
        exact dropWhile_idem _ _

theorem pyStrip_idem (s : String) : pyStrip (pyStrip s) = pyStrip s := by
  simp [pyStrip, stripChars_idem]

theorem pyStrip_empty : pyStrip (r"") = r"" := rfl

theorem string_ne_empty_iff_data (s : String) : s ≠ r"" ↔ s.data ≠ [] := by
  have hdata : (r"" : String).data = [] := rfl
  rw [ne_eq, String.ext_iff, hdata]

/-! ### decimal digit characters -/

theorem decDigits_chars (fuel n : Nat) :
    ∀ c ∈ decDigits fuel n, ∃ d, d < 10 ∧ c = Nat.digitChar d := by
  induction fuel generalizing n with
  | zero => simp [decDigits]
  | succ fuel ih =>
      intro c hc
      rw [decDigits] at hc
      by_cases h10 : n < 10
      · rw [if_pos h10] at hc
        simp only [List.mem_singleton] at hc
        exact ⟨n, h10, hc⟩
      · rw [if_neg h10] at hc
        rcases List.mem_append.mp hc with h | h
        · exact ih (n / 10) c h
        · simp only [List.mem_singleton] at h
          exact ⟨n % 10, Nat.mod_lt _ (by omega), h⟩

theorem decDigits_ne_nil (fuel n : Nat) (h : 0 < fuel) : decDigits fuel n ≠ [] := by
  cases fuel with
  | zero => omega
  | succ fuel =>
      rw [decDigits]
      by_cases h10 : n < 10
      · simp [h10]
      · simp [h10]

theorem digitChar_not_ws : ∀ d, d < 10 → isPyWs (Nat.digitChar d) = false := by
  decide

theorem decRepr_data_ne_nil (n : Nat) : (decRepr n).data ≠ [] := by
  simp only [decRepr]
  exact decDigits_ne_nil (n + 1) n (by omega)

/-- The key well-formedness fact about rename candidates: appending
`_<counter>` to a stripped nonempty string gives a stripped nonempty
string. -/
theorem strip_candidate (s : String) (c : Nat) (h1 : pyStrip s = s) (h2 : s ≠ r"") :
    pyStrip (s ++ r"_" ++ decRepr c) = s ++ r"_" ++ decRepr c ∧
      (s ++ r"_" ++ decRepr c) ≠ r"" := by
  have hdata : (s ++ r"_" ++ decRepr c).data = s.data ++ (r"_" : String).data ++ (decRepr c).data := by
    simp [String.data_append]
  have hsd : s.data ≠ [] := (string_ne_empty_iff_data s).mp h2
  have hstrip : stripChars s.data = s.data := by
    have := congrArg String.data h1
    simpa [pyStrip] using this
  constructor
  · rw [pyStrip, String.ext_iff]
    simp only [hdata]
    apply stripChars_of_parts
    · cases hsdata : s.data with
      | nil => exact absurd hsdata hsd
      | cons ch t =>
          have hhead : isPyWs ch = false := by
            have hdw := stripChars_self_dropWhile s.data hstrip
            rw [hsdata] at hdw
            exact dropWhile_head_false isPyWs (ch :: t) ch t hdw
          simp only [List.cons_append]
          exact dropWhile_eq_self_of_head _ _ _ hhead
    · obtain ⟨ch, t, hrev⟩ : ∃ ch t, ((decRepr c).data).reverse = ch :: t := by
        cases hr : ((decRepr c).data).reverse with
        | nil =>
            exfalso
            have := congrArg List.reverse hr
            simp at this
            exact decRepr_data_ne_nil c this
        | cons ch t => exact ⟨ch, t, rfl⟩
      have hch : isPyWs ch = false := by
        have hmem : ch ∈ (decRepr c).data := by
          have : ch ∈ ((decRepr c).data).reverse := by rw [hrev]; simp
          simpa using this
        obtain ⟨d, hd, rfl⟩ := decDigits_chars (c + 1) c ch (by simpa [decRepr] using hmem)
        exact digitChar_not_ws d hd
      rw [List.reverse_append, List.reverse_append, hrev]
      simp only [List.cons_append]
      exact dropWhile_eq_self_of_head _ _ _ hch
  · rw [string_ne_empty_iff_data, hdata]
    simp [hsd]

/-! ### ensure_unique_proxy_names machinery -/

theorem cand_inj (name : String) {i j : Nat}
    (h : name ++ r"_" ++ decRepr i = name ++ r"_" ++ decRepr j) : i = j := by
  apply decRepr_inj
  have hd := congrArg String.data h
  simp only [String.data_append, List.append_assoc] at hd
  have h1 := List.append_cancel_left hd
  have h2 := List.append_cancel_left h1
  exact String.ext h2

theorem cand_ne_base (name : String) (c : Nat) : name ++ r"_" ++ decRepr c ≠ name := by
  intro h
  have hd := congrArg (fun s => s.data.length) h
  simp only [String.data_append, List.length_append] at hd
  have : ((r"_" : String).data).length = 1 := rfl
  have h2 : ((decRepr c).data).length ≠ 0 := by
    intro hc
    exact decRepr_data_ne_nil c (List.length_eq_zero.mp hc)
  omega

theorem assocGet_set_isSome {β : Type} (u : List (String × β)) (k s : String) (v : β)
    (h : (assocGet u s).isSome) : (assocGet (assocSet u k v) s).isSome := by
  by_cases hk : s = k
  · subst hk
    rw [assocGet_set_self]
    rfl
  · rw [assocGet_set_ne u k s v hk]
    exact h

theorem pickAux_spec (name : String) :
    ∀ (fuel count : Nat) (used : List (String × Nat)) (c : Nat),
      pickAux name count fuel used = some c →
      assocGet used (name ++ r"_" ++ decRepr c) = none ∧ count ≤ c ∧
        ∀ j, count ≤ j → j < c → (assocGet used (name ++ r"_" ++ decRepr j)).isSome := by
  intro fuel
  induction fuel with
  | zero => intro count used c h; simp [pickAux] at h
  | succ fuel ih =>
      intro count used c h
      rw [pickAux] at h
      by_cases hu : (assocGet used (name ++ r"_" ++ decRepr count)).isSome
      · rw [if_pos hu] at h
        obtain ⟨h1, h2, h3⟩ := ih (count + 1) used c h
        refine ⟨h1, by omega, ?_⟩
        intro j hj1 hj2
        by_cases hj : j = count
        · subst hj; exact hu
        · exact h3 j (by omega) hj2
      · rw [if_neg hu] at h
        obtain rfl : count = c := by simpa using h
        refine ⟨?_, le_refl _, by omega⟩
        cases hg : assocGet used (name ++ r"_" ++ decRepr count)
        · rfl
        · rw [hg] at hu; simp at hu

theorem pickAux_runs (name : String) (used : List (String × Nat)) :
    ∀ (fuel count : Nat),
      (∃ j, j < fuel ∧ assocGet used (name ++ r"_" ++ decRepr (count + j)) = none) →
      ∃ c, pickAux name count fuel used = some c := by
  intro fuel
  induction fuel with
  | zero =>
      rintro count ⟨j, hj, _⟩
      omega
  | succ fuel ih =>
      rintro count ⟨j, hj, hfree⟩
      rw [pickAux]
      by_cases hu : (assocGet used (name ++ r"_" ++ decRepr count)).isSome
      · rw [if_pos hu]
        apply ih (count + 1)
        have hj0 : j ≠ 0 := by
          intro h0
          subst h0
          rw [Nat.add_zero] at hfree
          rw [hfree] at hu
          simp at hu
        refine ⟨j - 1, by omega, ?_⟩
        rw [show count + 1 + (j - 1) = count + j by omega]
        exact hfree
      · rw [if_neg hu]
        exact ⟨count, rfl⟩

theorem pickAux_succeeds (name : String) (count : Nat) (used : List (String × Nat)) :
    ∃ c, pickAux name count (used.length + 1) used = some c := by
  have hfree : ∃ j, j < used.length + 1 ∧
      assocGet used (name ++ r"_" ++ decRepr (count + j)) = none := by
    by_contra hall
    push_neg at hall
    have hmem : ∀ j < used.length + 1,
        (name ++ r"_" ++ decRepr (count + j)) ∈ used.map Prod.fst := by
      intro j hj
      have := hall j hj
      rw [← assocGet_isSome_iff]
      cases hg : assocGet used (name ++ r"_" ++ decRepr (count + j))
      · exact absurd hg this
      · rfl
    have hinj : Function.Injective
        (fun j : Fin (used.length + 1) => name ++ r"_" ++ decRepr (count + j.1)) := by
      intro a b hab
      have := cand_inj name hab
      exact Fin.ext (by omega)
    have hcard1 : (Finset.univ.image
        (fun j : Fin (used.length + 1) => name ++ r"_" ++ decRepr (count + j.1))).card =
        used.length + 1 := by
      rw [Finset.card_image_of_injective _ hinj]
      simp
    have hsub : (Finset.univ.image
        (fun j : Fin (used.length + 1) => name ++ r"_" ++ decRepr (count + j.1))) ⊆
        (used.map Prod.fst).toFinset := by
      intro s hs
      simp only [Finset.mem_image, Finset.mem_univ, true_and] at hs
      obtain ⟨j, rfl⟩ := hs
      rw [List.mem_toFinset]
      exact hmem j.1 j.2
    have hle := Finset.card_le_card hsub
    have hfin := List.toFinset_card_le (used.map Prod.fst)
    rw [hcard1] at hle
    simp only [List.length_map] at hfin
    omega
  exact pickAux_runs name used (used.length + 1) count hfree

theorem pickCount_spec (name : String) (count : Nat) (used : List (String × Nat)) :
    assocGet used (name ++ r"_" ++ decRepr (pickCount name count used)) = none ∧
      count ≤ pickCount name count used ∧
      ∀ j, count ≤ j → j < pickCount name count used →
        (assocGet used (name ++ r"_" ++ decRepr j)).isSome := by
  obtain ⟨c, hc⟩ := pickAux_succeeds name count used
  have hspec := pickAux_spec name (used.length + 1) count used c hc
  rw [pickCount, hc]
  simpa using hspec

theorem euGo_cons (used : List (String × Nat)) (p : List (String × PyVal))
    (ps : List (List (String × PyVal))) :
    euGo used (p :: ps) =
      dset p (r"name") (.pstr (euAssign used p)) :: euGo (euUsedStep used p) ps := by
  rw [euGo, euAssign, euUsedStep]
  cases hg : assocGet used (baseName p) <;> simp [hg]

theorem euGo_append (used : List (String × Nat)) (l1 l2 : List (List (String × PyVal))) :
    euGo used (l1 ++ l2) = euGo used l1 ++ euGo (euUsed used l1) l2 := by
  induction l1 generalizing used with
  | nil => simp [euGo, euUsed]
  | cons p l1 ih =>
      rw [List.cons_append, euGo_cons, euGo_cons, ih]
      simp [euUsed]

theorem euGo_length (used : List (String × Nat)) (ps : List (List (String × PyVal))) :
    (euGo used ps).length = ps.length := by
  induction ps generalizing used with
  | nil => simp [euGo]
  | cons p ps ih =>
      rw [euGo_cons]
      simp [ih]

theorem euAssign_unused (used : List (String × Nat)) (p : List (String × PyVal)) :
    assocGet used (euAssign used p) = none := by
  rw [euAssign]
  cases hg : assocGet used (baseName p) with
  | none => exact hg
  | some count => exact (pickCount_spec (baseName p) count used).1

theorem euUsedStep_records (used : List (String × Nat)) (p : List (String × PyVal)) :
    (assocGet (euUsedStep used p) (euAssign used p)).isSome := by
  rw [euUsedStep, euAssign]
  cases hg : assocGet used (baseName p) with
  | none => rw [assocGet_set_self]; rfl
  | some count => rw [assocGet_set_self]; rfl

theorem euUsedStep_mono (used : List (String × Nat)) (p : List (String × PyVal))
    (s : String) (h : (assocGet used s).isSome) :
    (assocGet (euUsedStep used p) s).isSome := by
  rw [euUsedStep]
  cases hg : assocGet used (baseName p) with
  | none => exact assocGet_set_isSome used (baseName p) s 1 h
  | some count =>
      exact assocGet_set_isSome _ _ s 1 (assocGet_set_isSome used (baseName p) s _ h)

theorem euGo_names (used : List (String × Nat)) (ps : List (List (String × PyVal))) :
    (euGo used ps).map (fun q => dget q (r"name")) =
      (euNamesList used ps).map (fun s => some (PyVal.pstr s)) := by
  induction ps generalizing used with
  | nil => simp [euGo, euNamesList]
  | cons p ps ih =>
      rw [euGo_cons, euNamesList]
      simp only [List.map_cons, ih]
      congr 1
      rw [dget, dset, assocGet_set_self]

theorem euNamesList_nodup (used : List (String × Nat)) (ps : List (List (String × PyVal))) :
    (euNamesList used ps).Nodup ∧ ∀ s ∈ euNamesList used ps, assocGet used s = none := by
  induction ps generalizing used with
  | nil => simp [euNamesList]
  | cons p ps ih =>
      rw [euNamesList]
      obtain ⟨ihn, ihf⟩ := ih (euUsedStep used p)
      constructor
      · refine List.nodup_cons.mpr ⟨?_, ihn⟩
        intro hc
        have := ihf _ hc
        have hrec := euUsedStep_records used p
        rw [this] at hrec
        simp at hrec
      · intro s hs
        rcases List.mem_cons.mp hs with h | h
        · subst h
          exact euAssign_unused used p
        · have hnone := ihf s h
          cases hg : assocGet used s with
          | none => rfl
          | some v =>
              have := euUsedStep_mono used p s (by rw [hg]; rfl)
              rw [hnone] at this
              simp at this

theorem usedInv_step (u : List (String × Nat)) (p : List (String × PyVal))
    (hI : UsedInv u) (hP : CountsPos u) :
    UsedInv (euUsedStep u p) ∧ CountsPos (euUsedStep u p) := by
  rw [euUsedStep]
  cases hg : assocGet u (baseName p) with
  | none =>
      constructor
      · intro nm cnt hnm j hj1 hj2
        by_cases hb : nm = baseName p
        · subst hb
          rw [assocGet_set_self] at hnm
          obtain rfl : cnt = 1 := by simpa using hnm.symm
          omega
        · rw [assocGet_set_ne u (baseName p) nm 1 hb] at hnm
          exact assocGet_set_isSome u (baseName p) _ 1 (hI nm cnt hnm j hj1 hj2)
      · intro nm cnt hnm
        by_cases hb : nm = baseName p
        · subst hb
          rw [assocGet_set_self] at hnm
          obtain rfl : cnt = 1 := by simpa using hnm.symm
          omega
        · rw [assocGet_set_ne u (baseName p) nm 1 hb] at hnm
          exact hP nm cnt hnm
  | some count =>
      set c := pickCount (baseName p) count u with hc
      set cand := baseName p ++ r"_" ++ decRepr c with hcand
      have hcandne : cand ≠ baseName p := cand_ne_base (baseName p) c
      have hmono : ∀ s, (assocGet u s).isSome →
          (assocGet (assocSet (assocSet u (baseName p) (c + 1)) cand 1) s).isSome := by
        intro s hs
        exact assocGet_set_isSome _ cand s 1 (assocGet_set_isSome u (baseName p) s _ hs)
      constructor
      · intro nm cnt hnm j hj1 hj2
        by_cases hbc : nm = cand
        · subst hbc
          rw [assocGet_set_self] at hnm
          obtain rfl : cnt = 1 := by simpa using hnm.symm
          omega
        · by_cases hb : nm = baseName p
          · subst hb
            rw [assocGet_set_ne _ cand _ 1 hbc, assocGet_set_self] at hnm
            obtain rfl : cnt = c + 1 := by simpa using hnm.symm
            by_cases hjc : j = c
            · subst hjc
              rw [← hcand, assocGet_set_self]
              rfl
            · by_cases hjcount : j < count
              · exact hmono _ (hI (baseName p) count hg j hj1 hjcount)
              · have := (pickCount_spec (baseName p) count u).2.2 j (by omega) (by omega)
                exact hmono _ this
          · rw [assocGet_set_ne _ cand _ 1 hbc, assocGet_set_ne u (baseName p) _ _ hb] at hnm
            exact hmono _ (hI nm cnt hnm j hj1 hj2)
      · intro nm cnt hnm
        by_cases hbc : nm = cand
        · subst hbc
          rw [assocGet_set_self] at hnm
          obtain rfl : cnt = 1 := by simpa using hnm.symm
          omega
        · by_cases hb : nm = baseName p
          · subst hb
            rw [assocGet_set_ne _ cand _ 1 hbc, assocGet_set_self] at hnm
            obtain rfl : cnt = c + 1 := by simpa using hnm.symm
            omega
          · rw [assocGet_set_ne _ cand _ 1 hbc, assocGet_set_ne u (baseName p) _ _ hb] at hnm
            exact hP nm cnt hnm

theorem usedInv_euUsed (l : List (List (String × PyVal))) :
    ∀ (u : List (String × Nat)), UsedInv u → CountsPos u →
      UsedInv (euUsed u l) ∧ CountsPos (euUsed u l) := by
  induction l with
  | nil => intro u hI hP; exact ⟨hI, hP⟩
  | cons p l ih =>
      intro u hI hP
      obtain ⟨hI2, hP2⟩ := usedInv_step u p hI hP
      simpa [euUsed] using ih (euUsedStep u p) hI2 hP2

theorem usedInv_nil : UsedInv ([] : List (String × Nat)) := by
  intro nm cnt h
  simp [assocGet_nil] at h

theorem countsPos_nil : CountsPos ([] : List (String × Nat)) := by
  intro nm cnt h
  simp [assocGet_nil] at h

theorem dedupGo_length (seen : List String) (ps : List (List (String × PyVal))) :
    (dedupGo seen ps).length ≤ ps.length := by
  induction ps generalizing seen with
  | nil => simp [dedupGo]
  | cons p ps ih =>
      rw [dedupGo]
      by_cases h : proxy_fingerprint p ∈ seen
      · simp only [h, if_true]
        calc (dedupGo seen ps).length ≤ ps.length := ih seen
          _ ≤ (p :: ps).length := by simp
      · simp only [h, if_false, List.length_cons]
        have := ih (proxy_fingerprint p :: seen)
        omega

theorem get_append_len {α : Type} (A B : List α) : (A ++ B).get? A.length = B.get? 0 := by
  induction A with
  | nil => simp
  | cons a A ih => simpa using ih

theorem pstr_some_inj : Function.Injective (fun s => some (PyVal.pstr s)) := by
  intro a b h
  simpa using h

theorem ensure_unique_names_nodup (ps : List (List (String × PyVal))) :
    ((ensure_unique_proxy_names ps).map (fun q => dget q (r"name"))).Nodup := by
  rw [ensure_unique_proxy_names, euGo_names]
  exact List.Nodup.map pstr_some_inj (euNamesList_nodup [] ps).1

/-- Claim C2, amended.  For every input node list, the Deduplicator's
output (`deduplicate_proxies`, via `ensure_unique_proxy_names`) has
pairwise-distinct node names and length at most the input length.  A node
whose (stripped) base name is not yet in the `used` map after the earlier
nodes keeps its base name; a node whose base name is already used is
renamed `<name>_<n>` where `n ≥ 1`, the candidate is not already used by
either an original or a previously renamed node, and every smaller
candidate suffix `1 ≤ j < n` is already used.  (The original claim's
stronger phrase "the first node with a given base name keeps its name"
fails when an earlier rename already took that name; see the
counterexample.) -/
theorem C2_unique_names_amended (ps : List (List (String × PyVal))) :
    ((deduplicate_proxies ps).map (fun q => dget q (r"name"))).Nodup ∧
    (deduplicate_proxies ps).length ≤ ps.length ∧
    (∀ l p rr, ps = l ++ p :: rr →
      (assocGet (euUsed [] l) (baseName p) = none →
        (ensure_unique_proxy_names ps).get? l.length =
          some (dset p (r"name") (.pstr (baseName p)))) ∧
      (∀ count, assocGet (euUsed [] l) (baseName p) = some count →
        ∃ c, 1 ≤ c ∧
          (ensure_unique_proxy_names ps).get? l.length =
            some (dset p (r"name") (.pstr (baseName p ++ r"_" ++ decRepr c))) ∧
          assocGet (euUsed [] l) (baseName p ++ r"_" ++ decRepr c) = none ∧
          ∀ j, 1 ≤ j → j < c →
            (assocGet (euUsed [] l) (baseName p ++ r"_" ++ decRepr j)).isSome)) := by
  refine ⟨?_, ?_, ?_⟩
  · rw [deduplicate_proxies]
    exact ensure_unique_names_nodup (dedupGo [] ps)
  · rw [deduplicate_proxies, ensure_unique_proxy_names, euGo_length]
    exact dedupGo_length [] ps
  · intro l p rr hps
    subst hps
    have hsplit : ensure_unique_proxy_names (l ++ p :: rr) =
        euGo [] l ++ euGo (euUsed [] l) (p :: rr) := by
      rw [ensure_unique_proxy_names, euGo_append]
    have hget : (ensure_unique_proxy_names (l ++ p :: rr)).get? l.length =
        some (dset p (r"name") (.pstr (euAssign (euUsed [] l) p))) := by
      rw [hsplit]
      have hlen : (euGo [] l).length = l.length := euGo_length [] l
      rw [← hlen, get_append_len, euGo_cons]
      rfl
    constructor
    · intro hfresh
      rw [hget]
      congr 2
      rw [euAssign, hfresh]
    · intro count hcoll
      refine ⟨pickCount (baseName p) count (euUsed [] l), ?_, ?_, ?_, ?_⟩
      · have hpos : CountsPos (euUsed [] l) :=
          (usedInv_euUsed l [] usedInv_nil countsPos_nil).2
        have h1 := hpos (baseName p) count hcoll
        have h2 := (pickCount_spec (baseName p) count (euUsed [] l)).2.1
        omega
      · rw [hget]
        congr 2
        rw [euAssign, hcoll]
      · exact (pickCount_spec (baseName p) count (euUsed [] l)).1
      · intro j hj1 hj2
        have hinv : UsedInv (euUsed [] l) :=
          (usedInv_euUsed l [] usedInv_nil countsPos_nil).1
        by_cases hjc : j < count
        · exact hinv (baseName p) count hcoll j hj1 hjc
        · exact (pickCount_spec (baseName p) count (euUsed [] l)).2.2 j (by omega) hj2

/-- Claim C2, counterexample to the claim as stated: in the input below the
third node is the first (and only) node whose base name is `a_1`, yet the
output renames it to `a_1_1`, because the second node was already renamed
to `a_1`; so "the first node with a given base name keeps its name" is
false on the code. -/
theorem C2_counterexample :
    baseName [((r"name" : String), PyVal.pstr (r"a_1")), ((r"server" : String), PyVal.pint 3)] = r"a_1" ∧
    baseName [((r"name" : String), PyVal.pstr (r"a")), ((r"server" : String), PyVal.pint 1)] ≠ r"a_1" ∧
    baseName [((r"name" : String), PyVal.pstr (r"a")), ((r"server" : String), PyVal.pint 2)] ≠ r"a_1" ∧
    (deduplicate_proxies
        [[((r"name" : String), PyVal.pstr (r"a")), ((r"server" : String), PyVal.pint 1)],
         [((r"name" : String), PyVal.pstr (r"a")), ((r"server" : String), PyVal.pint 2)],
         [((r"name" : String), PyVal.pstr (r"a_1")), ((r"server" : String), PyVal.pint 3)]]).map
        (fun q => dget q (r"name")) =
      [some (.pstr (r"a")), some (.pstr (r"a_1")), some (.pstr (r"a_1_1"))] := by
  refine ⟨by decide, by decide, by decide, by decide⟩

/-- Claim C2 witness: the amended theorem applied to the concrete
three-node input, discharging the decomposition hypotheses at the third
position. -/
theorem C2_witness :
    (ensure_unique_proxy_names
        [[((r"name" : String), PyVal.pstr (r"a")), ((r"server" : String), PyVal.pint 1)],
         [((r"name" : String), PyVal.pstr (r"a")), ((r"server" : String), PyVal.pint 2)],
         [((r"name" : String), PyVal.pstr (r"a_1")), ((r"server" : String), PyVal.pint 3)]]).get? 2 =
      some (dset [((r"name" : String), PyVal.pstr (r"a_1")), ((r"server" : String), PyVal.pint 3)]
        (r"name") (.pstr ((r"a_1") ++ r"_" ++ decRepr 1))) := by
  have h := (C2_unique_names_amended
      [[((r"name" : String), PyVal.pstr (r"a")), ((r"server" : String), PyVal.pint 1)],
       [((r"name" : String), PyVal.pstr (r"a")), ((r"server" : String), PyVal.pint 2)],
       [((r"name" : String), PyVal.pstr (r"a_1")), ((r"server" : String), PyVal.pint 3)]]).2.2
      [[((r"name" : String), PyVal.pstr (r"a")), ((r"server" : String), PyVal.pint 1)],
       [((r"name" : String), PyVal.pstr (r"a")), ((r"server" : String), PyVal.pint 2)]]
      [((r"name" : String), PyVal.pstr (r"a_1")), ((r"server" : String), PyVal.pint 3)] [] rfl
  obtain ⟨c, hc1, hget, hunused, hmin⟩ := h.2 1 (by decide)
  have hb : baseName [((r"name" : String), PyVal.pstr (r"a_1")), ((r"server" : String), PyVal.pint 3)] =
      r"a_1" := by decide
  obtain rfl : c = 1 := by
    by_cases h1 : c = 1
    · exact h1
    · exfalso
      have hj := hmin 1 (by omega) (by omega)
      rw [hb] at hj
      have hnone : assocGet (euUsed []
          [[((r"name" : String), PyVal.pstr (r"a")), ((r"server" : String), PyVal.pint 1)],
           [((r"name" : String), PyVal.pstr (r"a")), ((r"server" : String), PyVal.pint 2)]])
          ((r"a_1") ++ r"_" ++ decRepr 1) = none := by decide
      rw [hnone] at hj
      simp at hj
  rw [hb] at hget
  simpa using hget

/-! ### first-occurrence characterization of the fingerprint dedup (C3) -/

theorem dedupGo_eq_firstOcc (ps : List (List (String × PyVal))) :
    ∀ seen, dedupGo seen ps = firstOccByFp (ps.filter (fun q => proxy_fingerprint q ∉ seen)) := by
  induction ps with
  | nil => intro seen; simp [dedupGo, firstOccByFp]
  | cons p ps ih =>
      intro seen
      rw [dedupGo]
      by_cases h : proxy_fingerprint p ∈ seen
      · rw [if_pos h, List.filter_cons]
        have : (decide (proxy_fingerprint p ∉ seen)) = false := by simp [h]
        rw [this]
        simp only [Bool.false_eq_true, if_false]
        exact ih seen
      · rw [if_neg h, List.filter_cons]
        have : (decide (proxy_fingerprint p ∉ seen)) = true := by simp [h]
        rw [this]
        simp only [if_true]
        rw [firstOccByFp, ih (proxy_fingerprint p :: seen)]
        congr 1
        rw [List.filter_filter]
        congr 1
        apply List.filter_congr
        intro q hq
        by_cases hq1 : proxy_fingerprint q = proxy_fingerprint p
        · simp [hq1, h]
        · by_cases hs : proxy_fingerprint q ∈ seen <;> simp [hq1, hs]

theorem fingerprint_ignores_name (p : List (String × PyVal)) (v : PyVal) :
    proxy_fingerprint (dset p (r"name") v) = proxy_fingerprint p := by
  rw [proxy_fingerprint, proxy_fingerprint]
  congr 1
  apply List.map_congr_left
  intro k hk
  have hkm : k = r"type" ∨ k = r"server" ∨ k = r"port" ∨ k = r"uuid" ∨ k = r"password" ∨
      k = r"cipher" ∨ k = r"network" ∨ k = r"plugin" := by
    simpa [fpKeys] using hk
  have hkne : (r"name" : String) ≠ k := by
    rcases hkm with h | h | h | h | h | h | h | h <;> (subst h; decide)
  rw [dgetD, dgetD, dget, dset, assocGet_set_ne p (r"name") k v (fun hc => hkne hc.symm)]
  rfl

/-- Claim C3: `deduplicate_proxies` keeps exactly the first node of each
fingerprint and drops every later node with an equal fingerprint (the
output is the first-occurrence filter, then the name-uniquifier); an
identity field that is absent fingerprints exactly like one holding the
empty string; and in the two-subscription scenario (identical type,
server, port; names `a` and `b`) the merged list is exactly the
first-seen node, which keeps its name `a`. -/
theorem C3_dedup_first_occurrence :
    (∀ ps, deduplicate_proxies ps = ensure_unique_proxy_names (firstOccByFp ps)) ∧
    (∀ (p : List (String × PyVal)) (k : String), k ∈ fpKeys → dget p k = none →
      proxy_fingerprint (dset p k (.pstr (r""))) = proxy_fingerprint p) ∧
    deduplicate_proxies
        [[((r"name" : String), PyVal.pstr (r"a")), ((r"type" : String), PyVal.pstr (r"ss")),
          ((r"server" : String), PyVal.pstr (r"s1")), ((r"port" : String), PyVal.pint 80)],
         [((r"name" : String), PyVal.pstr (r"b")), ((r"type" : String), PyVal.pstr (r"ss")),
          ((r"server" : String), PyVal.pstr (r"s1")), ((r"port" : String), PyVal.pint 80)]] =
      [[((r"name" : String), PyVal.pstr (r"a")), ((r"type" : String), PyVal.pstr (r"ss")),
        ((r"server" : String), PyVal.pstr (r"s1")), ((r"port" : String), PyVal.pint 80)]] := by
  refine ⟨?_, ?_, by decide⟩
  · intro ps
    rw [deduplicate_proxies, dedupGo_eq_firstOcc]
    congr 2
    apply List.filter_eq_self.mpr
    intro q hq
    simp
  · intro p k hk hnone
    rw [proxy_fingerprint, proxy_fingerprint]
    congr 1
    apply List.map_congr_left
    intro k2 hk2
    by_cases hkk : k2 = k
    · subst hkk
      rw [dgetD, dget, dset, assocGet_set_self]
      rw [dgetD, dget] at *
      rw [show assocGet p k2 = none from hnone]
      rfl
    · rw [dgetD, dget, dset, assocGet_set_ne p k k2 (.pstr (r"")) hkk]
      rfl

/-- Claim C3 witness: the general conjuncts applied at concrete inputs
(the scenario list, and the absent `plugin` field of the empty proxy). -/
theorem C3_witness :
    deduplicate_proxies
        [[((r"name" : String), PyVal.pstr (r"a"))], [((r"name" : String), PyVal.pstr (r"b"))]] =
      ensure_unique_proxy_names (firstOccByFp
        [[((r"name" : String), PyVal.pstr (r"a"))], [((r"name" : String), PyVal.pstr (r"b"))]]) ∧
    proxy_fingerprint (dset [((r"name" : String), PyVal.pstr (r"x"))] (r"plugin") (.pstr (r""))) =
      proxy_fingerprint [((r"name" : String), PyVal.pstr (r"x"))] :=
  ⟨C3_dedup_first_occurrence.1
      [[((r"name" : String), PyVal.pstr (r"a"))], [((r"name" : String), PyVal.pstr (r"b"))]],
   C3_dedup_first_occurrence.2.1 [((r"name" : String), PyVal.pstr (r"x"))] (r"plugin")
      (by decide) (by decide)⟩

/-- Claim C10: `proxy_fingerprint` stringifies field values, so an
identity field explicitly set to `None` contributes the string `None`
while an absent field contributes the empty string; two nodes identical
except that one sets `plugin` to null and the other omits it have
different fingerprints and are both kept by `deduplicate_proxies`. -/
theorem C10_null_vs_absent :
    pyStr PyVal.pnone = r"None" ∧
    proxy_fingerprint [((r"plugin" : String), PyVal.pnone)] = r"|||||||None" ∧
    proxy_fingerprint ([] : List (String × PyVal)) = r"|||||||" ∧
    proxy_fingerprint [((r"name" : String), PyVal.pstr (r"n1")), ((r"plugin" : String), PyVal.pnone)] ≠
      proxy_fingerprint [((r"name" : String), PyVal.pstr (r"n2"))] ∧
    (deduplicate_proxies
        [[((r"name" : String), PyVal.pstr (r"n1")), ((r"plugin" : String), PyVal.pnone)],
         [((r"name" : String), PyVal.pstr (r"n2"))]]).length = 2 := by
  refine ⟨rfl, by decide, by decide, by decide, by decide⟩

theorem uniqueGo_seen_drop {α : Type} [DecidableEq α] (s : List α) :
    ∀ (l t : List α), (∀ x ∈ l, x ∉ s) → uniqueGo (s ++ t) l = uniqueGo t l := by
  intro l
  induction l with
  | nil => intro t _; simp [uniqueGo]
  | cons a l ih =>
      intro t h
      have ha : a ∉ s := h a (by simp)
      simp only [uniqueGo]
      by_cases hat : a ∈ t
      · rw [if_pos (by simp [hat]), if_pos hat]
        exact ih t (fun x hx => h x (by simp [hx]))
      · rw [if_neg (by simp [ha, hat]), if_neg hat]
        congr 1
        have hcongr : uniqueGo (a :: (s ++ t)) l = uniqueGo (s ++ (a :: t)) l := by
          apply uniqueGo_congr
          intro x
          simp only [List.mem_cons, List.mem_append]
          tauto
        rw [hcongr]
        exact ih (a :: t) (fun x hx => h x (by simp [hx]))

/-- Claim C1, amended.  Provided no newly introduced rule equals a
terminal (`MATCH,`-prefixed) rule already present in the base, the merged
list decomposes as the deduplication of (new rules, then existing
non-terminal rules) followed by the deduplication of the base's terminal
rules: the base's terminal rules remain last, new rules go immediately
before the first existing non-terminal rule, nothing is placed after a
terminal rule, and deduplication is exact string equality with first
occurrence winning, applied after the ordering is computed.  (Without the
proviso the claim fails: a new rule equal to a base terminal rule is
deduplicated to its new front position, leaving a non-terminal rule last;
see the counterexample.) -/
theorem C1_rule_merge_terminal_amended (existing new_rules : List PyVal)
    (h : ∀ ru ∈ cleanRules new_rules,
      ru ∉ (cleanRules existing).filter (fun ru => sStartsWith ru (r"MATCH,"))) :
    place_rules_before_match existing new_rules =
      unique_items (cleanRules new_rules ++
        (cleanRules existing).filter (fun ru => ¬ sStartsWith ru (r"MATCH,"))) ++
      unique_items ((cleanRules existing).filter (fun ru => sStartsWith ru (r"MATCH,"))) ∧
    (∀ ru ∈ unique_items ((cleanRules existing).filter (fun ru => sStartsWith ru (r"MATCH,"))),
      sStartsWith ru (r"MATCH,")) ∧
    (place_rules_before_match existing new_rules).Nodup := by
  have hdisj : ∀ x ∈ (cleanRules existing).filter (fun ru => sStartsWith ru (r"MATCH,")),
      x ∉ cleanRules new_rules ++
        (cleanRules existing).filter (fun ru => ¬ sStartsWith ru (r"MATCH,")) := by
    intro x hx hc
    rcases List.mem_append.mp hc with hn | hnm
    · exact h x hn hx
    · have h1 := List.of_mem_filter hx
      have h2 := List.of_mem_filter hnm
      simp only [decide_eq_true_eq] at h2
      rw [h1] at h2
      simp at h2
  constructor
  · rw [place_rules_before_match]
    rw [unique_items, uniqueGo_append]
    congr 1
    have hdrop := uniqueGo_seen_drop (cleanRules new_rules ++
        (cleanRules existing).filter (fun ru => ¬ sStartsWith ru (r"MATCH,")))
        ((cleanRules existing).filter (fun ru => sStartsWith ru (r"MATCH,"))) [] hdisj
    rw [hdrop]
    rfl
  · constructor
    · intro ru hru
      have := List.of_mem_filter ((mem_unique_items _ ru).mp hru)
      simpa using this
    · exact unique_items_nodup _

/-- Claim C1, counterexample to the claim as stated: when the new rule
list repeats the base's terminal rule, deduplication keeps the new front
copy and drops the trailing one, so the base's terminal rule does not
remain last (a non-terminal rule ends the list). -/
theorem C1_counterexample :
    place_rules_before_match [PyVal.pstr (r"DOMAIN,x"), PyVal.pstr (r"MATCH,PROXY")]
        [PyVal.pstr (r"MATCH,PROXY")] = [r"MATCH,PROXY", r"DOMAIN,x"] ∧
    (r"MATCH,PROXY") ∈ cleanRules [PyVal.pstr (r"DOMAIN,x"), PyVal.pstr (r"MATCH,PROXY")] ∧
    sStartsWith (r"MATCH,PROXY") (r"MATCH,") = true ∧
    (place_rules_before_match [PyVal.pstr (r"DOMAIN,x"), PyVal.pstr (r"MATCH,PROXY")]
        [PyVal.pstr (r"MATCH,PROXY")]).getLast? = some (r"DOMAIN,x") ∧
    sStartsWith (r"DOMAIN,x") (r"MATCH,") = false := by
  refine ⟨by decide, by decide, by decide, by decide, by decide⟩

/-- Claim C1 witness: the amended theorem at the spec's own scenario
(base `DOMAIN,example.com,DIRECT; MATCH,PROXY`, new `DOMAIN,foo.com,AI`),
with the proviso discharged by computation. -/
theorem C1_witness :
    place_rules_before_match
        [PyVal.pstr (r"DOMAIN,example.com,DIRECT"), PyVal.pstr (r"MATCH,PROXY")]
        [PyVal.pstr (r"DOMAIN,foo.com,AI")] =
      unique_items (cleanRules [PyVal.pstr (r"DOMAIN,foo.com,AI")] ++
        (cleanRules [PyVal.pstr (r"DOMAIN,example.com,DIRECT"), PyVal.pstr (r"MATCH,PROXY")]).filter
          (fun ru => ¬ sStartsWith ru (r"MATCH,"))) ++
      unique_items ((cleanRules
          [PyVal.pstr (r"DOMAIN,example.com,DIRECT"), PyVal.pstr (r"MATCH,PROXY")]).filter
          (fun ru => sStartsWith ru (r"MATCH,"))) :=
  (C1_rule_merge_terminal_amended
    [PyVal.pstr (r"DOMAIN,example.com,DIRECT"), PyVal.pstr (r"MATCH,PROXY")]
    [PyVal.pstr (r"DOMAIN,foo.com,AI")] (by decide)).1

/-! ### merge_group_lists machinery -/

theorem assocGet_some_mem {β : Type} (l : List (String × β)) (k : String) (v : β)
    (h : assocGet l k = some v) : (k, v) ∈ l := by
  induction l with
  | nil => simp [assocGet_nil] at h
  | cons e rest ih =>
      obtain ⟨k1, v1⟩ := e
      rw [assocGet_cons] at h
      by_cases hk : k1 = k
      · rw [if_pos hk] at h
        obtain rfl : v1 = v := by simpa using h
        subst hk
        simp
      · rw [if_neg hk] at h
        simp [ih h]

theorem foldSetFields_get_skip (entries : List (String × PyVal)) :
    ∀ (acc : List (String × PyVal)) (s : String),
      (s ∉ entries.map Prod.fst ∨ s = r"proxies") →
      assocGet (foldSetFields acc entries) s = assocGet acc s := by
  induction entries with
  | nil => intro acc s _; rfl
  | cons e rest ih =>
      intro acc s hs
      obtain ⟨k1, v1⟩ := e
      rw [foldSetFields, List.foldl_cons]
      by_cases hp : k1 = r"proxies"
      · rw [if_pos hp]
        apply ih acc s
        rcases hs with h | h
        · exact Or.inl (fun hc => h (by simp [hc]))
        · exact Or.inr h
      · rw [if_neg hp]
        have hne : s ≠ k1 := by
          rcases hs with h | h
          · intro hc; exact h (by simp [hc])
          · intro hc; exact hp (hc ▸ h)
        have := ih (dset acc k1 v1) s
          (by rcases hs with h | h
              · exact Or.inl (fun hc => h (by simp [hc]))
              · exact Or.inr h)
        rw [foldSetFields] at this
        rw [this, dset, assocGet_set_ne acc k1 s v1 hne]

theorem foldSetFields_get_mem (entries : List (String × PyVal)) :
    ∀ (acc : List (String × PyVal)) (k : String) (v : PyVal),
      k ≠ r"proxies" → (entries.map Prod.fst).Nodup → (k, v) ∈ entries →
      assocGet (foldSetFields acc entries) k = some v := by
  induction entries with
  | nil => intro acc k v _ _ h; simp at h
  | cons e rest ih =>
      intro acc k v hk hnd hmem
      obtain ⟨k1, v1⟩ := e
      rw [foldSetFields, List.foldl_cons]
      rcases List.mem_cons.mp hmem with h | h
      · obtain ⟨rfl, rfl⟩ := Prod.mk.injEq .. ▸ h
        rw [if_neg hk]
        have hnot : k ∉ rest.map Prod.fst := by simpa using (List.nodup_cons.mp hnd).1
        have hskip := foldSetFields_get_skip rest (dset acc k v) k (Or.inl hnot)
        show assocGet (foldSetFields (dset acc k v) rest) k = some v
        rw [hskip, dset, assocGet_set_self]
      · by_cases hp : k1 = r"proxies"
        · rw [if_pos hp]
          exact ih acc k v hk (List.nodup_cons.mp hnd).2 h
        · rw [if_neg hp]
          exact ih (dset acc k1 v1) k v hk (List.nodup_cons.mp hnd).2 h

theorem mergeGroupInto_name (existing incoming : List (String × PyVal))
    (hnd : (incoming.map Prod.fst).Nodup)
    (hval : pyTruthy (dgetD incoming (r"name") .pnone)) :
    dgetD (mergeGroupInto existing incoming) (r"name") .pnone =
      dgetD incoming (r"name") .pnone := by
  have hname : ∃ v, assocGet incoming (r"name") = some v := by
    cases hg : assocGet incoming (r"name") with
    | none =>
        exfalso
        rw [dgetD, dget, hg] at hval
        simp [pyTruthy] at hval
    | some v => exact ⟨v, rfl⟩
  obtain ⟨v, hv⟩ := hname
  have hmem := assocGet_some_mem incoming (r"name") v hv
  have hgot : assocGet (foldSetFields existing incoming) (r"name") = some v :=
    foldSetFields_get_mem incoming existing (r"name") v (by decide) hnd hmem
  have hform : mergeGroupInto existing incoming =
      (match dgetD existing (r"proxies") (.plist []), dgetD incoming (r"proxies") (.plist []) with
       | PyVal.plist eps, PyVal.plist ips =>
           dset (foldSetFields existing incoming) (r"proxies")
             (.plist (unique_items (eps ++ ips)))
       | _, _ => foldSetFields existing incoming) := rfl
  rw [hform]
  have hrhs : dgetD incoming (r"name") .pnone = v := by
    rw [dgetD, dget, hv]
    rfl
  rw [hrhs]
  cases dgetD existing (r"proxies") (.plist []) <;>
    cases dgetD incoming (r"proxies") (.plist []) <;>
    simp only [] <;>
    first
      | (rw [dgetD, dget, dset, assocGet_set_ne _ (r"proxies") (r"name") _ (by decide), hgot]; rfl)
      | (rw [dgetD, dget, hgot]; rfl)

theorem assocSet_mem {β : Type} (l : List (String × β)) (k : String) (v : β) :
    ∀ e ∈ assocSet l k v, e ∈ l ∨ e = (k, v) := by
  induction l with
  | nil => intro e he; simp [assocSet] at he; simp [he]
  | cons f rest ih =>
      intro e he
      obtain ⟨k1, v1⟩ := f
      rw [assocSet] at he
      by_cases h : k1 = k
      · rw [if_pos h] at he
        rcases List.mem_cons.mp he with h1 | h1
        · exact Or.inr h1
        · exact Or.inl (by simp [h1])
      · rw [if_neg h] at he
        rcases List.mem_cons.mp he with h1 | h1
        · exact Or.inl (by simp [h1])
        · rcases ih e h1 with h2 | h2
          · exact Or.inl (by simp [h2])
          · exact Or.inr h2

theorem gInv_insBase (acc : List (String × List (String × PyVal))) (g : PyVal)
    (hInv : GInv acc) : GInv (insBaseGroup acc g) := by
  cases g with
  | pdict d =>
      rw [insBaseGroup]
      by_cases h : pyTruthy (dgetD d (r"name") .pnone)
      · rw [if_pos h]
        intro e he
        rcases assocSet_mem acc (groupKey d) d e he with h1 | h1
        · exact hInv e h1
        · subst h1
          exact ⟨h, rfl⟩
      · rw [if_neg h]
        exact hInv
  | pnone => exact hInv
  | pbool b => exact hInv
  | pint n => exact hInv
  | pstr s => exact hInv
  | plist xs => exact hInv

theorem gInv_insNew (acc : List (String × List (String × PyVal))) (g : PyVal)
    (hInv : GInv acc)
    (hwf : ∀ d, g = PyVal.pdict d → (d.map Prod.fst).Nodup) :
    GInv (insNewGroup acc g) := by
  cases g with
  | pdict d =>
      rw [insNewGroup]
      by_cases h : pyTruthy (dgetD d (r"name") .pnone)
      · rw [if_pos h]
        show GInv (match assocGet acc (groupKey d) with
          | none => assocSet acc (groupKey d) d
          | some existing => assocSet acc (groupKey d) (mergeGroupInto existing d))
        cases hg : assocGet acc (groupKey d) with
        | none =>
            intro e he
            rcases assocSet_mem acc (groupKey d) d e he with h1 | h1
            · exact hInv e h1
            · subst h1
              exact ⟨h, rfl⟩
        | some existing =>
            intro e he
            rcases assocSet_mem acc (groupKey d) (mergeGroupInto existing d) e he with h1 | h1
            · exact hInv e h1
            · subst h1
              have hnd := hwf d rfl
              have hn := mergeGroupInto_name existing d hnd h
              constructor
              · rw [hn]
                exact h
              · rw [groupKey, hn]
                rfl
      · rw [if_neg h]
        exact hInv
  | pnone => exact hInv
  | pbool b => exact hInv
  | pint n => exact hInv
  | pstr s => exact hInv
  | plist xs => exact hInv

theorem gInv_fold_base (gs : List PyVal) :
    ∀ acc, GInv acc → GInv (gs.foldl insBaseGroup acc) := by
  induction gs with
  | nil => intro acc h; exact h
  | cons g gs ih =>
      intro acc h
      rw [List.foldl_cons]
      exact ih (insBaseGroup acc g) (gInv_insBase acc g h)

theorem gInv_fold_new (ns : List PyVal) :
    ∀ acc, GInv acc → WFGroups ns → GInv (ns.foldl insNewGroup acc) := by
  induction ns with
  | nil => intro acc h _; exact h
  | cons g ns ih =>
      intro acc h hwf
      rw [List.foldl_cons]
      refine ih (insNewGroup acc g) (gInv_insNew acc g h ?_) ?_
      · intro d hd
        exact hwf g (by simp) d hd
      · intro g2 hg2 d hd
        exact hwf g2 (by simp [hg2]) d hd

theorem validKeys_cons_dict_pos (d : List (String × PyVal)) (gs : List PyVal)
    (h : pyTruthy (dgetD d (r"name") .pnone)) :
    validKeys (PyVal.pdict d :: gs) = groupKey d :: validKeys gs := by
  rw [validKeys, List.filterMap_cons]
  simp only [h, if_true]
  rfl

theorem validKeys_cons_skip (g : PyVal) (gs : List PyVal)
    (h : isValidGroup g = false) :
    validKeys (g :: gs) = validKeys gs := by
  rw [validKeys, List.filterMap_cons]
  cases g with
  | pdict d =>
      rw [isValidGroup] at h
      simp only [h, if_false]
      rfl
  | pnone => rfl
  | pbool b => rfl
  | pint n => rfl
  | pstr s => rfl
  | plist xs => rfl

theorem keys_step_common (acc : List (String × List (String × PyVal))) (k : String)
    (v : List (String × PyVal)) :
    ((assocSet acc k v).map Prod.fst) =
      if k ∈ acc.map Prod.fst then acc.map Prod.fst else acc.map Prod.fst ++ [k] :=
  assocSet_keys acc k v

theorem fold_keys_aux (step : List (String × List (String × PyVal)) → PyVal →
      List (String × List (String × PyVal)))
    (hstep : ∀ acc g, (isValidGroup g = false → step acc g = acc) ∧
      (∀ d, g = PyVal.pdict d → pyTruthy (dgetD d (r"name") .pnone) →
        ((step acc g).map Prod.fst) = (assocSet acc (groupKey d) d).map Prod.fst)) :
    ∀ (gs : List PyVal) (acc : List (String × List (String × PyVal))),
      ((gs.foldl step acc).map Prod.fst) =
        acc.map Prod.fst ++ uniqueGo (acc.map Prod.fst) (validKeys gs) := by
  intro gs
  induction gs with
  | nil => intro acc; simp [validKeys, uniqueGo]
  | cons g gs ih =>
      intro acc
      rw [List.foldl_cons]
      by_cases hval : isValidGroup g
      · cases g with
        | pdict d =>
            have htruthy : pyTruthy (dgetD d (r"name") .pnone) := by
              rw [isValidGroup] at hval
              exact hval
            rw [validKeys_cons_dict_pos d gs htruthy]
            rw [ih (step acc (PyVal.pdict d))]
            have hkeys := (hstep acc (PyVal.pdict d)).2 d rfl htruthy
            rw [hkeys, assocSet_keys]
            by_cases hk : groupKey d ∈ acc.map Prod.fst
            · rw [if_pos hk]
              rw [uniqueGo]
              rw [if_pos hk]
            · rw [if_neg hk]
              rw [uniqueGo]
              rw [if_neg hk]
              rw [List.append_assoc]
              congr 1
              rw [List.singleton_append]
              congr 1
              apply uniqueGo_congr
              intro x
              simp only [List.mem_cons, List.mem_append, List.mem_singleton]
              tauto
        | pnone => simp [isValidGroup] at hval
        | pbool b => simp [isValidGroup] at hval
        | pint n => simp [isValidGroup] at hval
        | pstr s => simp [isValidGroup] at hval
        | plist xs => simp [isValidGroup] at hval
      · have hskip := (hstep acc g).1 (by simpa using hval)
        rw [hskip, validKeys_cons_skip g gs (by simpa using hval), ih acc]

theorem insBase_step_spec : ∀ (acc : List (String × List (String × PyVal))) (g : PyVal),
    (isValidGroup g = false → insBaseGroup acc g = acc) ∧
    (∀ d, g = PyVal.pdict d → pyTruthy (dgetD d (r"name") .pnone) →
      ((insBaseGroup acc g).map Prod.fst) = (assocSet acc (groupKey d) d).map Prod.fst) := by
  intro acc g
  constructor
  · intro h
    cases g with
    | pdict d =>
        rw [isValidGroup] at h
        rw [insBaseGroup, if_neg (by simp [h])]
    | pnone => rfl
    | pbool b => rfl
    | pint n => rfl
    | pstr s => rfl
    | plist xs => rfl
  · intro d hd ht
    subst hd
    rw [insBaseGroup, if_pos ht]

theorem insNew_step_spec : ∀ (acc : List (String × List (String × PyVal))) (g : PyVal),
    (isValidGroup g = false → insNewGroup acc g = acc) ∧
    (∀ d, g = PyVal.pdict d → pyTruthy (dgetD d (r"name") .pnone) →
      ((insNewGroup acc g).map Prod.fst) = (assocSet acc (groupKey d) d).map Prod.fst) := by
  intro acc g
  constructor
  · intro h
    cases g with
    | pdict d =>
        rw [isValidGroup] at h
        rw [insNewGroup, if_neg (by simp [h])]
    | pnone => rfl
    | pbool b => rfl
    | pint n => rfl
    | pstr s => rfl
    | plist xs => rfl
  · intro d hd ht
    subst hd
    rw [insNewGroup, if_pos ht]
    show (match assocGet acc (groupKey d) with
      | none => assocSet acc (groupKey d) d
      | some existing => assocSet acc (groupKey d) (mergeGroupInto existing d)).map Prod.fst =
      (assocSet acc (groupKey d) d).map Prod.fst
    cases hg : assocGet acc (groupKey d) with
    | none => rfl
    | some existing =>
        rw [assocSet_keys, assocSet_keys]

/-- Claim C9: `merge_group_lists` silently drops every entry of the base
and incoming group lists that is not a mapping or lacks a truthy `name`
(every output group is a well-formed named mapping), returns the merged
groups ordered by first occurrence of each name, and therefore merging
with an empty incoming list can remove malformed groups, as the concrete
instance shows.  (Stated for inputs whose group mappings have distinct
keys, as Python dicts do.) -/
theorem C9_merge_group_lists_drops_malformed (gs ns : List PyVal) (hwfn : WFGroups ns) :
    (∀ g ∈ merge_group_lists gs ns, isValidGroup g) ∧
    ((merge_group_lists gs ns).map
        (fun g => match g with | PyVal.pdict d => groupKey d | _ => r"")) =
      unique_items (validKeys gs ++ validKeys ns) ∧
    merge_group_lists
        [PyVal.pstr (r"junk"), PyVal.pdict [((r"type" : String), PyVal.pstr (r"select"))],
         PyVal.pdict [((r"name" : String), PyVal.pstr (r"G"))]] [] =
      [PyVal.pdict [((r"name" : String), PyVal.pstr (r"G"))]] := by
  have hInvNil : GInv [] := by intro e he; simp at he
  have hInvBase := gInv_fold_base gs [] hInvNil
  have hInv := gInv_fold_new ns (gs.foldl insBaseGroup []) hInvBase hwfn
  refine ⟨?_, ?_, by decide⟩
  · intro g hg
    rw [merge_group_lists] at hg
    obtain ⟨e, he, rfl⟩ := List.mem_map.mp hg
    rw [isValidGroup]
    exact (hInv e he).1
  · rw [merge_group_lists, List.map_map]
    have hmapkey : (ns.foldl insNewGroup (gs.foldl insBaseGroup [])).map
        ((fun g => match g with | PyVal.pdict d => groupKey d | _ => r"") ∘
          (fun e => PyVal.pdict e.2)) =
        (ns.foldl insNewGroup (gs.foldl insBaseGroup [])).map Prod.fst := by
      apply List.map_congr_left
      intro e he
      exact (hInv e he).2
    rw [hmapkey]
    rw [fold_keys_aux insNewGroup insNew_step_spec ns (gs.foldl insBaseGroup [])]
    rw [fold_keys_aux insBaseGroup insBase_step_spec gs []]
    simp only [List.map_nil, List.nil_append]
    rw [unique_items, uniqueGo_append]
    congr 1
    apply uniqueGo_congr
    intro x
    rw [mem_uniqueGo]
    simp

/-- Claim C9 witness: the theorem at a concrete pair of lists (a valid
base group plus junk, and one incoming group), with the well-formedness
hypothesis discharged explicitly. -/
theorem C9_witness :
    (merge_group_lists
        [PyVal.pdict [((r"name" : String), PyVal.pstr (r"A"))], PyVal.pstr (r"junk")]
        [PyVal.pdict [((r"name" : String), PyVal.pstr (r"B"))]]).all isValidGroup = true := by
  have hwfn : WFGroups [PyVal.pdict [((r"name" : String), PyVal.pstr (r"B"))]] := by
    intro g hg d hd
    simp only [List.mem_singleton] at hg
    subst hg
    cases hd
    decide
  have h := (C9_merge_group_lists_drops_malformed
    [PyVal.pdict [((r"name" : String), PyVal.pstr (r"A"))], PyVal.pstr (r"junk")]
    [PyVal.pdict [((r"name" : String), PyVal.pstr (r"B"))]] hwfn).1
  rw [List.all_eq_true]
  intro g hg
  exact h g hg

/-! ### sanitize_proxy_groups machinery -/

theorem unique_items_ne_nil {α : Type} [DecidableEq α] (l : List α) (h : l ≠ []) :
    unique_items l ≠ [] := by
  cases l with
  | nil => exact absurd rfl h
  | cons a l =>
      intro hc
      have : a ∈ unique_items (a :: l) := (mem_unique_items _ a).mpr (by simp)
      rw [hc] at this
      simp at this

theorem cleanStage_of_list (g : List (String × PyVal)) (k : String) (us : List PyVal)
    (hg : dget g k = some (.plist us)) :
    cleanStage g k =
      (if (us.filterMap (fun item =>
          let s := pyStrip (pyStr item)
          if s = r"" then none else some s)) ≠ [] then
        dset g k (.plist ((unique_items (us.filterMap (fun item =>
          let s := pyStrip (pyStr item)
          if s = r"" then none else some s))).map PyVal.pstr))
      else dpop g k) := by
  rw [cleanStage, hg]

theorem cleanStage_of_other (g : List (String × PyVal)) (k : String)
    (hg : ∀ us, dget g k ≠ some (.plist us)) : cleanStage g k = g := by
  rw [cleanStage]
  cases hv : dget g k with
  | none => rfl
  | some v =>
      cases v with
      | plist us => exact absurd hv (hg us)
      | pnone => rfl
      | pbool b => rfl
      | pint n => rfl
      | pstr s2 => rfl
      | pdict d2 => rfl

theorem cleanStage_get_ne (g : List (String × PyVal)) (k s : String) (h : s ≠ k) :
    dget (cleanStage g k) s = dget g s := by
  cases hg : dget g k with
  | none =>
      rw [cleanStage_of_other g k (fun us => by rw [hg]; simp)]
  | some v =>
      cases v with
      | plist us =>
          rw [cleanStage_of_list g k us hg]
          by_cases hcl : us.filterMap (fun item =>
              let s := pyStrip (pyStr item)
              if s = r"" then none else some s) ≠ []
          · rw [if_pos hcl, dget, dset, assocGet_set_ne g k s _ h]
            rfl
          · rw [if_neg hcl, dget, dpop, assocGet_pop_ne g k s h]
            rfl
      | pnone => rw [cleanStage_of_other g k (fun us => by rw [hg]; simp)]
      | pbool b => rw [cleanStage_of_other g k (fun us => by rw [hg]; simp)]
      | pint n => rw [cleanStage_of_other g k (fun us => by rw [hg]; simp)]
      | pstr s2 => rw [cleanStage_of_other g k (fun us => by rw [hg]; simp)]
      | pdict d2 => rw [cleanStage_of_other g k (fun us => by rw [hg]; simp)]

theorem cleanStage_keys_nodup (g : List (String × PyVal)) (k : String)
    (h : (g.map Prod.fst).Nodup) : ((cleanStage g k).map Prod.fst).Nodup := by
  cases hg : dget g k with
  | none => rw [cleanStage_of_other g k (fun us => by rw [hg]; simp)]; exact h
  | some v =>
      cases v with
      | plist us =>
          rw [cleanStage_of_list g k us hg]
          by_cases hcl : us.filterMap (fun item =>
              let s := pyStrip (pyStr item)
              if s = r"" then none else some s) ≠ []
          · rw [if_pos hcl]
            exact assocSet_keys_nodup g k _ h
          · rw [if_neg hcl]
            show ((assocPop g k).map Prod.fst).Nodup
            rw [assocPop_keys]
            exact h.erase k
      | pnone => rw [cleanStage_of_other g k (fun us => by rw [hg]; simp)]; exact h
      | pbool b => rw [cleanStage_of_other g k (fun us => by rw [hg]; simp)]; exact h
      | pint n => rw [cleanStage_of_other g k (fun us => by rw [hg]; simp)]; exact h
      | pstr s2 => rw [cleanStage_of_other g k (fun us => by rw [hg]; simp)]; exact h
      | pdict d2 => rw [cleanStage_of_other g k (fun us => by rw [hg]; simp)]; exact h

theorem cleanStage_out (g : List (String × PyVal)) (k : String)
    (hnd : (g.map Prod.fst).Nodup) (hla : listOrAbsentB g k = true) :
    dget (cleanStage g k) k = none ∨
      ∃ l, l ≠ [] ∧ dget (cleanStage g k) k = some (.plist l) := by
  cases hg : dget g k with
  | none =>
      rw [cleanStage_of_other g k (fun us => by rw [hg]; simp)]
      exact Or.inl hg
  | some v =>
      cases v with
      | plist us =>
          rw [cleanStage_of_list g k us hg]
          by_cases hcl : us.filterMap (fun item =>
              let s := pyStrip (pyStr item)
              if s = r"" then none else some s) ≠ []
          · rw [if_pos hcl]
            refine Or.inr ⟨_, ?_, by rw [dget, dset, assocGet_set_self]⟩
            intro hc
            have := unique_items_ne_nil _ hcl
            simp only [List.map_eq_nil_iff] at hc
            exact this hc
          · rw [if_neg hcl]
            refine Or.inl ?_
            show dget (assocPop g k) k = none
            rw [dget]
            exact assocGet_pop_self g k hnd
      | pnone => rw [listOrAbsentB, hg] at hla; simp at hla
      | pbool b => rw [listOrAbsentB, hg] at hla; simp at hla
      | pint n => rw [listOrAbsentB, hg] at hla; simp at hla
      | pstr s2 => rw [listOrAbsentB, hg] at hla; simp at hla
      | pdict d2 => rw [listOrAbsentB, hg] at hla; simp at hla

theorem cleanStage_empty (g : List (String × PyVal)) (k : String)
    (hnd : (g.map Prod.fst).Nodup) (hla : listOrAbsentB g k = true)
    (hcl : cleanedStrs g k = []) : dget (cleanStage g k) k = none := by
  cases hg : dget g k with
  | none =>
      rw [cleanStage_of_other g k (fun us => by rw [hg]; simp)]
      exact hg
  | some v =>
      cases v with
      | plist us =>
          rw [cleanedStrs, hg] at hcl
          rw [cleanStage_of_list g k us hg]
          rw [if_neg (by simpa using hcl)]
          show dget (assocPop g k) k = none
          rw [dget]
          exact assocGet_pop_self g k hnd
      | pnone => rw [listOrAbsentB, hg] at hla; simp at hla
      | pbool b => rw [listOrAbsentB, hg] at hla; simp at hla
      | pint n => rw [listOrAbsentB, hg] at hla; simp at hla
      | pstr s2 => rw [listOrAbsentB, hg] at hla; simp at hla
      | pdict d2 => rw [listOrAbsentB, hg] at hla; simp at hla

theorem sanitizeGroup_eq (fb : List String) (d : List (String × PyVal)) :
    sanitizeGroup fb d =
      (if ¬ pyTruthy (dgetD (cleanStage (cleanStage d (r"use")) (r"proxies")) (r"use") .pnone) ∧
          ¬ pyTruthy (dgetD (cleanStage (cleanStage d (r"use")) (r"proxies")) (r"proxies") .pnone) then
        dset (cleanStage (cleanStage d (r"use")) (r"proxies")) (r"proxies")
          (.plist (fb.map PyVal.pstr))
      else cleanStage (cleanStage d (r"use")) (r"proxies")) := rfl

theorem sanitizeGroup_spec (fb : List String) (d : List (String × PyVal))
    (hnd : (d.map Prod.fst).Nodup)
    (hu : listOrAbsentB d (r"use") = true)
    (hp : listOrAbsentB d (r"proxies") = true)
    (hfb : fb ≠ []) :
    dget (sanitizeGroup fb d) (r"name") = dget d (r"name") ∧
    ((∃ l, l ≠ [] ∧ dget (sanitizeGroup fb d) (r"proxies") = some (.plist l)) ∨
     (∃ l, l ≠ [] ∧ dget (sanitizeGroup fb d) (r"use") = some (.plist l))) := by
  have hg1nd := cleanStage_keys_nodup d (r"use") hnd
  have hg1p : dget (cleanStage d (r"use")) (r"proxies") = dget d (r"proxies") :=
    cleanStage_get_ne d (r"use") (r"proxies") (by decide)
  have hg1lap : listOrAbsentB (cleanStage d (r"use")) (r"proxies") = true := by
    rw [listOrAbsentB, hg1p, ← listOrAbsentB]
    exact hp
  have hg2u : dget (cleanStage (cleanStage d (r"use")) (r"proxies")) (r"use") =
      dget (cleanStage d (r"use")) (r"use") :=
    cleanStage_get_ne (cleanStage d (r"use")) (r"proxies") (r"use") (by decide)
  have hg1uo := cleanStage_out d (r"use") hnd hu
  have hg2po := cleanStage_out (cleanStage d (r"use")) (r"proxies") hg1nd hg1lap
  have hname : dget (cleanStage (cleanStage d (r"use")) (r"proxies")) (r"name") =
      dget d (r"name") := by
    rw [cleanStage_get_ne (cleanStage d (r"use")) (r"proxies") (r"name") (by decide)]
    exact cleanStage_get_ne d (r"use") (r"name") (by decide)
  rw [sanitizeGroup_eq]
  by_cases hcond : ¬ pyTruthy (dgetD (cleanStage (cleanStage d (r"use")) (r"proxies")) (r"use") .pnone) ∧
      ¬ pyTruthy (dgetD (cleanStage (cleanStage d (r"use")) (r"proxies")) (r"proxies") .pnone)
  · rw [if_pos hcond]
    constructor
    · rw [dget, dset, assocGet_set_ne _ (r"proxies") (r"name") _ (by decide)]
      exact hname
    · refine Or.inl ⟨fb.map PyVal.pstr, ?_, by rw [dget, dset, assocGet_set_self]⟩
      simpa using hfb
  · rw [if_neg hcond]
    refine ⟨hname, ?_⟩
    rw [not_and_or, not_not, not_not] at hcond
    rcases hcond with htru | htrp
    · refine Or.inr ?_
      rcases hg1uo with hnone | ⟨l, hl, hll⟩
      · exfalso
        rw [dgetD, hg2u, hnone] at htru
        simp [pyTruthy] at htru
      · exact ⟨l, hl, by rw [hg2u, hll]⟩
    · refine Or.inl ?_
      rcases hg2po with hnone | ⟨l, hl, hll⟩
      · exfalso
        rw [dgetD, hnone] at htrp
        simp [pyTruthy] at htrp
      · exact ⟨l, hl, hll⟩

theorem sanitizeGroup_fallback (fb : List String) (d : List (String × PyVal))
    (hnd : (d.map Prod.fst).Nodup)
    (hu : listOrAbsentB d (r"use") = true)
    (hp : listOrAbsentB d (r"proxies") = true)
    (hcu : cleanedStrs d (r"use") = [])
    (hcp : cleanedStrs d (r"proxies") = []) :
    dget (sanitizeGroup fb d) (r"proxies") = some (.plist (fb.map PyVal.pstr)) := by
  have hg1nd := cleanStage_keys_nodup d (r"use") hnd
  have hg1u : dget (cleanStage d (r"use")) (r"use") = none :=
    cleanStage_empty d (r"use") hnd hu hcu
  have hg1p : dget (cleanStage d (r"use")) (r"proxies") = dget d (r"proxies") :=
    cleanStage_get_ne d (r"use") (r"proxies") (by decide)
  have hg1lap : listOrAbsentB (cleanStage d (r"use")) (r"proxies") = true := by
    rw [listOrAbsentB, hg1p, ← listOrAbsentB]
    exact hp
  have hg1cp : cleanedStrs (cleanStage d (r"use")) (r"proxies") = [] := by
    rw [cleanedStrs, hg1p, ← cleanedStrs]
    exact hcp
  have hg2p : dget (cleanStage (cleanStage d (r"use")) (r"proxies")) (r"proxies") = none :=
    cleanStage_empty (cleanStage d (r"use")) (r"proxies") hg1nd hg1lap hg1cp
  have hg2u : dget (cleanStage (cleanStage d (r"use")) (r"proxies")) (r"use") = none := by
    rw [cleanStage_get_ne (cleanStage d (r"use")) (r"proxies") (r"use") (by decide)]
    exact hg1u
  rw [sanitizeGroup_eq, if_pos ?hc]
  case hc =>
    constructor
    · rw [dgetD, hg2u]
      simp [pyTruthy]
    · rw [dgetD, hg2p]
      simp [pyTruthy]
  rw [dget, dset, assocGet_set_self]

/-- Claim C8, amended.  For a document whose `proxy-groups` value is a
list of mapping groups with distinct keys whose `use` and `proxies`
fields, when present, hold lists, `sanitize_proxy_groups` keeps every
group in order, never renames it, and leaves each group with a non-empty
`proxies` list or a non-empty `use` list; a group whose trimmed and
deduplicated sources are both empty receives the fallback member list
(all known node names plus `DIRECT`).  (The original claim fails for
groups holding truthy non-list sources, which the stage leaves untouched
with neither source list; see the counterexample.) -/
theorem C8_group_sources_amended (config : List (String × PyVal)) (groups : List PyVal)
    (hpg : dget config (r"proxy-groups") = some (.plist groups))
    (hwf : ∀ g ∈ groups, ∃ d, g = PyVal.pdict d ∧ (d.map Prod.fst).Nodup ∧
      listOrAbsentB d (r"use") = true ∧ listOrAbsentB d (r"proxies") = true) :
    (∃ outGroups, dget (sanitize_proxy_groups config) (r"proxy-groups") =
        some (.plist outGroups) ∧
      List.Forall₂ (fun g g2 => ∀ d, g = PyVal.pdict d →
        ∃ d2, g2 = PyVal.pdict d2 ∧ dget d2 (r"name") = dget d (r"name") ∧
          ((∃ l, l ≠ [] ∧ dget d2 (r"proxies") = some (.plist l)) ∨
           (∃ l, l ≠ [] ∧ dget d2 (r"use") = some (.plist l)))) groups outGroups) ∧
    (∀ (fb : List String) (d : List (String × PyVal)), (d.map Prod.fst).Nodup →
      listOrAbsentB d (r"use") = true → listOrAbsentB d (r"proxies") = true →
      cleanedStrs d (r"use") = [] → cleanedStrs d (r"proxies") = [] →
      dget (sanitizeGroup fb d) (r"proxies") = some (.plist (fb.map PyVal.pstr))) := by
  constructor
  · have hs : sanitize_proxy_groups config =
        dset config (r"proxy-groups") (.plist (groups.filterMap (fun g =>
          match g with
          | PyVal.pdict d => some (PyVal.pdict (sanitizeGroup
              (unique_items (list_proxy_names config ++ [r"DIRECT"])) d))
          | _ => none))) := by
      rw [sanitize_proxy_groups, hpg]
    have hfb : unique_items (list_proxy_names config ++ [r"DIRECT"]) ≠ [] := by
      apply List.ne_nil_of_mem
      apply (mem_unique_items _ (r"DIRECT")).mpr
      simp
    refine ⟨_, by rw [hs, dget, dset, assocGet_set_self], ?_⟩
    clear hs hpg
    induction groups with
    | nil => simp
    | cons g gs ih =>
        obtain ⟨d, rfl, hnd, hu, hp⟩ := hwf g (by simp)
        rw [List.filterMap_cons]
        simp only []
        refine List.Forall₂.cons ?_ (ih (fun g2 hg2 => hwf g2 (by simp [hg2])))
        intro d2 hd2
        obtain rfl : d = d2 := by
          injection hd2
        obtain ⟨hname, hsrc⟩ := sanitizeGroup_spec
          (unique_items (list_proxy_names config ++ [r"DIRECT"])) d hnd hu hp hfb
        exact ⟨_, rfl, hname, hsrc⟩
  · intro fb d hnd hu hp hcu hcp
    exact sanitizeGroup_fallback fb d hnd hu hp hcu hcp

/-- Claim C8, counterexample to the claim as stated: a group whose `use`
field holds the truthy non-list value `5` is left untouched, so the
output group has neither a non-empty `proxies` list nor a non-empty
`use` list. -/
theorem C8_counterexample :
    sanitize_proxy_groups
        [((r"proxy-groups" : String), PyVal.plist
          [PyVal.pdict [((r"name" : String), PyVal.pstr (r"G")), ((r"use" : String), PyVal.pint 5)]])] =
      [((r"proxy-groups" : String), PyVal.plist
        [PyVal.pdict [((r"name" : String), PyVal.pstr (r"G")), ((r"use" : String), PyVal.pint 5)]])] ∧
    dget [((r"name" : String), PyVal.pstr (r"G")), ((r"use" : String), PyVal.pint 5)]
        (r"proxies") = none ∧
    dget [((r"name" : String), PyVal.pstr (r"G")), ((r"use" : String), PyVal.pint 5)]
        (r"use") = some (PyVal.pint 5) := by
  refine ⟨by decide, by decide, by decide⟩

/-- Claim C8 witness: the amended theorem at a concrete document with one
sourceless group, whose hypotheses are discharged explicitly; the group
is repaired. -/
theorem C8_witness :
    ∃ outGroups, dget (sanitize_proxy_groups
        [((r"proxies" : String), PyVal.plist [PyVal.pdict [((r"name" : String), PyVal.pstr (r"n1"))]]),
         ((r"proxy-groups" : String), PyVal.plist [PyVal.pdict [((r"name" : String), PyVal.pstr (r"G"))]])])
        (r"proxy-groups") = some (.plist outGroups) ∧
      List.Forall₂ (fun g g2 => ∀ d, g = PyVal.pdict d →
        ∃ d2, g2 = PyVal.pdict d2 ∧ dget d2 (r"name") = dget d (r"name") ∧
          ((∃ l, l ≠ [] ∧ dget d2 (r"proxies") = some (.plist l)) ∨
           (∃ l, l ≠ [] ∧ dget d2 (r"use") = some (.plist l))))
        [PyVal.pdict [((r"name" : String), PyVal.pstr (r"G"))]] outGroups := by
  have h := C8_group_sources_amended
    [((r"proxies" : String), PyVal.plist [PyVal.pdict [((r"name" : String), PyVal.pstr (r"n1"))]]),
     ((r"proxy-groups" : String), PyVal.plist [PyVal.pdict [((r"name" : String), PyVal.pstr (r"G"))]])]
    [PyVal.pdict [((r"name" : String), PyVal.pstr (r"G"))]]
    (by decide)
    (by
      intro g hg
      simp only [List.mem_singleton] at hg
      subst hg
      exact ⟨[((r"name" : String), PyVal.pstr (r"G"))], rfl, by decide, by decide, by decide⟩)
  exact h.1

theorem apply_js_timeout (config : List (String × PyVal)) (script : String)
    (hne : pyStrip script ≠ r"") :
    apply_js_override config script SandboxOutcome.timeout =
      .error (r"override.js execution timeout") := by
  rw [apply_js_override.eq_def, if_neg hne]

theorem apply_js_nodeMissing (config : List (String × PyVal)) (script : String)
    (hne : pyStrip script ≠ r"") :
    apply_js_override config script SandboxOutcome.nodeMissing =
      .error (r"node runtime not found") := by
  rw [apply_js_override.eq_def, if_neg hne]

theorem apply_js_completed (config : List (String × PyVal)) (script : String)
    (rc : Int) (out err : String) (hne : pyStrip script ≠ r"") :
    apply_js_override config script (SandboxOutcome.completed rc out err) =
      (if rc ≠ 0 then
        Except.error (if pyStrip err = r"" then r"unknown js execution error" else pyStrip err)
      else if pyStrip out = r"" then Except.error (r"override.js returned empty output")
      else
        match pyJsonLoads (pyStrip out) with
        | none => Except.error (r"invalid json in override.js output")
        | some (.pdict d) => Except.ok d
        | some _ => Except.error (r"override.js output must be a json object")) := by
  rw [apply_js_override.eq_def, if_neg hne]

/-- Claim C5, amended.  `apply_js_override` returns its input unchanged
when the script is empty or whitespace-only; otherwise it fails exactly
when the sandbox times out, the interpreter binary cannot be launched,
the process exits non-zero (surfacing the stripped stderr when
non-empty), the stripped stdout is empty, or the stdout does not parse as
a JSON object; on a zero exit whose stdout parses as an object it returns
that object.  (The claim as stated omits the interpreter-missing failure,
which the code also raises; see the counterexample.) -/
theorem C5_sandbox_contract_amended (config : List (String × PyVal)) (script : String)
    (oc : SandboxOutcome) :
    (pyStrip script = r"" → apply_js_override config script oc = .ok config) ∧
    (pyStrip script ≠ r"" →
      ((∃ e, apply_js_override config script oc = .error e) ↔
        (oc = .timeout ∨ oc = .nodeMissing ∨
         ∃ rc out err, oc = .completed rc out err ∧
           (rc ≠ 0 ∨ pyStrip out = r"" ∨
            ∀ d, pyJsonLoads (pyStrip out) ≠ some (.pdict d)))) ∧
      (∀ rc out err d, oc = .completed rc out err → rc = 0 →
        pyJsonLoads (pyStrip out) = some (.pdict d) →
        apply_js_override config script oc = .ok d) ∧
      (∀ rc out err, oc = .completed rc out err → rc ≠ 0 → pyStrip err ≠ r"" →
        apply_js_override config script oc = .error (pyStrip err))) := by
  constructor
  · intro hempty
    rw [apply_js_override.eq_def, if_pos hempty]
  · intro hne
    refine ⟨?_, ?_, ?_⟩
    · cases oc with
      | timeout =>
          rw [apply_js_timeout config script hne]
          simp
      | nodeMissing =>
          rw [apply_js_nodeMissing config script hne]
          simp
      | completed rc out err =>
          rw [apply_js_completed config script rc out err hne]
          constructor
          · intro ⟨e, he⟩
            refine Or.inr (Or.inr ⟨rc, out, err, rfl, ?_⟩)
            by_cases hrc : rc ≠ 0
            · exact Or.inl hrc
            · rw [if_neg hrc] at he
              by_cases hout : pyStrip out = r""
              · exact Or.inr (Or.inl hout)
              · rw [if_neg hout] at he
                refine Or.inr (Or.inr ?_)
                intro d hd
                rw [hd] at he
                simp at he
          · rintro (h | h | ⟨rc2, out2, err2, heq, hcase⟩)
            · exact absurd h (by simp)
            · exact absurd h (by simp)
            · obtain ⟨rfl, rfl, rfl⟩ : rc = rc2 ∧ out = out2 ∧ err = err2 := by
                injection heq with h1 h2 h3
                exact ⟨h1, h2, h3⟩
              rcases hcase with hrc | hout | hparse
              · rw [if_pos hrc]
                exact ⟨_, rfl⟩
              · by_cases hrc : rc ≠ 0
                · rw [if_pos hrc]; exact ⟨_, rfl⟩
                · rw [if_neg hrc, if_pos hout]
                  exact ⟨_, rfl⟩
              · by_cases hrc : rc ≠ 0
                · rw [if_pos hrc]; exact ⟨_, rfl⟩
                · rw [if_neg hrc]
                  by_cases hout : pyStrip out = r""
                  · rw [if_pos hout]; exact ⟨_, rfl⟩
                  · rw [if_neg hout]
                    cases hp : pyJsonLoads (pyStrip out) with
                    | none => exact ⟨_, rfl⟩
                    | some v =>
                        cases v with
                        | pdict d => exact absurd hp (hparse d)
                        | pnone => exact ⟨_, rfl⟩
                        | pbool b => exact ⟨_, rfl⟩
                        | pint n => exact ⟨_, rfl⟩
                        | pstr s => exact ⟨_, rfl⟩
                        | plist xs => exact ⟨_, rfl⟩
    · intro rc out err d heq hrc hparse
      subst heq
      rw [apply_js_completed config script rc out err hne, if_neg (by simpa using hrc)]
      rw [if_neg (by
        intro hc
        rw [hc] at hparse
        have hemp : pyJsonLoads (r"") = none := rfl
        rw [hemp] at hparse
        exact Option.noConfusion hparse)]
      rw [hparse]
    · intro rc out err heq hrc herr
      subst heq
      rw [apply_js_completed config script rc out err hne, if_pos hrc, if_neg herr]

/-- Claim C5, counterexample to the claim as stated: with a non-empty
script, a missing interpreter binary also raises a fatal error, an error
cause the claim's "exactly when" list does not include (the outcome is
neither a timeout nor any completed process). -/
theorem C5_counterexample :
    apply_js_override [] (r"x") SandboxOutcome.nodeMissing = .error (r"node runtime not found") ∧
    pyStrip (r"x") ≠ r"" ∧
    SandboxOutcome.nodeMissing ≠ SandboxOutcome.timeout ∧
    (∀ rc out err, SandboxOutcome.nodeMissing ≠ SandboxOutcome.completed rc out err) :=
  ⟨rfl, by decide, fun h => SandboxOutcome.noConfusion h,
   fun rc out err h => SandboxOutcome.noConfusion h⟩

/-- Claim C5 witness: the amended theorem applied at a concrete script
and a zero-exit run whose stdout is the JSON object text, yielding the
parsed object. -/
theorem C5_witness :
    apply_js_override [] (r"x")
      (SandboxOutcome.completed 0 (String.mk [Char.ofNat 123, Char.ofNat 125]) (r"")) =
      .ok [] := by
  have h := (C5_sandbox_contract_amended [] (r"x")
    (SandboxOutcome.completed 0 (String.mk [Char.ofNat 123, Char.ofNat 125]) (r""))).2
    (by decide)
  exact h.2.1 0 (String.mk [Char.ofNat 123, Char.ofNat 125]) (r"") [] rfl rfl (by decide)

/-! ### C6 and C7: the persistence stage -/

theorem apply_js_override_error_indep (c c2 : List (String × PyVal)) (script : String)
    (oc : SandboxOutcome) (e : String)
    (h : apply_js_override c script oc = Except.error e) :
    apply_js_override c2 script oc = Except.error e := by
  by_cases hne : pyStrip script = r""
  · rw [apply_js_override.eq_def, if_pos hne] at h
    exact absurd h (by simp)
  · cases oc with
    | timeout =>
        rw [apply_js_timeout c script hne] at h
        rw [apply_js_timeout c2 script hne]
        exact h
    | nodeMissing =>
        rw [apply_js_nodeMissing c script hne] at h
        rw [apply_js_nodeMissing c2 script hne]
        exact h
    | completed rc out err =>
        rw [apply_js_completed c script rc out err hne] at h
        rw [apply_js_completed c2 script rc out err hne]
        exact h

theorem subsStep_preserves (st : List (List (String × PyVal)) × Nat × DiskState)
    (item : PyVal × FetchOutcome) :
    (subsStep st item).2.2.configFile = st.2.2.configFile ∧
    (subsStep st item).2.2.backups = st.2.2.backups := by
  obtain ⟨v, fo⟩ := item
  cases v with
  | pdict sub =>
      by_cases h1 : pyTruthy (dgetD sub (r"enabled") (.pbool true))
      · cases fo with
        | fetched proxies raw =>
            by_cases h2 : pyTruthy (dgetD sub (r"save_raw") (.pbool false))
            · simp [subsStep, h1, h2]
            · simp [subsStep, h1, h2]
        | fail m => simp [subsStep, h1]
      · simp [subsStep, h1]
  | pnone => exact ⟨rfl, rfl⟩
  | pbool b => exact ⟨rfl, rfl⟩
  | pint n => exact ⟨rfl, rfl⟩
  | pstr s => exact ⟨rfl, rfl⟩
  | plist xs => exact ⟨rfl, rfl⟩

theorem subsFold_preserves (subs : List (PyVal × FetchOutcome)) :
    ∀ st : List (List (String × PyVal)) × Nat × DiskState,
    (subs.foldl subsStep st).2.2.configFile = st.2.2.configFile ∧
    (subs.foldl subsStep st).2.2.backups = st.2.2.backups := by
  induction subs with
  | nil => intro st; exact ⟨rfl, rfl⟩
  | cons item rest ih =>
      intro st
      simp only [List.foldl_cons]
      have hstep := subsStep_preserves st item
      have hrest := ih (subsStep st item)
      exact ⟨hrest.1.trans hstep.1, hrest.2.trans hstep.2⟩

/-- Claim C6.  If the override script is configured (non-blank) and the
sandbox stage fails on every document — as it does on a timeout, a missing
interpreter, a non-zero exit, empty output, or non-object output — then
`merge_subscriptions` returns that error, and the run aborts before the
Persister stage: the config file on disk and the backup directory are
exactly as they were before the run, so no partial document is ever
persisted. -/
theorem C6_fatal_aborts_before_persist (subs : List (PyVal × FetchOutcome))
    (template site_policy : List (String × PyVal)) (override : PyVal)
    (override_script : String) (sandbox : SandboxOutcome) (env : RunEnv)
    (backupOk : Bool) (disk : DiskState)
    (hne : pyStrip override_script ≠ r"")
    (hfail : ∀ c : List (String × PyVal), ∃ e,
      apply_js_override c override_script sandbox = Except.error e) :
    ∃ e d, merge_subscriptions subs template site_policy override override_script
        sandbox env backupOk disk = (Except.error e, d) ∧
      d.configFile = disk.configFile ∧ d.backups = disk.backups := by
  obtain ⟨e, he⟩ := hfail []
  have hind : ∀ c2 : List (String × PyVal),
      apply_js_override c2 override_script sandbox = Except.error e :=
    fun c2 => apply_js_override_error_indep [] c2 override_script sandbox e he
  have hfold := subsFold_preserves subs ([], 0, disk)
  simp only [merge_subscriptions]
  rw [if_pos hne, hind]
  exact ⟨e, _, rfl, hfold.1, hfold.2⟩

theorem C6_witness :
    (pyStrip (r"x") ≠ r"") ∧
    (∀ c : List (String × PyVal), ∃ e,
      apply_js_override c (r"x") SandboxOutcome.timeout = Except.error e) ∧
    (∃ e d,
      merge_subscriptions [] [] [] PyVal.pnone (r"x") SandboxOutcome.timeout
          ⟨r"", none, none, none, false⟩ true
          ⟨some [((r"a" : String), PyVal.pint 1)], [], [], []⟩ = (Except.error e, d) ∧
      d.configFile = some [((r"a" : String), PyVal.pint 1)] ∧ d.backups = []) := by
  have hne : pyStrip (r"x") ≠ r"" := by decide
  have hf : ∀ c : List (String × PyVal), ∃ e,
      apply_js_override c (r"x") SandboxOutcome.timeout = Except.error e :=
    fun c => ⟨r"override.js execution timeout", apply_js_timeout c (r"x") hne⟩
  exact ⟨hne, hf, C6_fatal_aborts_before_persist [] [] [] PyVal.pnone (r"x")
    SandboxOutcome.timeout ⟨r"", none, none, none, false⟩ true
    ⟨some [((r"a" : String), PyVal.pint 1)], [], [], []⟩ hne hf⟩

/-- Claim C7 (refuted: the code makes backup failure fatal).  With a prior
document on disk and a failing backup copy, `merge_subscriptions` — whose
`make_backup` call sits outside any try/except — propagates the backup
error, and the new document is NOT written: the config file still holds
the old document and no backup is recorded.  This contradicts the claim
that the main write still proceeds when the backup copy fails. -/
theorem C7_backup_failure_is_fatal :
    (merge_subscriptions [] [] [] PyVal.pnone (r"") SandboxOutcome.timeout
        ⟨r"", none, none, none, false⟩ false
        ⟨some [((r"a" : String), PyVal.pint 1)], [], [], []⟩).1 =
      Except.error (r"backup copy failed") ∧
    (merge_subscriptions [] [] [] PyVal.pnone (r"") SandboxOutcome.timeout
        ⟨r"", none, none, none, false⟩ false
        ⟨some [((r"a" : String), PyVal.pint 1)], [], [], []⟩).2.configFile =
      some [((r"a" : String), PyVal.pint 1)] ∧
    (merge_subscriptions [] [] [] PyVal.pnone (r"") SandboxOutcome.timeout
        ⟨r"", none, none, none, false⟩ false
        ⟨some [((r"a" : String), PyVal.pint 1)], [], [], []⟩).2.backups = [] :=
  ⟨rfl, rfl, rfl⟩

/-! ### C4: idempotence machinery -/

theorem mem_cleanRules (l : List PyVal) (s : String) (h : s ∈ cleanRules l) :
    pyStrip s ≠ r"" := by
  rw [cleanRules] at h
  obtain ⟨v, hv, hs⟩ := List.mem_filterMap.mp h
  cases v with
  | pstr t =>
      by_cases ht : pyStrip t = r""
      · simp [ht] at hs
      · simp only [if_neg ht] at hs
        obtain rfl : t = s := by simpa using hs
        exact ht
  | pnone => simp at hs
  | pbool b => simp at hs
  | pint n => simp at hs
  | plist xs => simp at hs
  | pdict es => simp at hs

theorem cleanRules_map_pstr (L : List String) (h : ∀ s ∈ L, pyStrip s ≠ r"") :
    cleanRules (L.map PyVal.pstr) = L := by
  induction L with
  | nil => rfl
  | cons a t ih =>
      have ha := h a (by simp)
      simp only [List.map_cons, cleanRules, List.filterMap_cons, if_neg ha]
      congr 1
      exact ih (fun s hs => h s (by simp [hs]))

theorem unique_partition_fixed {α : Type} [DecidableEq α] (p q : α → Bool) (cN A B : List α)
    (hpq : ∀ x, q x = true ↔ p x = false)
    (hA : ∀ x ∈ A, p x = false) (hB : ∀ x ∈ B, p x = true) :
    unique_items (cN ++ (unique_items (cN ++ A ++ B)).filter q
        ++ (unique_items (cN ++ A ++ B)).filter p) =
      unique_items (cN ++ A ++ B) := by
  have hR : unique_items (cN ++ A ++ B) =
      uniqueGo [] cN ++ uniqueGo (cN ++ []) A ++ uniqueGo ((cN ++ A) ++ []) B := by
    rw [unique_items, uniqueGo_append [] (cN ++ A) B, uniqueGo_append [] cN A]
  set U := uniqueGo ([] : List α) cN with hU
  set A2 := uniqueGo (cN ++ []) A with hA2
  set B2 := uniqueGo ((cN ++ A) ++ []) B with hB2
  have hUmem : ∀ x, x ∈ U → x ∈ cN := by
    intro x hx
    exact ((mem_uniqueGo [] cN x).mp hx).1
  have hA2mem : ∀ x, x ∈ A2 → x ∈ A ∧ x ∉ cN := by
    intro x hx
    have := (mem_uniqueGo (cN ++ []) A x).mp hx
    simpa using this
  have hB2mem : ∀ x, x ∈ B2 → x ∈ B ∧ x ∉ cN ∧ x ∉ A := by
    intro x hx
    have := (mem_uniqueGo ((cN ++ A) ++ []) B x).mp hx
    simp only [List.append_nil, List.mem_append] at this
    exact ⟨this.1, fun hc => this.2 (Or.inl hc), fun hc => this.2 (Or.inr hc)⟩
  have hA2filq : A2.filter q = A2 := by
    rw [List.filter_eq_self]
    intro x hx
    exact (hpq x).mpr (hA x (hA2mem x hx).1)
  have hB2filq : B2.filter q = [] := by
    rw [List.filter_eq_nil]
    intro x hx hq
    have hp := hB x (hB2mem x hx).1
    have := (hpq x).mp hq
    rw [hp] at this
    exact Bool.noConfusion this
  have hA2filp : A2.filter p = [] := by
    rw [List.filter_eq_nil]
    intro x hx hp
    rw [hA x (hA2mem x hx).1] at hp
    exact Bool.noConfusion hp
  have hB2filp : B2.filter p = B2 := by
    rw [List.filter_eq_self]
    intro x hx
    exact hB x (hB2mem x hx).1
  rw [hR]
  simp only [List.filter_append, hA2filq, hB2filq, hA2filp, hB2filp, List.append_nil]
  -- goal: unique_items (cN ++ (U.filter q ++ A2) ++ (U.filter p ++ B2)) = U ++ A2 ++ B2
  rw [unique_items, uniqueGo_append [] (cN ++ (U.filter q ++ A2)) (U.filter p ++ B2),
    uniqueGo_append [] cN (U.filter q ++ A2), uniqueGo_append (cN ++ []) (U.filter q) A2]
  have e1 : uniqueGo (cN ++ []) (U.filter q) = [] := by
    apply uniqueGo_all_seen
    intro x hx
    simp only [List.append_nil]
    exact hUmem x (List.mem_filter.mp hx).1
  have e2 : uniqueGo (U.filter q ++ (cN ++ [])) A2 = A2 := by
    apply uniqueGo_eq_self
    · exact uniqueGo_nodup _ _
    · intro x hx
      simp only [List.append_nil, List.mem_append]
      rintro (hc | hc)
      · exact (hA2mem x hx).2 (hUmem x (List.mem_filter.mp hc).1)
      · exact (hA2mem x hx).2 hc
  rw [e1, e2, uniqueGo_append _ (U.filter p) B2]
  have e3 : uniqueGo ((cN ++ (U.filter q ++ A2)) ++ []) (U.filter p) = [] := by
    apply uniqueGo_all_seen
    intro x hx
    simp only [List.append_nil, List.mem_append]
    exact Or.inl (hUmem x (List.mem_filter.mp hx).1)
  have e4 : uniqueGo (U.filter p ++ ((cN ++ (U.filter q ++ A2)) ++ [])) B2 = B2 := by
    apply uniqueGo_eq_self
    · exact uniqueGo_nodup _ _
    · intro x hx
      simp only [List.append_nil, List.mem_append]
      rintro (hc | hc | hc | hc)
      · exact (hB2mem x hx).2.1 (hUmem x (List.mem_filter.mp hc).1)
      · exact (hB2mem x hx).2.1 hc
      · exact (hB2mem x hx).2.1 (hUmem x (List.mem_filter.mp hc).1)
      · rcases hA2mem x hc with ⟨hc2, _⟩
        exact (hB2mem x hx).2.2 hc2
  rw [e3, e4]
  simp [List.append_assoc]

theorem place_fixed (E N : List PyVal) :
    place_rules_before_match ((place_rules_before_match E N).map PyVal.pstr) N =
      place_rules_before_match E N := by
  have hmem : ∀ s ∈ place_rules_before_match E N, pyStrip s ≠ r"" := by
    intro s hs
    simp only [place_rules_before_match] at hs
    rw [unique_items, mem_uniqueGo] at hs
    rcases List.mem_append.mp hs.1 with h | h
    · rcases List.mem_append.mp h with h2 | h2
      · exact mem_cleanRules N s h2
      · exact mem_cleanRules E s (List.mem_filter.mp h2).1
    · exact mem_cleanRules E s (List.mem_filter.mp h).1
  conv_lhs => rw [place_rules_before_match]
  rw [cleanRules_map_pstr _ hmem]
  conv_lhs => rw [place_rules_before_match]
  conv_rhs => rw [place_rules_before_match]
  exact unique_partition_fixed (fun ru => sStartsWith ru (r"MATCH,"))
    (fun ru => ¬ sStartsWith ru (r"MATCH,"))
    (cleanRules N)
    ((cleanRules E).filter (fun ru => ¬ sStartsWith ru (r"MATCH,")))
    ((cleanRules E).filter (fun ru => sStartsWith ru (r"MATCH,")))
    (by intro x; cases h : sStartsWith x (r"MATCH,") <;> simp [h])
    (by intro x hx
        have := (List.mem_filter.mp hx).2
        cases h : sStartsWith x (r"MATCH,")
        · exact h
        · rw [h] at this; simp at this)
    (by intro x hx
        exact (List.mem_filter.mp hx).2)

theorem dedupGo_sub (ps : List (List (String × PyVal))) :
    ∀ seen, ∀ q ∈ dedupGo seen ps, q ∈ ps := by
  induction ps with
  | nil => intro seen q hq; simp [dedupGo] at hq
  | cons p rest ih =>
      intro seen q hq
      rw [dedupGo] at hq
      by_cases h : proxy_fingerprint p ∈ seen
      · rw [if_pos h] at hq
        exact List.mem_cons_of_mem p (ih seen q hq)
      · rw [if_neg h] at hq
        rcases List.mem_cons.mp hq with h1 | h1
        · simp [h1]
        · exact List.mem_cons_of_mem p (ih _ q h1)

theorem dedupGo_fps (ps : List (List (String × PyVal))) :
    ∀ seen, ((dedupGo seen ps).map proxy_fingerprint).Nodup ∧
      ∀ f ∈ (dedupGo seen ps).map proxy_fingerprint, f ∉ seen := by
  induction ps with
  | nil => intro seen; simp [dedupGo]
  | cons p rest ih =>
      intro seen
      rw [dedupGo]
      by_cases h : proxy_fingerprint p ∈ seen
      · rw [if_pos h]
        exact ih seen
      · rw [if_neg h]
        obtain ⟨ihn, ihs⟩ := ih (proxy_fingerprint p :: seen)
        simp only [List.map_cons]
        constructor
        · refine List.nodup_cons.mpr ⟨?_, ihn⟩
          intro hc
          exact ihs _ hc (by simp)
        · intro f hf
          rcases List.mem_cons.mp hf with h1 | h1
          · subst h1; exact h
          · intro hc
            exact ihs f h1 (by simp [hc])

theorem dedupGo_covers (ps : List (List (String × PyVal))) :
    ∀ seen, ∀ q ∈ ps, proxy_fingerprint q ∈ seen ∨
      proxy_fingerprint q ∈ (dedupGo seen ps).map proxy_fingerprint := by
  induction ps with
  | nil => intro seen q hq; simp at hq
  | cons p rest ih =>
      intro seen q hq
      rw [dedupGo]
      by_cases h : proxy_fingerprint p ∈ seen
      · rw [if_pos h]
        rcases List.mem_cons.mp hq with h1 | h1
        · subst h1; exact Or.inl h
        · exact ih seen q h1
      · rw [if_neg h]
        simp only [List.map_cons]
        rcases List.mem_cons.mp hq with h1 | h1
        · subst h1; exact Or.inr (by simp)
        · rcases ih (proxy_fingerprint p :: seen) q h1 with h2 | h2
          · rcases List.mem_cons.mp h2 with h3 | h3
            · exact Or.inr (by simp [h3])
            · exact Or.inl h3
          · exact Or.inr (List.mem_cons_of_mem _ h2)

theorem dedupGo_all_seen (ps : List (List (String × PyVal))) (seen : List String)
    (h : ∀ q ∈ ps, proxy_fingerprint q ∈ seen) : dedupGo seen ps = [] := by
  induction ps with
  | nil => rfl
  | cons p rest ih =>
      rw [dedupGo, if_pos (h p (by simp))]
      exact ih (fun q hq => h q (by simp [hq]))

theorem dedupGo_absorb (Y : List (List (String × PyVal))) :
    ∀ (X : List (List (String × PyVal))) (seen : List String),
      ((X.map proxy_fingerprint).Nodup) →
      (∀ q ∈ X, proxy_fingerprint q ∉ seen) →
      (∀ q ∈ Y, proxy_fingerprint q ∈ seen ∨
        proxy_fingerprint q ∈ X.map proxy_fingerprint) →
      dedupGo seen (X ++ Y) = X := by
  intro X
  induction X with
  | nil =>
      intro seen _ _ hY
      rw [List.nil_append]
      apply dedupGo_all_seen
      intro q hq
      rcases hY q hq with h | h
      · exact h
      · simp at h
  | cons x X2 ih =>
      intro seen hnd hX hY
      rw [List.cons_append, dedupGo, if_neg (hX x (by simp))]
      congr 1
      simp only [List.map_cons] at hnd
      apply ih (proxy_fingerprint x :: seen) (List.nodup_cons.mp hnd).2
      · intro q hq
        simp only [List.mem_cons]
        rintro (hc | hc)
        · exact (List.nodup_cons.mp hnd).1 (hc ▸ List.mem_map_of_mem proxy_fingerprint hq)
        · exact hX q (by simp [hq]) hc
      · intro q hq
        rcases hY q hq with h | h
        · exact Or.inl (by simp [h])
        · rcases List.mem_cons.mp h with h1 | h1
          · exact Or.inl (by simp [h1])
          · exact Or.inr h1

theorem euGo_fps (ps : List (List (String × PyVal))) :
    ∀ used, (euGo used ps).map proxy_fingerprint = ps.map proxy_fingerprint := by
  induction ps with
  | nil => intro used; rfl
  | cons p rest ih =>
      intro used
      rw [euGo_cons, List.map_cons, List.map_cons, fingerprint_ignores_name, ih]

theorem baseName_of_name (p : List (String × PyVal)) (s : String)
    (hget : assocGet p (r"name") = some (.pstr s)) (hne : s ≠ r"") :
    baseName p = pyStrip s := by
  rw [baseName, dgetD, dget, hget]
  have ht : pyTruthy (.pstr s) = true := by
    simp only [pyTruthy]
    simpa using hne
  show pyStrip (pyStr (pyOrNode (.pstr s))) = pyStrip s
  rw [pyOrNode, if_pos ht]
  rfl

theorem euAssign_stable (used : List (String × Nat)) (p : List (String × PyVal))
    (h : baseName p ≠ r"") :
    pyStrip (euAssign used p) = euAssign used p ∧ euAssign used p ≠ r"" := by
  have hstable : pyStrip (baseName p) = baseName p := by
    rw [baseName, pyStrip_idem]
  rw [euAssign]
  cases hg : assocGet used (baseName p) with
  | none => exact ⟨hstable, h⟩
  | some count => exact strip_candidate (baseName p) _ hstable h

theorem euGo_out_names (ps : List (List (String × PyVal))) :
    ∀ used, (∀ p ∈ ps, baseName p ≠ r"") →
    ∀ q ∈ euGo used ps,
      ∃ s, assocGet q (r"name") = some (.pstr s) ∧ pyStrip s = s ∧ s ≠ r"" := by
  induction ps with
  | nil => intro used _ q hq; simp [euGo] at hq
  | cons p rest ih =>
      intro used h q hq
      rw [euGo_cons] at hq
      rcases List.mem_cons.mp hq with h1 | h1
      · subst h1
        obtain ⟨hs1, hs2⟩ := euAssign_stable used p (h p (by simp))
        refine ⟨euAssign used p, ?_, hs1, hs2⟩
        rw [dset, assocGet_set_self]
      · exact ih (euUsedStep used p) (fun r hr => h r (by simp [hr])) q h1

theorem euGo_fixed (L : List (List (String × PyVal))) :
    ∀ used : List (String × Nat),
      (∀ p ∈ L, ∃ s, assocGet p (r"name") = some (.pstr s) ∧ pyStrip s = s ∧ s ≠ r"" ∧
        assocGet used s = none) →
      ((L.map (fun q => dget q (r"name"))).Nodup) →
      euGo used L = L := by
  induction L with
  | nil => intro used _ _; rfl
  | cons p ps ih =>
      intro used h hnd
      simp only [List.map_cons] at hnd
      obtain ⟨s, hget, hstrip, hne, hfree⟩ := h p (by simp)
      have hbase : baseName p = s := by rw [baseName_of_name p s hget hne, hstrip]
      rw [euGo_cons]
      have hassign : euAssign used p = s := by rw [euAssign, hbase, hfree]
      have hstep : euUsedStep used p = assocSet used s 1 := by rw [euUsedStep, hbase, hfree]
      rw [hassign, hstep, show dset p (r"name") (.pstr s) = p from assocSet_eq_self p (r"name") _ hget]
      congr 1
      refine ih (assocSet used s 1) ?_ (List.nodup_cons.mp hnd).2
      intro q hq
      obtain ⟨t, hgt, hst, hnt, hft⟩ := h q (by simp [hq])
      refine ⟨t, hgt, hst, hnt, ?_⟩
      have hts : t ≠ s := by
        intro hc
        subst hc
        refine (List.nodup_cons.mp hnd).1 (List.mem_map.mpr ⟨q, hq, ?_⟩)
        show dget q (r"name") = dget p (r"name")
        rw [dget, dget, hgt, hget]
      rw [assocGet_set_ne used s t 1 hts]
      exact hft

theorem eu_idem (D : List (List (String × PyVal))) (h : ∀ p ∈ D, baseName p ≠ r"") :
    euGo [] (euGo [] D) = euGo [] D := by
  refine euGo_fixed (euGo [] D) [] ?_ ?_
  · intro q hq
    obtain ⟨s, h1, h2, h3⟩ := euGo_out_names D [] h q hq
    exact ⟨s, h1, h2, h3, rfl⟩
  · exact ensure_unique_names_nodup D

theorem dedup_pass2 (items extra : List (List (String × PyVal)))
    (hn : ∀ p ∈ items, baseName p ≠ r"")
    (hsub : ∀ q ∈ extra, proxy_fingerprint q ∈ items.map proxy_fingerprint) :
    deduplicate_proxies (deduplicate_proxies items ++ extra) = deduplicate_proxies items := by
  rw [deduplicate_proxies, deduplicate_proxies, ensure_unique_proxy_names,
    ensure_unique_proxy_names]
  have hD := dedupGo_fps items []
  have hfps : (euGo [] (dedupGo [] items)).map proxy_fingerprint =
      (dedupGo [] items).map proxy_fingerprint := euGo_fps (dedupGo [] items) []
  have habs : dedupGo [] (euGo [] (dedupGo [] items) ++ extra) =
      euGo [] (dedupGo [] items) := by
    apply dedupGo_absorb
    · rw [hfps]; exact hD.1
    · intro q _ hc
      simp at hc
    · intro q hq
      refine Or.inr ?_
      rw [hfps]
      obtain ⟨rr, hrr, hfpr⟩ := List.mem_map.mp (hsub q hq)
      rcases dedupGo_covers items [] rr hrr with h | h
      · simp at h
      · rw [← hfpr]
        exact h
  rw [habs]
  exact eu_idem (dedupGo [] items) (fun p hp => hn p (dedupGo_sub items [] p hp))

theorem dictItems_append (xs ys : List PyVal) :
    dictItems (xs ++ ys) = dictItems xs ++ dictItems ys := by
  rw [dictItems, dictItems, dictItems, List.filterMap_append]

theorem dictItems_map_pdict (L : List (List (String × PyVal))) :
    dictItems (L.map PyVal.pdict) = L := by
  induction L with
  | nil => rfl
  | cons d t ih =>
      simp only [List.map_cons, dictItems, List.filterMap_cons]
      exact congrArg (List.cons d) ih

theorem assocGet_of_mem_nodup {β : Type} (l : List (String × β)) (k : String) (v : β)
    (hnd : (l.map Prod.fst).Nodup) (hmem : (k, v) ∈ l) : assocGet l k = some v := by
  induction l with
  | nil => simp at hmem
  | cons e rest ih =>
      obtain ⟨k1, v1⟩ := e
      rw [assocGet_cons]
      simp only [List.map_cons] at hnd
      rcases List.mem_cons.mp hmem with h | h
      · obtain ⟨rfl, rfl⟩ := Prod.mk.injEq .. ▸ h
        rw [if_pos rfl]
      · have hk : k1 ≠ k := by
          intro hc
          subst hc
          exact (List.nodup_cons.mp hnd).1 (List.mem_map.mpr ⟨(k1, v), h, rfl⟩)
        rw [if_neg hk]
        exact ih (List.nodup_cons.mp hnd).2 h

theorem foldSetFields_fixed (entries : List (String × PyVal)) :
    ∀ acc : List (String × PyVal),
      (∀ e ∈ entries, e.1 = r"proxies" ∨ assocGet acc e.1 = some e.2) →
      foldSetFields acc entries = acc := by
  induction entries with
  | nil => intro acc _; rfl
  | cons e rest ih =>
      intro acc h
      obtain ⟨k1, v1⟩ := e
      rw [foldSetFields, List.foldl_cons]
      by_cases hp : k1 = r"proxies"
      · rw [if_pos hp]
        exact ih acc (fun f hf => h f (by simp [hf]))
      · rw [if_neg hp]
        rcases h (k1, v1) (by simp) with h1 | h1
        · exact absurd h1 hp
        · rw [show dset acc k1 v1 = acc from assocSet_eq_self acc k1 v1 h1]
          exact ih acc (fun f hf => h f (by simp [hf]))

theorem mergeGroupInto_eq (existing incoming : List (String × PyVal)) :
    mergeGroupInto existing incoming =
      (match dgetD existing (r"proxies") (.plist []), dgetD incoming (r"proxies") (.plist []) with
       | PyVal.plist eps, PyVal.plist ips =>
           dset (foldSetFields existing incoming) (r"proxies")
             (.plist (unique_items (eps ++ ips)))
       | _, _ => foldSetFields existing incoming) := rfl

theorem mergeGroupInto_self (d : List (String × PyVal)) (l : List PyVal)
    (hnd : (d.map Prod.fst).Nodup)
    (hp : assocGet d (r"proxies") = some (.plist l)) (hl : l.Nodup) :
    mergeGroupInto d d = d := by
  have hdg : dgetD d (r"proxies") (.plist []) = .plist l := by rw [dgetD, dget, hp]; rfl
  rw [mergeGroupInto_eq, hdg]
  show dset (foldSetFields d d) (r"proxies") (.plist (unique_items (l ++ l))) = d
  have hfold : foldSetFields d d = d := by
    apply foldSetFields_fixed
    intro e he
    by_cases hpk : e.1 = r"proxies"
    · exact Or.inl hpk
    · exact Or.inr (assocGet_of_mem_nodup d e.1 e.2 hnd (by simpa using he))
  rw [hfold, unique_items_append_absorb l l (fun x hx => hx), unique_items_eq_self l hl]
  exact assocSet_eq_self d (r"proxies") _ hp

theorem mergeGroupInto_fixed_of_list (ex d : List (String × PyVal)) (l eps : List PyVal)
    (hnd : (d.map Prod.fst).Nodup)
    (hp : assocGet d (r"proxies") = some (.plist l))
    (hex : dgetD ex (r"proxies") (.plist []) = .plist eps) :
    mergeGroupInto (mergeGroupInto ex d) d = mergeGroupInto ex d := by
  have hdg : dgetD d (r"proxies") (.plist []) = .plist l := by rw [dgetD, dget, hp]; rfl
  have hm : mergeGroupInto ex d =
      dset (foldSetFields ex d) (r"proxies") (.plist (unique_items (eps ++ l))) := by
    rw [mergeGroupInto_eq, hex, hdg]
  have hmp : assocGet (mergeGroupInto ex d) (r"proxies") =
      some (.plist (unique_items (eps ++ l))) := by
    rw [hm, dset, assocGet_set_self]
  have hmfields : ∀ (k2 : String) (v2 : PyVal), (k2, v2) ∈ d → k2 ≠ r"proxies" →
      assocGet (mergeGroupInto ex d) k2 = some v2 := by
    intro k2 v2 hmem hk2
    rw [hm, dset, assocGet_set_ne _ (r"proxies") k2 _ hk2]
    exact foldSetFields_get_mem d ex k2 v2 hk2 hnd hmem
  have hexp2 : dgetD (mergeGroupInto ex d) (r"proxies") (.plist []) =
      .plist (unique_items (eps ++ l)) := by
    rw [dgetD, dget, hmp]
    rfl
  rw [mergeGroupInto_eq (mergeGroupInto ex d) d, hexp2, hdg]
  show dset (foldSetFields (mergeGroupInto ex d) d) (r"proxies")
      (.plist (unique_items (unique_items (eps ++ l) ++ l))) = mergeGroupInto ex d
  have hfold2 : foldSetFields (mergeGroupInto ex d) d = mergeGroupInto ex d := by
    apply foldSetFields_fixed
    intro e he
    by_cases hpk : e.1 = r"proxies"
    · exact Or.inl hpk
    · exact Or.inr (hmfields e.1 e.2 (by simpa using he) hpk)
  rw [hfold2]
  have hu : unique_items (unique_items (eps ++ l) ++ l) = unique_items (eps ++ l) := by
    rw [unique_items_append_absorb _ l
      (fun x hx => (mem_unique_items _ x).mpr (by simp [hx])), unique_items_idem]
  rw [hu]
  exact assocSet_eq_self _ (r"proxies") _ hmp

theorem mergeGroupInto_fixed_of_nonlist (ex d : List (String × PyVal)) (l : List PyVal)
    (w : PyVal)
    (hnd : (d.map Prod.fst).Nodup)
    (hp : assocGet d (r"proxies") = some (.plist l))
    (hw : assocGet ex (r"proxies") = some w)
    (hnl : ∀ eps, w ≠ PyVal.plist eps) :
    mergeGroupInto (mergeGroupInto ex d) d = mergeGroupInto ex d := by
  have hdg : dgetD d (r"proxies") (.plist []) = .plist l := by rw [dgetD, dget, hp]; rfl
  have hexd : dgetD ex (r"proxies") (.plist []) = w := by rw [dgetD, dget, hw]; rfl
  have hm : mergeGroupInto ex d = foldSetFields ex d := by
    rw [mergeGroupInto_eq, hexd, hdg]
    cases w with
    | plist eps => exact absurd rfl (hnl eps)
    | pnone => rfl
    | pbool b => rfl
    | pint n => rfl
    | pstr s => rfl
    | pdict od => rfl
  have hmp : assocGet (mergeGroupInto ex d) (r"proxies") = some w := by
    rw [hm, foldSetFields_get_skip d ex (r"proxies") (Or.inr rfl), hw]
  have hexp2 : dgetD (mergeGroupInto ex d) (r"proxies") (.plist []) = w := by
    rw [dgetD, dget, hmp]
    rfl
  have hfold2 : foldSetFields (mergeGroupInto ex d) d = mergeGroupInto ex d := by
    apply foldSetFields_fixed
    intro e he
    by_cases hpk : e.1 = r"proxies"
    · exact Or.inl hpk
    · refine Or.inr ?_
      rw [hm]
      exact foldSetFields_get_mem d ex e.1 e.2 hpk hnd (by simpa using he)
  rw [mergeGroupInto_eq (mergeGroupInto ex d) d, hexp2, hdg]
  cases w with
  | plist eps => exact absurd rfl (hnl eps)
  | pnone => exact hfold2
  | pbool b => exact hfold2
  | pint n => exact hfold2
  | pstr s => exact hfold2
  | pdict od => exact hfold2

theorem mergeGroupInto_fix (ex d : List (String × PyVal)) (l : List PyVal)
    (hnd : (d.map Prod.fst).Nodup)
    (hp : assocGet d (r"proxies") = some (.plist l)) :
    mergeGroupInto (mergeGroupInto ex d) d = mergeGroupInto ex d := by
  cases hg : assocGet ex (r"proxies") with
  | none =>
      refine mergeGroupInto_fixed_of_list ex d l [] hnd hp ?_
      rw [dgetD, dget, hg]
      rfl
  | some w =>
      cases w with
      | plist eps =>
          refine mergeGroupInto_fixed_of_list ex d l eps hnd hp ?_
          rw [dgetD, dget, hg]
          rfl
      | pnone =>
          exact mergeGroupInto_fixed_of_nonlist ex d l _ hnd hp hg
            (fun eps h => PyVal.noConfusion h)
      | pbool b =>
          exact mergeGroupInto_fixed_of_nonlist ex d l _ hnd hp hg
            (fun eps h => PyVal.noConfusion h)
      | pint n =>
          exact mergeGroupInto_fixed_of_nonlist ex d l _ hnd hp hg
            (fun eps h => PyVal.noConfusion h)
      | pstr s =>
          exact mergeGroupInto_fixed_of_nonlist ex d l _ hnd hp hg
            (fun eps h => PyVal.noConfusion h)
      | pdict od =>
          exact mergeGroupInto_fixed_of_nonlist ex d l _ hnd hp hg
            (fun eps h => PyVal.noConfusion h)

theorem insNewGroup_ne_key (acc : List (String × List (String × PyVal))) (g : PyVal)
    (k : String)
    (h : ∀ d, g = PyVal.pdict d → pyTruthy (dgetD d (r"name") .pnone) → groupKey d ≠ k) :
    assocGet (insNewGroup acc g) k = assocGet acc k := by
  cases g with
  | pdict d =>
      rw [insNewGroup]
      by_cases ht : pyTruthy (dgetD d (r"name") .pnone)
      · rw [if_pos ht]
        have hk := h d rfl ht
        show assocGet (match assocGet acc (groupKey d) with
          | none => assocSet acc (groupKey d) d
          | some existing => assocSet acc (groupKey d) (mergeGroupInto existing d)) k =
          assocGet acc k
        cases assocGet acc (groupKey d) with
        | none => exact assocGet_set_ne acc (groupKey d) k d (Ne.symm hk)
        | some existing => exact assocGet_set_ne acc (groupKey d) k _ (Ne.symm hk)
      · rw [if_neg ht]
  | pnone => rfl
  | pbool b => rfl
  | pint n => rfl
  | pstr s => rfl
  | plist xs => rfl

theorem fold_insNew_preserve (O : List PyVal) (k : String) :
    ∀ acc,
      (∀ g ∈ O, ∀ d, g = PyVal.pdict d → pyTruthy (dgetD d (r"name") .pnone) →
        groupKey d ≠ k) →
      assocGet (O.foldl insNewGroup acc) k = assocGet acc k := by
  induction O with
  | nil => intro acc _; rfl
  | cons g rest ih =>
      intro acc h
      rw [List.foldl_cons, ih (insNewGroup acc g) (fun g2 hg2 => h g2 (by simp [hg2]))]
      exact insNewGroup_ne_key acc g k (h g (by simp))

theorem mem_validKeys (og : List PyVal) (d : List (String × PyVal))
    (hd : PyVal.pdict d ∈ og) (ht : pyTruthy (dgetD d (r"name") .pnone)) :
    groupKey d ∈ validKeys og := by
  rw [validKeys]
  refine List.mem_filterMap.mpr ⟨PyVal.pdict d, hd, ?_⟩
  simp [ht]

theorem validKeys_tail_nodup (g : PyVal) (rest : List PyVal)
    (h : (validKeys (g :: rest)).Nodup) : (validKeys rest).Nodup := by
  cases g with
  | pdict d0 =>
      by_cases ht : pyTruthy (dgetD d0 (r"name") .pnone)
      · rw [validKeys_cons_dict_pos d0 rest ht] at h
        exact (List.nodup_cons.mp h).2
      · rw [validKeys_cons_skip _ _ (by rw [isValidGroup]; exact Bool.eq_false_iff.mpr ht)] at h
        exact h
  | pnone => rw [validKeys_cons_skip PyVal.pnone rest rfl] at h; exact h
  | pbool b => rw [validKeys_cons_skip (PyVal.pbool b) rest rfl] at h; exact h
  | pint n => rw [validKeys_cons_skip (PyVal.pint n) rest rfl] at h; exact h
  | pstr s => rw [validKeys_cons_skip (PyVal.pstr s) rest rfl] at h; exact h
  | plist xs => rw [validKeys_cons_skip (PyVal.plist xs) rest rfl] at h; exact h

theorem pass1_binding (O : List PyVal) :
    ∀ (acc : List (String × List (String × PyVal))) (d : List (String × PyVal)),
      PyVal.pdict d ∈ O → pyTruthy (dgetD d (r"name") .pnone) → (validKeys O).Nodup →
      ∃ dFix, assocGet (O.foldl insNewGroup acc) (groupKey d) = some dFix ∧
        (dFix = d ∨ ∃ ex, dFix = mergeGroupInto ex d) := by
  induction O with
  | nil => intro acc d hd; simp at hd
  | cons g rest ih =>
      intro acc d hd ht hnd
      rw [List.foldl_cons]
      rcases List.mem_cons.mp hd with h1 | h1
      · subst h1
        have hnokey : ∀ g2 ∈ rest, ∀ d2, g2 = PyVal.pdict d2 →
            pyTruthy (dgetD d2 (r"name") .pnone) → groupKey d2 ≠ groupKey d := by
          intro g2 hg2 d2 hgd2 ht2 hc
          rw [validKeys_cons_dict_pos d rest ht] at hnd
          refine (List.nodup_cons.mp hnd).1 ?_
          rw [← hc]
          exact mem_validKeys rest d2 (hgd2 ▸ hg2) ht2
        rw [fold_insNew_preserve rest (groupKey d) (insNewGroup acc (PyVal.pdict d)) hnokey]
        rw [insNewGroup, if_pos ht]
        cases hg : assocGet acc (groupKey d) with
        | none =>
            refine ⟨d, ?_, Or.inl rfl⟩
            show assocGet (match assocGet acc (groupKey d) with
              | none => assocSet acc (groupKey d) d
              | some existing => assocSet acc (groupKey d) (mergeGroupInto existing d))
                (groupKey d) = some d
            rw [hg]
            exact assocGet_set_self acc (groupKey d) d
        | some ex =>
            refine ⟨mergeGroupInto ex d, ?_, Or.inr ⟨ex, rfl⟩⟩
            show assocGet (match assocGet acc (groupKey d) with
              | none => assocSet acc (groupKey d) d
              | some existing => assocSet acc (groupKey d) (mergeGroupInto existing d))
                (groupKey d) = some (mergeGroupInto ex d)
            rw [hg]
            exact assocGet_set_self acc (groupKey d) _
      · exact ih (insNewGroup acc g) d h1 ht (validKeys_tail_nodup g rest hnd)

theorem assocSet_append {β : Type} (A : List (String × β)) (k : String) (v : β)
    (h : assocGet A k = none) : assocSet A k v = A ++ [(k, v)] := by
  induction A with
  | nil => rfl
  | cons e rest ih =>
      obtain ⟨k1, v1⟩ := e
      rw [assocGet_cons] at h
      by_cases hk : k1 = k
      · rw [if_pos hk] at h
        exact absurd h (by simp)
      · rw [if_neg hk] at h
        rw [assocSet, if_neg hk, ih h]
        rfl

theorem assocGet_append {β : Type} (A B : List (String × β)) (k : String)
    (h : assocGet A k = none) : assocGet (A ++ B) k = assocGet B k := by
  induction A with
  | nil => rfl
  | cons e rest ih =>
      obtain ⟨k1, v1⟩ := e
      rw [assocGet_cons] at h
      by_cases hk : k1 = k
      · rw [if_pos hk] at h
        exact absurd h (by simp)
      · rw [if_neg hk] at h
        rw [List.cons_append, assocGet_cons, if_neg hk]
        exact ih h

theorem rebuild_base_aux (M : List (String × List (String × PyVal))) :
    ∀ A, GInv M → ((M.map Prod.fst).Nodup) →
      (∀ k ∈ M.map Prod.fst, assocGet A k = none) →
      (M.map (fun e => PyVal.pdict e.2)).foldl insBaseGroup A = A ++ M := by
  induction M with
  | nil => intro A _ _ _; simp
  | cons e M2 ih =>
      intro A hInv hnd hdis
      obtain ⟨k, dd⟩ := e
      have he := hInv (k, dd) (by simp)
      simp only [List.map_cons] at hnd
      rw [List.map_cons, List.foldl_cons, insBaseGroup, if_pos he.1, he.2]
      rw [assocSet_append A k dd (hdis k (by simp))]
      have hnd2 : (M2.map Prod.fst).Nodup := (List.nodup_cons.mp hnd).2
      have hdis2 : ∀ k2 ∈ M2.map Prod.fst, assocGet (A ++ [(k, dd)]) k2 = none := by
        intro k2 hk2
        have hne2 : ¬ k = k2 := by
          intro hc
          subst hc
          exact (List.nodup_cons.mp hnd).1 hk2
        rw [assocGet_append A [(k, dd)] k2 (hdis k2 (by simp [hk2]))]
        rw [assocGet_cons, if_neg hne2]
        rfl
      rw [ih (A ++ [(k, dd)]) (fun f hf => hInv f (by simp [hf])) hnd2 hdis2,
        List.append_assoc]
      rfl

theorem isValidGroup_elim (g : PyVal) (h : isValidGroup g = true) :
    ∃ d, g = PyVal.pdict d ∧ pyTruthy (dgetD d (r"name") .pnone) := by
  cases g with
  | pdict d =>
      refine ⟨d, rfl, ?_⟩
      rw [isValidGroup] at h
      exact h
  | pnone => simp [isValidGroup] at h
  | pbool b => simp [isValidGroup] at h
  | pint n => simp [isValidGroup] at h
  | pstr s => simp [isValidGroup] at h
  | plist xs => simp [isValidGroup] at h

theorem fold_groups_keys_nodup (step : List (String × List (String × PyVal)) → PyVal →
      List (String × List (String × PyVal)))
    (hstep : ∀ acc g, (isValidGroup g = false → step acc g = acc) ∧
      (∀ d, g = PyVal.pdict d → pyTruthy (dgetD d (r"name") .pnone) →
        ((step acc g).map Prod.fst) = (assocSet acc (groupKey d) d).map Prod.fst))
    (gs : List PyVal) :
    ∀ acc, ((acc.map Prod.fst).Nodup) → (((gs.foldl step acc).map Prod.fst).Nodup) := by
  induction gs with
  | nil => intro acc h; exact h
  | cons g rest ih =>
      intro acc h
      rw [List.foldl_cons]
      apply ih
      by_cases hv : isValidGroup g = true
      · obtain ⟨d, rfl, ht⟩ := isValidGroup_elim g hv
        rw [(hstep acc (PyVal.pdict d)).2 d rfl ht]
        exact assocSet_keys_nodup acc (groupKey d) d h
      · rw [(hstep acc g).1 (by simpa using hv)]
        exact h

theorem foldl_id {α β : Type} (f : β → α → β) (b : β) (l : List α)
    (h : ∀ a ∈ l, f b a = b) : l.foldl f b = b := by
  induction l with
  | nil => rfl
  | cons a rest ih =>
      rw [List.foldl_cons, h a (by simp)]
      exact ih (fun x hx => h x (by simp [hx]))

theorem insNew_fixed (M : List (String × List (String × PyVal))) (g : PyVal)
    (h : ∀ d, g = PyVal.pdict d → pyTruthy (dgetD d (r"name") .pnone) →
      ∃ dFix, assocGet M (groupKey d) = some dFix ∧ mergeGroupInto dFix d = dFix) :
    insNewGroup M g = M := by
  cases g with
  | pdict d =>
      rw [insNewGroup]
      by_cases ht : pyTruthy (dgetD d (r"name") .pnone)
      · rw [if_pos ht]
        obtain ⟨dFix, hb, hfix⟩ := h d rfl ht
        show (match assocGet M (groupKey d) with
          | none => assocSet M (groupKey d) d
          | some existing => assocSet M (groupKey d) (mergeGroupInto existing d)) = M
        rw [hb]
        show assocSet M (groupKey d) (mergeGroupInto dFix d) = M
        rw [hfix]
        exact assocSet_eq_self M (groupKey d) dFix hb
      · rw [if_neg ht]
  | pnone => rfl
  | pbool b => rfl
  | pint n => rfl
  | pstr s => rfl
  | plist xs => rfl

theorem goodGroupB_dict (d : List (String × PyVal)) (h : goodGroupB (PyVal.pdict d) = true) :
    (d.map Prod.fst).Nodup ∧
    (pyTruthy (dgetD d (r"name") .pnone) →
      ∃ l, assocGet d (r"proxies") = some (.plist l) ∧ l.Nodup) := by
  rw [goodGroupB, Bool.and_eq_true] at h
  obtain ⟨h1, h2⟩ := h
  refine ⟨of_decide_eq_true h1, ?_⟩
  intro ht
  rw [if_pos ht] at h2
  cases hg : assocGet d (r"proxies") with
  | none =>
      rw [hg] at h2
      exact Bool.noConfusion h2
  | some w =>
      rw [hg] at h2
      cases w with
      | plist l => exact ⟨l, rfl, of_decide_eq_true h2⟩
      | pnone => exact Bool.noConfusion h2
      | pbool b => exact Bool.noConfusion h2
      | pint n => exact Bool.noConfusion h2
      | pstr s => exact Bool.noConfusion h2
      | pdict od => exact Bool.noConfusion h2

theorem mgl_idem (G O : List PyVal) (hO : goodGroupsB O = true) :
    merge_group_lists (merge_group_lists G O) O = merge_group_lists G O := by
  rw [goodGroupsB, Bool.and_eq_true] at hO
  obtain ⟨hall, hkeys⟩ := hO
  have hAll : ∀ g ∈ O, goodGroupB g = true := by
    intro g hg
    exact List.all_eq_true.mp hall g hg
  have hKeys : (validKeys O).Nodup := of_decide_eq_true hkeys
  have hWF : WFGroups O := by
    intro g hg d hd
    subst hd
    exact (goodGroupB_dict d (hAll _ hg)).1
  have hInvNil : GInv [] := by intro e he; simp at he
  have hInvB := gInv_fold_base G [] hInvNil
  have hInvM := gInv_fold_new O (G.foldl insBaseGroup []) hInvB hWF
  have hndB : (((G.foldl insBaseGroup []).map Prod.fst)).Nodup :=
    fold_groups_keys_nodup insBaseGroup insBase_step_spec G [] (by simp)
  have hndM : (((O.foldl insNewGroup (G.foldl insBaseGroup [])).map Prod.fst)).Nodup :=
    fold_groups_keys_nodup insNewGroup insNew_step_spec O _ hndB
  have hfix : ∀ g ∈ O, insNewGroup (O.foldl insNewGroup (G.foldl insBaseGroup [])) g =
      O.foldl insNewGroup (G.foldl insBaseGroup []) := by
    intro g hg
    apply insNew_fixed
    intro d hgd ht
    subst hgd
    obtain ⟨hnd, hplist⟩ := goodGroupB_dict d (hAll _ hg)
    obtain ⟨l, hp, hl⟩ := hplist ht
    obtain ⟨dFix, hb, hcase⟩ := pass1_binding O (G.foldl insBaseGroup []) d hg ht hKeys
    refine ⟨dFix, hb, ?_⟩
    rcases hcase with rfl | ⟨ex, rfl⟩
    · exact mergeGroupInto_self _ l hnd hp hl
    · exact mergeGroupInto_fix ex _ l hnd hp
  show merge_group_lists
      ((O.foldl insNewGroup (G.foldl insBaseGroup [])).map (fun e => PyVal.pdict e.2)) O =
    (O.foldl insNewGroup (G.foldl insBaseGroup [])).map (fun e => PyVal.pdict e.2)
  rw [merge_group_lists]
  rw [rebuild_base_aux (O.foldl insNewGroup (G.foldl insBaseGroup [])) [] hInvM hndM
    (fun k _ => rfl)]
  rw [List.nil_append]
  rw [foldl_id insNewGroup _ O hfix]

theorem entryValAt_pg (w : Option PyVal) (v : PyVal) :
    entryValAt w (r"proxy-groups") v =
      .plist (merge_group_lists (asListD w) (asListOrNil v)) := by
  rw [entryValAt, if_pos rfl]

theorem entryValAt_rules (w : Option PyVal) (v : PyVal) :
    entryValAt w (r"rules") v =
      .plist ((place_rules_before_match (asListD w) (asListOrNil v)).map PyVal.pstr) := by
  rw [entryValAt, if_neg (by decide), if_pos rfl]

theorem entryValAt_proxies (w : Option PyVal) (v : PyVal) :
    entryValAt w (r"proxies") v =
      .plist ((deduplicate_proxies (dictItems (asListD w ++ asListOrNil v))).map PyVal.pdict) := by
  rw [entryValAt, if_neg (by decide), if_neg (by decide), if_pos rfl]

theorem entryValAt_nonspecial (w : Option PyVal) (k : String) (v : PyVal)
    (h1 : ¬ k = r"proxy-groups") (h2 : ¬ k = r"rules") (h3 : ¬ k = r"proxies") :
    entryValAt w k v = replaceVal w v := by
  rw [entryValAt, if_neg h1, if_neg h2, if_neg h3]

theorem specialEntry_eq_pg (base : List (String × PyVal)) (v : PyVal) :
    specialEntry base (r"proxy-groups") v =
      dset base (r"proxy-groups")
        (entryValAt (dget base (r"proxy-groups")) (r"proxy-groups") v) := by
  rw [specialEntry, if_pos rfl, entryValAt_pg]

theorem specialEntry_eq_rules (base : List (String × PyVal)) (v : PyVal) :
    specialEntry base (r"rules") v =
      dset base (r"rules") (entryValAt (dget base (r"rules")) (r"rules") v) := by
  rw [specialEntry, if_neg (by decide), if_pos rfl, entryValAt_rules]

theorem specialEntry_eq_proxies (base : List (String × PyVal)) (v : PyVal) :
    specialEntry base (r"proxies") v =
      dset base (r"proxies") (entryValAt (dget base (r"proxies")) (r"proxies") v) := by
  rw [specialEntry, if_neg (by decide), if_neg (by decide), if_pos rfl, entryValAt_proxies]

theorem mergeEntry_eq_dset (base : List (String × PyVal)) (k : String) (v : PyVal) :
    mergeEntry base k v = dset base k (entryValAt (dget base k) k v) := by
  cases v with
  | pdict od =>
      show (if isSpecialKey k then specialEntry base k (PyVal.pdict od)
          else match dget base k with
            | some (PyVal.pdict d) => dset base k (PyVal.pdict (deep_merge_config d od))
            | _ => dset base k (PyVal.pdict od)) =
        dset base k (entryValAt (dget base k) k (PyVal.pdict od))
      by_cases h1 : k = r"proxy-groups"
      · subst h1
        rw [if_pos (by decide : isSpecialKey (r"proxy-groups") = true)]
        exact specialEntry_eq_pg base (PyVal.pdict od)
      · by_cases h2 : k = r"rules"
        · subst h2
          rw [if_pos (by decide : isSpecialKey (r"rules") = true)]
          exact specialEntry_eq_rules base (PyVal.pdict od)
        · by_cases h3 : k = r"proxies"
          · subst h3
            rw [if_pos (by decide : isSpecialKey (r"proxies") = true)]
            exact specialEntry_eq_proxies base (PyVal.pdict od)
          · have hs : isSpecialKey k = false := by
              simp [isSpecialKey, h1, h2, h3]
            rw [if_neg (by simp [hs]), entryValAt_nonspecial _ _ _ h1 h2 h3]
            cases hw : dget base k with
            | none => rfl
            | some w => cases w <;> rfl
  | pnone =>
      show (if isSpecialKey k then specialEntry base k PyVal.pnone else dset base k PyVal.pnone) =
        dset base k (entryValAt (dget base k) k PyVal.pnone)
      by_cases h1 : k = r"proxy-groups"
      · subst h1
        rw [if_pos (by decide : isSpecialKey (r"proxy-groups") = true)]
        exact specialEntry_eq_pg base PyVal.pnone
      · by_cases h2 : k = r"rules"
        · subst h2
          rw [if_pos (by decide : isSpecialKey (r"rules") = true)]
          exact specialEntry_eq_rules base PyVal.pnone
        · by_cases h3 : k = r"proxies"
          · subst h3
            rw [if_pos (by decide : isSpecialKey (r"proxies") = true)]
            exact specialEntry_eq_proxies base PyVal.pnone
          · have hs : isSpecialKey k = false := by
              simp [isSpecialKey, h1, h2, h3]
            rw [if_neg (by simp [hs]), entryValAt_nonspecial _ _ _ h1 h2 h3]
            rfl
  | pbool b =>
      show (if isSpecialKey k then specialEntry base k (PyVal.pbool b) else dset base k (PyVal.pbool b)) =
        dset base k (entryValAt (dget base k) k (PyVal.pbool b))
      by_cases h1 : k = r"proxy-groups"
      · subst h1
        rw [if_pos (by decide : isSpecialKey (r"proxy-groups") = true)]
        exact specialEntry_eq_pg base (PyVal.pbool b)
      · by_cases h2 : k = r"rules"
        · subst h2
          rw [if_pos (by decide : isSpecialKey (r"rules") = true)]
          exact specialEntry_eq_rules base (PyVal.pbool b)
        · by_cases h3 : k = r"proxies"
          · subst h3
            rw [if_pos (by decide : isSpecialKey (r"proxies") = true)]
            exact specialEntry_eq_proxies base (PyVal.pbool b)
          · have hs : isSpecialKey k = false := by
              simp [isSpecialKey, h1, h2, h3]
            rw [if_neg (by simp [hs]), entryValAt_nonspecial _ _ _ h1 h2 h3]
            rfl
  | pint n =>
      show (if isSpecialKey k then specialEntry base k (PyVal.pint n) else dset base k (PyVal.pint n)) =
        dset base k (entryValAt (dget base k) k (PyVal.pint n))
      by_cases h1 : k = r"proxy-groups"
      · subst h1
        rw [if_pos (by decide : isSpecialKey (r"proxy-groups") = true)]
        exact specialEntry_eq_pg base (PyVal.pint n)
      · by_cases h2 : k = r"rules"
        · subst h2
          rw [if_pos (by decide : isSpecialKey (r"rules") = true)]
          exact specialEntry_eq_rules base (PyVal.pint n)
        · by_cases h3 : k = r"proxies"
          · subst h3
            rw [if_pos (by decide : isSpecialKey (r"proxies") = true)]
            exact specialEntry_eq_proxies base (PyVal.pint n)
          · have hs : isSpecialKey k = false := by
              simp [isSpecialKey, h1, h2, h3]
            rw [if_neg (by simp [hs]), entryValAt_nonspecial _ _ _ h1 h2 h3]
            rfl
  | pstr s =>
      show (if isSpecialKey k then specialEntry base k (PyVal.pstr s) else dset base k (PyVal.pstr s)) =
        dset base k (entryValAt (dget base k) k (PyVal.pstr s))
      by_cases h1 : k = r"proxy-groups"
      · subst h1
        rw [if_pos (by decide : isSpecialKey (r"proxy-groups") = true)]
        exact specialEntry_eq_pg base (PyVal.pstr s)
      · by_cases h2 : k = r"rules"
        · subst h2
          rw [if_pos (by decide : isSpecialKey (r"rules") = true)]
          exact specialEntry_eq_rules base (PyVal.pstr s)
        · by_cases h3 : k = r"proxies"
          · subst h3
            rw [if_pos (by decide : isSpecialKey (r"proxies") = true)]
            exact specialEntry_eq_proxies base (PyVal.pstr s)
          · have hs : isSpecialKey k = false := by
              simp [isSpecialKey, h1, h2, h3]
            rw [if_neg (by simp [hs]), entryValAt_nonspecial _ _ _ h1 h2 h3]
            rfl
  | plist xs =>
      show (if isSpecialKey k then specialEntry base k (PyVal.plist xs) else dset base k (PyVal.plist xs)) =
        dset base k (entryValAt (dget base k) k (PyVal.plist xs))
      by_cases h1 : k = r"proxy-groups"
      · subst h1
        rw [if_pos (by decide : isSpecialKey (r"proxy-groups") = true)]
        exact specialEntry_eq_pg base (PyVal.plist xs)
      · by_cases h2 : k = r"rules"
        · subst h2
          rw [if_pos (by decide : isSpecialKey (r"rules") = true)]
          exact specialEntry_eq_rules base (PyVal.plist xs)
        · by_cases h3 : k = r"proxies"
          · subst h3
            rw [if_pos (by decide : isSpecialKey (r"proxies") = true)]
            exact specialEntry_eq_proxies base (PyVal.plist xs)
          · have hs : isSpecialKey k = false := by
              simp [isSpecialKey, h1, h2, h3]
            rw [if_neg (by simp [hs]), entryValAt_nonspecial _ _ _ h1 h2 h3]
            rfl

theorem dget_mergeEntry_ne (base : List (String × PyVal)) (k k2 : String) (v : PyVal)
    (h : k2 ≠ k) : dget (mergeEntry base k v) k2 = dget base k2 := by
  rw [mergeEntry_eq_dset, dget, dget, dset, assocGet_set_ne base k k2 _ h]
  rfl

theorem dget_dm_not_mem (o : List (String × PyVal)) :
    ∀ (b : List (String × PyVal)) (k : String), k ∉ o.map Prod.fst →
      dget (deep_merge_config b o) k = dget b k := by
  induction o with
  | nil => intro b k _; rfl
  | cons e rest ih =>
      intro b k hk
      obtain ⟨k1, v1⟩ := e
      show dget (deep_merge_config (mergeEntry b k1 v1) rest) k = dget b k
      rw [ih (mergeEntry b k1 v1) k (fun hc => hk (by simp [hc]))]
      exact dget_mergeEntry_ne b k1 k v1 (fun hc => hk (by simp [hc]))

theorem dget_dm_mem (o : List (String × PyVal)) :
    ∀ (b : List (String × PyVal)) (k : String) (v : PyVal),
      ((o.map Prod.fst).Nodup) → (k, v) ∈ o →
      dget (deep_merge_config b o) k = some (entryValAt (dget b k) k v) := by
  induction o with
  | nil => intro b k v _ h; simp at h
  | cons e rest ih =>
      intro b k v hnd hmem
      obtain ⟨k1, v1⟩ := e
      simp only [List.map_cons] at hnd
      show dget (deep_merge_config (mergeEntry b k1 v1) rest) k = _
      rcases List.mem_cons.mp hmem with h | h
      · obtain ⟨rfl, rfl⟩ := Prod.mk.injEq .. ▸ h
        rw [dget_dm_not_mem rest (mergeEntry b k v) k
          (by simpa using (List.nodup_cons.mp hnd).1)]
        rw [mergeEntry_eq_dset, dget, dset, assocGet_set_self]
      · have hk1 : k ≠ k1 := by
          intro hc
          subst hc
          exact (List.nodup_cons.mp hnd).1 (List.mem_map.mpr ⟨(k, v), h, rfl⟩)
        rw [ih (mergeEntry b k1 v1) k v (List.nodup_cons.mp hnd).2 h]
        rw [dget_mergeEntry_ne b k1 k v1 hk1]

theorem dm_fixed (o : List (String × PyVal)) :
    ∀ F, (∀ e ∈ o, mergeEntry F e.1 e.2 = F) → deep_merge_config F o = F := by
  induction o with
  | nil => intro F _; rfl
  | cons e rest ih =>
      intro F h
      obtain ⟨k, v⟩ := e
      show deep_merge_config (mergeEntry F k v) rest = F
      rw [show mergeEntry F k v = F from h (k, v) (by simp)]
      exact ih F (fun f hf => h f (by simp [hf]))

theorem goodOv_mem (o : List (String × PyVal)) :
    ∀ b, goodOv b o = true → ∀ e ∈ o, goodEntry b e.1 e.2 = true := by
  induction o with
  | nil => intro b _ e he; simp at he
  | cons f rest ih =>
      intro b h e he
      obtain ⟨k, v⟩ := f
      rw [goodOv, Bool.and_eq_true] at h
      rcases List.mem_cons.mp he with h1 | h1
      · subst h1
        exact h.1
      · exact ih b h.2 e h1

theorem goodEntry_special (b : List (String × PyVal)) (k : String) (v : PyVal)
    (hs : isSpecialKey k = true) :
    goodEntry b k v = goodSpecial (dget b k) k v := by
  cases v with
  | pdict od =>
      show (if isSpecialKey k then goodSpecial (dget b k) k (PyVal.pdict od)
          else match dget b k with
            | some (PyVal.pdict d) => decide ((od.map Prod.fst).Nodup) && goodOv d od
            | _ => false) = goodSpecial (dget b k) k (PyVal.pdict od)
      rw [if_pos hs]
  | pnone =>
      show (if isSpecialKey k then goodSpecial (dget b k) k PyVal.pnone else true) =
        goodSpecial (dget b k) k PyVal.pnone
      rw [if_pos hs]
  | pbool b2 =>
      show (if isSpecialKey k then goodSpecial (dget b k) k (PyVal.pbool b2) else true) =
        goodSpecial (dget b k) k (PyVal.pbool b2)
      rw [if_pos hs]
  | pint n =>
      show (if isSpecialKey k then goodSpecial (dget b k) k (PyVal.pint n) else true) =
        goodSpecial (dget b k) k (PyVal.pint n)
      rw [if_pos hs]
  | pstr s =>
      show (if isSpecialKey k then goodSpecial (dget b k) k (PyVal.pstr s) else true) =
        goodSpecial (dget b k) k (PyVal.pstr s)
      rw [if_pos hs]
  | plist xs =>
      show (if isSpecialKey k then goodSpecial (dget b k) k (PyVal.plist xs) else true) =
        goodSpecial (dget b k) k (PyVal.plist xs)
      rw [if_pos hs]

theorem dm_idem_aux (n : Nat) :
    ∀ (o b : List (String × PyVal)), sizeOf o ≤ n →
      ((o.map Prod.fst).Nodup) → goodOv b o = true →
      deep_merge_config (deep_merge_config b o) o = deep_merge_config b o := by
  induction n with
  | zero =>
      intro o b hsz _ _
      cases o with
      | nil => rfl
      | cons e rest =>
          exfalso
          simp only [List.cons.sizeOf_spec] at hsz
          omega
  | succ n ih =>
      intro o b hsz hnd hgood
      apply dm_fixed
      intro e he
      obtain ⟨k, v⟩ := e
      have hw := dget_dm_mem o b k v hnd he
      have hge := goodOv_mem o b hgood (k, v) he
      rw [mergeEntry_eq_dset, hw]
      suffices hfix : entryValAt (some (entryValAt (dget b k) k v)) k v =
          entryValAt (dget b k) k v by
        rw [hfix]
        exact assocSet_eq_self _ k _ hw
      by_cases h1 : k = r"proxy-groups"
      · subst h1
        have hgg : goodGroupsB (asListOrNil v) = true := by
          have hx := goodEntry_special b (r"proxy-groups") v (by decide)
          rw [hx] at hge
          rw [goodSpecial, if_pos rfl] at hge
          exact hge
        rw [entryValAt_pg, entryValAt_pg]
        show PyVal.plist (merge_group_lists
            (merge_group_lists (asListD (dget b (r"proxy-groups"))) (asListOrNil v))
            (asListOrNil v)) =
          PyVal.plist (merge_group_lists (asListD (dget b (r"proxy-groups"))) (asListOrNil v))
        rw [mgl_idem (asListD (dget b (r"proxy-groups"))) (asListOrNil v) hgg]
      · by_cases h2 : k = r"rules"
        · subst h2
          rw [entryValAt_rules, entryValAt_rules]
          show PyVal.plist ((place_rules_before_match
              ((place_rules_before_match (asListD (dget b (r"rules")))
                (asListOrNil v)).map PyVal.pstr)
              (asListOrNil v)).map PyVal.pstr) =
            PyVal.plist ((place_rules_before_match (asListD (dget b (r"rules")))
              (asListOrNil v)).map PyVal.pstr)
          rw [place_fixed (asListD (dget b (r"rules"))) (asListOrNil v)]
        · by_cases h3 : k = r"proxies"
          · subst h3
            have hpn : ∀ p ∈ dictItems (asListD (dget b (r"proxies")) ++ asListOrNil v),
                baseName p ≠ r"" := by
              have hx := goodEntry_special b (r"proxies") v (by decide)
              rw [hx] at hge
              rw [goodSpecial, if_neg (by decide), if_pos rfl] at hge
              intro p hp
              exact of_decide_eq_true (List.all_eq_true.mp hge p hp)
            have hsub : ∀ q ∈ dictItems (asListOrNil v),
                proxy_fingerprint q ∈
                  (dictItems (asListD (dget b (r"proxies")) ++ asListOrNil v)).map
                    proxy_fingerprint := by
              intro q hq
              refine List.mem_map.mpr ⟨q, ?_, rfl⟩
              rw [dictItems_append]
              exact List.mem_append_right _ hq
            rw [entryValAt_proxies, entryValAt_proxies]
            show PyVal.plist ((deduplicate_proxies (dictItems
                ((deduplicate_proxies (dictItems (asListD (dget b (r"proxies")) ++
                  asListOrNil v))).map PyVal.pdict ++ asListOrNil v))).map PyVal.pdict) =
              PyVal.plist ((deduplicate_proxies (dictItems (asListD (dget b (r"proxies")) ++
                asListOrNil v))).map PyVal.pdict)
            rw [dictItems_append
              ((deduplicate_proxies (dictItems (asListD (dget b (r"proxies")) ++
                asListOrNil v))).map PyVal.pdict) (asListOrNil v)]
            rw [dictItems_map_pdict
              (deduplicate_proxies (dictItems (asListD (dget b (r"proxies")) ++
                asListOrNil v)))]
            rw [dedup_pass2 (dictItems (asListD (dget b (r"proxies")) ++ asListOrNil v))
              (dictItems (asListOrNil v)) hpn hsub]
          · have hs : isSpecialKey k = false := by
              simp [isSpecialKey, h1, h2, h3]
            cases v with
            | pdict od =>
                cases hdg : dget b k with
                | none =>
                    exfalso
                    have h0 : (if isSpecialKey k then goodSpecial (dget b k) k (PyVal.pdict od)
                        else match dget b k with
                          | some (PyVal.pdict d) =>
                              decide ((od.map Prod.fst).Nodup) && goodOv d od
                          | _ => false) = true := hge
                    rw [if_neg (by simp [hs]), hdg] at h0
                    exact Bool.noConfusion h0
                | some w =>
                    cases w with
                    | pdict d =>
                        have h0 : (if isSpecialKey k then
                              goodSpecial (dget b k) k (PyVal.pdict od)
                            else match dget b k with
                              | some (PyVal.pdict d2) =>
                                  decide ((od.map Prod.fst).Nodup) && goodOv d2 od
                              | _ => false) = true := hge
                        rw [if_neg (by simp [hs]), hdg] at h0
                        have hgd : (decide ((od.map Prod.fst).Nodup) && goodOv d od) = true := h0
                        rw [Bool.and_eq_true] at hgd
                        have hsz2 : sizeOf od ≤ n := by
                          have hlt := List.sizeOf_lt_of_mem he
                          simp only [Prod.mk.sizeOf_spec, PyVal.pdict.sizeOf_spec] at hlt
                          omega
                        rw [entryValAt_nonspecial (some (PyVal.pdict d)) k
                          (PyVal.pdict od) h1 h2 h3]
                        show entryValAt (some (PyVal.pdict (deep_merge_config d od))) k
                            (PyVal.pdict od) = PyVal.pdict (deep_merge_config d od)
                        rw [entryValAt_nonspecial (some (PyVal.pdict (deep_merge_config d od)))
                          k (PyVal.pdict od) h1 h2 h3]
                        show PyVal.pdict (deep_merge_config (deep_merge_config d od) od) =
                          PyVal.pdict (deep_merge_config d od)
                        exact congrArg PyVal.pdict
                          (ih od d hsz2 (of_decide_eq_true hgd.1) hgd.2)
                    | pnone =>
                        exfalso
                        have h0 : (if isSpecialKey k then
                              goodSpecial (dget b k) k (PyVal.pdict od)
                            else match dget b k with
                              | some (PyVal.pdict d2) =>
                                  decide ((od.map Prod.fst).Nodup) && goodOv d2 od
                              | _ => false) = true := hge
                        rw [if_neg (by simp [hs]), hdg] at h0
                        exact Bool.noConfusion h0
                    | pbool b2 =>
                        exfalso
                        have h0 : (if isSpecialKey k then
                              goodSpecial (dget b k) k (PyVal.pdict od)
                            else match dget b k with
                              | some (PyVal.pdict d2) =>
                                  decide ((od.map Prod.fst).Nodup) && goodOv d2 od
                              | _ => false) = true := hge
                        rw [if_neg (by simp [hs]), hdg] at h0
                        exact Bool.noConfusion h0
                    | pint n2 =>
                        exfalso
                        have h0 : (if isSpecialKey k then
                              goodSpecial (dget b k) k (PyVal.pdict od)
                            else match dget b k with
                              | some (PyVal.pdict d2) =>
                                  decide ((od.map Prod.fst).Nodup) && goodOv d2 od
                              | _ => false) = true := hge
                        rw [if_neg (by simp [hs]), hdg] at h0
                        exact Bool.noConfusion h0
                    | pstr s2 =>
                        exfalso
                        have h0 : (if isSpecialKey k then
                              goodSpecial (dget b k) k (PyVal.pdict od)
                            else match dget b k with
                              | some (PyVal.pdict d2) =>
                                  decide ((od.map Prod.fst).Nodup) && goodOv d2 od
                              | _ => false) = true := hge
                        rw [if_neg (by simp [hs]), hdg] at h0
                        exact Bool.noConfusion h0
                    | plist l2 =>
                        exfalso
                        have h0 : (if isSpecialKey k then
                              goodSpecial (dget b k) k (PyVal.pdict od)
                            else match dget b k with
                              | some (PyVal.pdict d2) =>
                                  decide ((od.map Prod.fst).Nodup) && goodOv d2 od
                              | _ => false) = true := hge
                        rw [if_neg (by simp [hs]), hdg] at h0
                        exact Bool.noConfusion h0
            | pnone =>
                rw [entryValAt_nonspecial (dget b k) k PyVal.pnone h1 h2 h3]
                show entryValAt (some PyVal.pnone) k PyVal.pnone = PyVal.pnone
                rw [entryValAt_nonspecial (some PyVal.pnone) k PyVal.pnone h1 h2 h3]
                rfl
            | pbool b2 =>
                rw [entryValAt_nonspecial (dget b k) k (PyVal.pbool b2) h1 h2 h3]
                show entryValAt (some (PyVal.pbool b2)) k (PyVal.pbool b2) = (PyVal.pbool b2)
                rw [entryValAt_nonspecial (some (PyVal.pbool b2)) k (PyVal.pbool b2) h1 h2 h3]
                rfl
            | pint n2 =>
                rw [entryValAt_nonspecial (dget b k) k (PyVal.pint n2) h1 h2 h3]
                show entryValAt (some (PyVal.pint n2)) k (PyVal.pint n2) = (PyVal.pint n2)
                rw [entryValAt_nonspecial (some (PyVal.pint n2)) k (PyVal.pint n2) h1 h2 h3]
                rfl
            | pstr s2 =>
                rw [entryValAt_nonspecial (dget b k) k (PyVal.pstr s2) h1 h2 h3]
                show entryValAt (some (PyVal.pstr s2)) k (PyVal.pstr s2) = (PyVal.pstr s2)
                rw [entryValAt_nonspecial (some (PyVal.pstr s2)) k (PyVal.pstr s2) h1 h2 h3]
                rfl
            | plist l2 =>
                rw [entryValAt_nonspecial (dget b k) k (PyVal.plist l2) h1 h2 h3]
                show entryValAt (some (PyVal.plist l2)) k (PyVal.plist l2) = (PyVal.plist l2)
                rw [entryValAt_nonspecial (some (PyVal.plist l2)) k (PyVal.plist l2) h1 h2 h3]
                rfl

/-- Claim C4, counterexample to the claim as stated: merging the override
`{proxy-groups: [{name: A}]}` onto the empty base once yields a group
list whose only group has no `proxies` key; applying the same override a
second time merges the group with itself and stores an explicit
`proxies: []` entry, so the second application changes the document and
`deep_merge_config` is not unconditionally idempotent. -/
theorem C4_counterexample :
    deep_merge_config (deep_merge_config []
        [((r"proxy-groups" : String),
          PyVal.plist [PyVal.pdict [((r"name" : String), PyVal.pstr (r"A"))]])])
        [((r"proxy-groups" : String),
          PyVal.plist [PyVal.pdict [((r"name" : String), PyVal.pstr (r"A"))]])] ≠
      deep_merge_config []
        [((r"proxy-groups" : String),
          PyVal.plist [PyVal.pdict [((r"name" : String), PyVal.pstr (r"A"))]])] := by
  decide

/-- Claim C4, amended.  Applying the same override twice to an unchanged
base equals applying it once, provided the override is well-formed for
the merge: its keys are pairwise distinct and every entry is good
(`goodOv`) — each override proxy-group is a distinct-key mapping with a
distinct truthy name and an explicit duplicate-free member list, all
nodes reachable at a `proxies` key have non-blank stripped base names,
and every nested mapping at a non-special key lands on an existing
mapping of the base and is recursively good.  Without these conditions
idempotence fails (see the counterexample). -/
theorem C4_override_idempotent_amended (b o : List (String × PyVal))
    (hnd : (o.map Prod.fst).Nodup) (hgood : goodOv b o = true) :
    deep_merge_config (deep_merge_config b o) o = deep_merge_config b o :=
  dm_idem_aux (sizeOf o) o b (le_refl _) hnd hgood

theorem C4_witness :
    ((([((r"proxies" : String),
          PyVal.plist [PyVal.pdict [((r"name" : String), PyVal.pstr (r"n2"))]]),
        ((r"rules" : String), PyVal.plist [PyVal.pstr (r"DOMAIN,x.com,PROXY")]),
        ((r"proxy-groups" : String),
          PyVal.plist [PyVal.pdict [((r"name" : String), PyVal.pstr (r"G")),
            ((r"proxies" : String), PyVal.plist [PyVal.pstr (r"n1")])]]),
        ((r"port" : String), PyVal.pint 7890),
        ((r"dns" : String), PyVal.pdict [((r"ipv6" : String), PyVal.pbool false)])]
        : List (String × PyVal)).map Prod.fst).Nodup ∧
      goodOv
        [((r"proxies" : String),
          PyVal.plist [PyVal.pdict [((r"name" : String), PyVal.pstr (r"n1")),
            ((r"type" : String), PyVal.pstr (r"ss"))]]),
         ((r"rules" : String), PyVal.plist [PyVal.pstr (r"MATCH,DIRECT")]),
         ((r"dns" : String), PyVal.pdict [((r"enable" : String), PyVal.pbool true)])]
        [((r"proxies" : String),
          PyVal.plist [PyVal.pdict [((r"name" : String), PyVal.pstr (r"n2"))]]),
         ((r"rules" : String), PyVal.plist [PyVal.pstr (r"DOMAIN,x.com,PROXY")]),
         ((r"proxy-groups" : String),
          PyVal.plist [PyVal.pdict [((r"name" : String), PyVal.pstr (r"G")),
            ((r"proxies" : String), PyVal.plist [PyVal.pstr (r"n1")])]]),
         ((r"port" : String), PyVal.pint 7890),
         ((r"dns" : String), PyVal.pdict [((r"ipv6" : String), PyVal.pbool false)])] = true) ∧
    deep_merge_config (deep_merge_config
        [((r"proxies" : String),
          PyVal.plist [PyVal.pdict [((r"name" : String), PyVal.pstr (r"n1")),
            ((r"type" : String), PyVal.pstr (r"ss"))]]),
         ((r"rules" : String), PyVal.plist [PyVal.pstr (r"MATCH,DIRECT")]),
         ((r"dns" : String), PyVal.pdict [((r"enable" : String), PyVal.pbool true)])]
        [((r"proxies" : String),
          PyVal.plist [PyVal.pdict [((r"name" : String), PyVal.pstr (r"n2"))]]),
         ((r"rules" : String), PyVal.plist [PyVal.pstr (r"DOMAIN,x.com,PROXY")]),
         ((r"proxy-groups" : String),
          PyVal.plist [PyVal.pdict [((r"name" : String), PyVal.pstr (r"G")),
            ((r"proxies" : String), PyVal.plist [PyVal.pstr (r"n1")])]]),
         ((r"port" : String), PyVal.pint 7890),
         ((r"dns" : String), PyVal.pdict [((r"ipv6" : String), PyVal.pbool false)])])
        [((r"proxies" : String),
          PyVal.plist [PyVal.pdict [((r"name" : String), PyVal.pstr (r"n2"))]]),
         ((r"rules" : String), PyVal.plist [PyVal.pstr (r"DOMAIN,x.com,PROXY")]),
         ((r"proxy-groups" : String),
          PyVal.plist [PyVal.pdict [((r"name" : String), PyVal.pstr (r"G")),
            ((r"proxies" : String), PyVal.plist [PyVal.pstr (r"n1")])]]),
         ((r"port" : String), PyVal.pint 7890),
         ((r"dns" : String), PyVal.pdict [((r"ipv6" : String), PyVal.pbool false)])] =
      deep_merge_config
        [((r"proxies" : String),
          PyVal.plist [PyVal.pdict [((r"name" : String), PyVal.pstr (r"n1")),
            ((r"type" : String), PyVal.pstr (r"ss"))]]),
         ((r"rules" : String), PyVal.plist [PyVal.pstr (r"MATCH,DIRECT")]),
         ((r"dns" : String), PyVal.pdict [((r"enable" : String), PyVal.pbool true)])]
        [((r"proxies" : String),
          PyVal.plist [PyVal.pdict [((r"name" : String), PyVal.pstr (r"n2"))]]),
         ((r"rules" : String), PyVal.plist [PyVal.pstr (r"DOMAIN,x.com,PROXY")]),
         ((r"proxy-groups" : String),
          PyVal.plist [PyVal.pdict [((r"name" : String), PyVal.pstr (r"G")),
            ((r"proxies" : String), PyVal.plist [PyVal.pstr (r"n1")])]]),
         ((r"port" : String), PyVal.pint 7890),
         ((r"dns" : String), PyVal.pdict [((r"ipv6" : String), PyVal.pbool false)])] :=
  ⟨⟨by decide, by decide⟩,
    C4_override_idempotent_amended
      [((r"proxies" : String),
        PyVal.plist [PyVal.pdict [((r"name" : String), PyVal.pstr (r"n1")),
          ((r"type" : String), PyVal.pstr (r"ss"))]]),
       ((r"rules" : String), PyVal.plist [PyVal.pstr (r"MATCH,DIRECT")]),
       ((r"dns" : String), PyVal.pdict [((r"enable" : String), PyVal.pbool true)])]
      [((r"proxies" : String),
        PyVal.plist [PyVal.pdict [((r"name" : String), PyVal.pstr (r"n2"))]]),
       ((r"rules" : String), PyVal.plist [PyVal.pstr (r"DOMAIN,x.com,PROXY")]),
       ((r"proxy-groups" : String),
        PyVal.plist [PyVal.pdict [((r"name" : String), PyVal.pstr (r"G")),
          ((r"proxies" : String), PyVal.plist [PyVal.pstr (r"n1")])]]),
       ((r"port" : String), PyVal.pint 7890),
       ((r"dns" : String), PyVal.pdict [((r"ipv6" : String), PyVal.pbool false)])]
      (by decide) (by decide)⟩
